import Mathlib

/-!
Verification development for the spinx monorepo manager.

We give a shallow embedding of the core of the system:
* the dependency graph engine (`src/core/graph.ts`): construction,
  cycle detection, topological order, parallel batches, affected sets;
* the configuration helpers (`src/core/config.ts`): `validateWorkspaces`
  and `getCommand`;
* the task scheduler (`src/core/tasks.ts`): `runTask`, `runBatch`, `runAll`;
* the package resolver (`src/core/resolution.ts`): `analyze` and the
  generated runtime resolver hook's `findWorkspace`.

JavaScript `Map`s and plain objects are modelled as insertion-ordered
association lists (`List (String × α)`) with the exact `set`/`delete`
semantics of the source; JavaScript `Set`s are modelled as insertion-ordered
duplicate-free lists.  File-system reads and subprocess execution are
modelled as oracle parameters.  JavaScript numbers used as counters are
modelled as `Int` (they can go negative in the source).
-/

namespace Spinx

/-! ## Ordered association lists (JavaScript `Map` / object semantics) -/

/-- Lookup in an insertion-ordered association list (first key wins,
like `Map.get` / property read). -/
def lookupAL {α : Type} : List (String × α) → String → Option α
  | [], _ => none
  | (k, v) :: rest, key => if key = k then some v else lookupAL rest key

/-- Update semantics of `Map.set` / object property assignment: replace the
value in place if the key is present, else append the new entry. -/
def setAL {α : Type} : List (String × α) → String → α → List (String × α)
  | [], k, v => [(k, v)]
  | (k', v') :: rest, k, v =>
    if k = k' then (k', v) :: rest else (k', v') :: setAL rest k v

/-- Deletion semantics of `Map.delete`: remove the first entry with the key. -/
def eraseAL {α : Type} : List (String × α) → String → List (String × α)
  | [], _ => []
  | (k', v') :: rest, k => if k = k' then rest else (k', v') :: eraseAL rest k

/-- Keys of an association list, in insertion order. -/
def keysAL {α : Type} (m : List (String × α)) : List String := m.map (·.1)

/-- Insertion semantics of `Set.add`: append unless already present. -/
def addSet (l : List String) (a : String) : List String :=
  if a ∈ l then l else l ++ [a]

/-- Conversion of an array to a `Set` (`new Set(arr)`): dedup keeping the
first occurrence's position. -/
def setOfList (l : List String) : List String := l.foldl addSet []

/-! ## Data model (`src/types.ts`)

`Workspace` mirrors the `Workspace` interface: `path`, optional `alias`,
optional `dependsOn` (absent modelled as `[]`, which is behaviourally
identical everywhere the source reads it through `|| []` or a `for … of`
loop), and the string-keyed `command` map.  `Config` mirrors `spinxConfig`
(the `manager` literal and `watch` hints play no role in the verified core).
-/

structure Workspace where
  path : String
  alias? : Option String
  dependsOn : List String
  command : List (String × String)
deriving DecidableEq

structure Config where
  concurrency : Option Nat
  workspace : List Workspace
  defaults : List (String × String)
deriving DecidableEq

/-- TaskResult of `src/types.ts` (the `error` field holds the message of the
captured subprocess error). -/
structure TaskResult where
  workspace : String
  success : Bool
  duration : Nat
  error? : Option String
deriving DecidableEq

/-- GraphNode of `src/types.ts`: the `Set`s become insertion-ordered
duplicate-free lists. -/
structure GraphNode where
  workspace : Workspace
  dependencies : List String
  dependents : List String
deriving DecidableEq

/-- NodesMap models the `Map<string, GraphNode>` owned by `DependencyGraph`. -/
abbrev NodesMap := List (String × GraphNode)

/-- Identity of a workspace: `workspace.alias || workspace.path`
(a missing or empty alias falls back to the path, as `||` tests truthiness). -/
def identOf (ws : Workspace) : String :=
  match ws.alias? with
  | some a => if a = "" then ws.path else a
  | none => ws.path

/-! ## Graph construction (`DependencyGraph.buildGraph`, `src/core/graph.ts`) -/

/-- First pass of `buildGraph`: one node per workspace keyed by its identity
(`Map.set`, so a later workspace with the same identity overwrites), with
`dependencies = new Set(workspace.dependsOn || [])` and empty `dependents`. -/
def buildNodes (wss : List Workspace) : NodesMap :=
  wss.foldl (fun m ws => setAL m (identOf ws) ⟨ws, setOfList ws.dependsOn, []⟩) []

/-- One step of the reverse-edge pass: if `dep` names an existing node, add
`x` to its `dependents` set (`depNode.dependents.add(alias)`); missing
dependencies are skipped silently. -/
def bdStep (x : String) (m : NodesMap) (dep : String) : NodesMap :=
  match lookupAL m dep with
  | some dn => setAL m dep { dn with dependents := addSet dn.dependents x }
  | none => m

/-- Second pass of `buildGraph`: for every node and every one of its
dependencies, run `bdStep`. -/
def buildDependents (m0 : NodesMap) : NodesMap :=
  m0.foldl (fun m p => p.2.dependencies.foldl (bdStep p.1) m) m0

/-- Complete `buildGraph`. -/
def graphOf (wss : List Workspace) : NodesMap :=
  buildDependents (buildNodes wss)

/-- Accessor `getDependencies` (empty on unknown alias). -/
def depsOf (g : NodesMap) (a : String) : List String :=
  match lookupAL g a with
  | some n => n.dependencies
  | none => []

/-- Accessor `getDependents` (empty on unknown alias). -/
def dependentsOf (g : NodesMap) (a : String) : List String :=
  match lookupAL g a with
  | some n => n.dependents
  | none => []

/-- Dependency edge relation of a graph: `a` depends on `b`. -/
def dependsRel (g : NodesMap) (a b : String) : Prop :=
  ∃ n, lookupAL g a = some n ∧ b ∈ n.dependencies

/-- Executable version of `dependsRel`. -/
def dependsB (g : NodesMap) (a b : String) : Bool :=
  match lookupAL g a with
  | some n => n.dependencies.contains b
  | none => false

/-- Acyclicity of the dependency relation: no nonempty dependency path from
any name back to itself. -/
def Acyclic (g : NodesMap) : Prop :=
  ∀ a, ¬ Relation.TransGen (dependsRel g) a a

/-- Executable pairwise-edge check along a list. -/
def chainDepB (g : NodesMap) : List String → Bool
  | [] => true
  | [_] => true
  | a :: b :: rest => dependsB g a b && chainDepB g (b :: rest)

/-- Executable test that a list is a genuine cycle of the dependency
relation: at least two entries, consecutive entries are edges (each element
depends on the next), and the first and last entries coincide. -/
def isDepCycleB (g : NodesMap) (l : List String) : Bool :=
  decide (2 ≤ l.length) && chainDepB g l && (l.head? == l.getLast?)

/-- Well-formedness of the graph, which the CLI establishes by running
`validateWorkspaces` before constructing a `DependencyGraph`: every declared
dependency of every node names an existing node. -/
def wellFormedB (g : NodesMap) : Bool :=
  g.all (fun p => p.2.dependencies.all (fun d => (lookupAL g d).isSome))

/-- Structural invariants that `buildGraph` always establishes (proved below
as `graphOf_good`): duplicate-free keys, duplicate-free edge sets, and
mutually consistent `dependencies`/`dependents`. -/
def GoodGraph (g : NodesMap) : Prop :=
  (keysAL g).Nodup ∧
  (∀ k n, lookupAL g k = some n → n.dependencies.Nodup) ∧
  (∀ k n, lookupAL g k = some n → n.dependents.Nodup) ∧
  (∀ d dn, lookupAL g d = some dn → ∀ x, x ∈ dn.dependents ↔ dependsRel g x d)

/-! ## Cycle detection (`DependencyGraph.detectCycles`)

The source runs a depth-first traversal with a `visited` set, a recursion
stack `recStack` and a `path` array, and throws on meeting a dependency that
is still on the recursion stack; the thrown payload is
`[...path.slice(path.indexOf(dep)), dep]` (note `indexOf` yields `-1` when
the dependency is absent from `path`, in which case `slice(-1)` keeps only
the last element — this happens when an earlier branch returned early on a
dependency that names no node, leaving it on `path` and `recStack`).

The recursion is modelled with explicit fuel; `dfsFuel` is provably
sufficient (every `dfsVisit` frame marks a fresh name visited, and every
visited name is a node key or a declared dependency).
-/

structure DfsState where
  visited : List String
  recStack : List String
  path : List String
deriving DecidableEq

inductive DfsOut where
  | ok (s : DfsState)
  | cycle (path : List String)
  | fuelOut
deriving DecidableEq

/-- Payload of the `Circular dependency detected` error:
`[...path.slice(path.indexOf(dep)), dep]` with JavaScript `slice` semantics
for the `-1` produced by a failed `indexOf`. -/
def cycleOf (path : List String) (dep : String) : List String :=
  (if dep ∈ path then path.drop (path.indexOf dep) else path.drop (path.length - 1)) ++ [dep]

/-- The `for (const dep of node.dependencies)` loop inside `dfs`; the
recursive call to `dfs` is passed in as `recur`. -/
def dfsDeps (recur : String → DfsState → DfsOut) : List String → DfsState → DfsOut
  | [], s => .ok s
  | dep :: rest, s =>
    if dep ∈ s.visited then
      if dep ∈ s.recStack then .cycle (cycleOf s.path dep)
      else dfsDeps recur rest s
    else
      match recur dep s with
      | .ok s' => dfsDeps recur rest s'
      | r => r

/-- One frame of the source's `dfs` closure.  The source only ever invokes
`dfs` on an unvisited name (both call sites check `visited.has` first); the
fuel-out branch is proved unreachable for the fuel supplied by
`detectCyclesCore`. -/
def dfsVisit (g : NodesMap) : Nat → String → DfsState → DfsOut
  | 0, _, _ => .fuelOut
  | fuel + 1, alias0, s =>
    let s1 : DfsState :=
      ⟨addSet s.visited alias0, addSet s.recStack alias0, s.path ++ [alias0]⟩
    match lookupAL g alias0 with
    | none => .ok s1
    | some node =>
      match dfsDeps (dfsVisit g fuel) node.dependencies s1 with
      | .ok s2 => .ok ⟨s2.visited, s2.recStack.erase alias0, s2.path.dropLast⟩
      | r => r

/-- Fuel that provably suffices for the whole traversal. -/
def dfsFuel (g : NodesMap) : Nat :=
  1 + g.length + (g.map (fun p => p.2.dependencies.length)).sum

/-- The outer `for (const alias of this.nodes.keys())` loop. -/
def dfsOuter (g : NodesMap) (fuel : Nat) : List String → DfsState → DfsOut
  | [], s => .ok s
  | a :: rest, s =>
    if a ∈ s.visited then dfsOuter g fuel rest s
    else
      match dfsVisit g fuel a s with
      | .ok s' => dfsOuter g fuel rest s'
      | r => r

/-- Entry point `detectCycles` (run by the `DependencyGraph` constructor).
`.cycle l` models `throw new Error("❌ Circular dependency detected: " +
l.join(" → "))`. -/
def detectCyclesCore (g : NodesMap) : DfsOut :=
  dfsOuter g (dfsFuel g) (keysAL g) ⟨[], [], []⟩

/-! ## Topological order (`DependencyGraph.getTopologicalOrder`)

Kahn's algorithm with a FIFO queue.  JavaScript number counters are
modelled as `Int` (the source can drive a counter below zero through
`inDegree.get(dependent)! - 1` on degenerate graphs).  The `while` loop is
modelled with fuel; `kahnFuel` is provably sufficient. -/

/-- In-degree map seeded from `node.dependencies.size`, in node order. -/
def initDegrees (g : NodesMap) : List (String × Int) :=
  g.map (fun p => (p.1, (p.2.dependencies.length : Int)))

/-- Initial queue: nodes with no dependencies, in node order. -/
def initQueue (g : NodesMap) : List String :=
  (g.filter (fun p => p.2.dependencies.isEmpty)).map (·.1)

/-- One decrement inside the dequeue step:
`const degree = inDegree.get(dependent)! - 1; inDegree.set(dependent,
degree); if (degree === 0) queue.push(dependent)` (the non-null assertion
is modelled with default `0`). -/
def topoDecStep (acc : List (String × Int) × List String) (dep : String) :
    List (String × Int) × List String :=
  let d := (lookupAL acc.1 dep).getD 0 - 1
  (setAL acc.1 dep d, if d == 0 then acc.2 ++ [dep] else acc.2)

/-- Body of the dequeue step: decrement every dependent's counter and
collect those that reach exactly `0`. -/
def topoDec (g : NodesMap) (alias0 : String) (mq : List (String × Int) × List String) :
    List (String × Int) × List String :=
  (dependentsOf g alias0).foldl topoDecStep mq

/-- The `while (queue.length > 0)` loop; `none` is the (unreachable)
fuel-exhaustion marker. -/
def topoLoop (g : NodesMap) : Nat → List String → List (String × Int) → List String →
    Option (List String)
  | 0, _, _, _ => none
  | _ + 1, [], _, res => some res
  | fuel + 1, alias0 :: qrest, m, res =>
    let step := topoDec g alias0 (m, [])
    topoLoop g fuel (qrest ++ step.2) step.1 (res ++ [alias0])

/-- Fuel that provably suffices for the Kahn loop. -/
def kahnFuel (g : NodesMap) : Nat :=
  1 + g.length + (g.map (fun p => p.2.dependencies.length)).sum

/-- Entry point `getTopologicalOrder`, including the final
`result.length !== this.nodes.size` cycle check. -/
def getTopologicalOrder (g : NodesMap) : Except String (List String) :=
  match topoLoop g (kahnFuel g) (initQueue g) (initDegrees g) [] with
  | none => .error "fuel exhausted"
  | some res =>
    if res.length ≠ g.length then
      .error "Graph contains cycles (should have been caught earlier)"
    else .ok res

/-! ## Parallel batches (`DependencyGraph.getParallelBatches`) -/

/-- One decrement inside the batch-removal loop:
`if (inDegree.has(dependent)) inDegree.set(dependent,
inDegree.get(dependent)! - 1)`. -/
def decStep (m : List (String × Int)) (dep : String) : List (String × Int) :=
  match lookupAL m dep with
  | some d => setAL m dep (d - 1)
  | none => m

/-- Processing of one batch member: delete it from the in-degree map, then
decrement each of its dependents that is still present. -/
def processBatchStep (g : NodesMap) (m : List (String × Int)) (alias0 : String) :
    List (String × Int) :=
  (dependentsOf g alias0).foldl decStep (eraseAL m alias0)

/-- The `for (const alias of batch)` removal loop. -/
def processBatch (g : NodesMap) (m : List (String × Int)) (batch : List String) :
    List (String × Int) :=
  batch.foldl (processBatchStep g) m

/-- The `while (inDegree.size > 0)` peeling loop; each round removes at
least one key, so `g.length + 1` fuel provably suffices. -/
def peelLoop (g : NodesMap) : Nat → List (String × Int) → Except String (List (List String))
  | 0, _ => .error "fuel exhausted"
  | fuel + 1, m =>
    if m.isEmpty then .ok []
    else
      let batch := (m.filter (fun p => p.2 == 0)).map (·.1)
      if batch.isEmpty then .error "Unable to determine parallel batches"
      else
        match peelLoop g fuel (processBatch g m batch) with
        | .ok bs => .ok (batch :: bs)
        | .error e => .error e

/-- Entry point `getParallelBatches`. -/
def getParallelBatches (g : NodesMap) : Except String (List (List String)) :=
  peelLoop g (g.length + 1) (initDegrees g)

/-! ## Affected set (`DependencyGraph.getAffected`) -/

/-- The BFS over the `dependents` relation.  State: queue and the
`affected` set (insertion-ordered, duplicate-free); an alias that names no
node contributes nothing but stays in the set. -/
def affectedLoop (g : NodesMap) : Nat → List String → List String → List String
  | 0, _, affected => affected
  | _ + 1, [], affected => affected
  | fuel + 1, alias0 :: qrest, affected =>
    match lookupAL g alias0 with
    | none => affectedLoop g fuel qrest affected
    | some node =>
      let step := node.dependents.foldl
        (fun (acc : List String × List String) dep =>
          if dep ∈ acc.2 then acc else (acc.1 ++ [dep], acc.2 ++ [dep]))
        (qrest, affected)
      affectedLoop g fuel step.1 step.2

/-- Entry point `getAffected` (`affected = new Set(changedAliases)`,
`queue = [...changedAliases]`); the fuel provably suffices for graphs built
by `graphOf`. -/
def getAffected (g : NodesMap) (changedAliases : List String) : List String :=
  affectedLoop g (changedAliases.length + g.length + 1) changedAliases
    (setOfList changedAliases)

/-! ## Configuration helpers (`src/core/config.ts`) -/

/-- JavaScript truthiness of an optional string: `undefined` and `""` are
falsy. -/
def truthyStr : Option String → Option String
  | some a => if a = "" then none else some a
  | none => none

/-- JavaScript `a || b` on optional strings. -/
def jsOr (a b : Option String) : Option String :=
  match truthyStr a with
  | some s => some s
  | none => b

/-- Command resolution `getCommand`:
`workspace.command?.[commandType] || config.defaults?.[commandType]`.
Lookup tests truthiness of the value, not key presence. -/
def getCommand (ws : Workspace) (commandType : String) (config : Config) : Option String :=
  jsOr (lookupAL ws.command commandType) (lookupAL config.defaults commandType)

/-- The `dependsOn` reference check inside `validateWorkspaces`: each
declared dependency must equal some workspace's `alias` (strict `===`,
so a path-only workspace can never be referenced). -/
def vwDeps (allWss : List Workspace) (ws : Workspace) : List String → Except String Unit
  | [] => .ok ()
  | dep :: rest =>
    if allWss.any (fun w => w.alias? == some dep) then vwDeps allWss ws rest
    else .error ("Workspace " ++ identOf ws ++ " depends on unknown alias: " ++ dep)

/-- The duplicate-alias check (run only for truthy aliases). -/
def vwAliasCheck (aliases : List String) (ws : Workspace) : Except String (List String) :=
  match truthyStr ws.alias? with
  | some a =>
    if a ∈ aliases then .error ("Duplicate alias: " ++ a)
    else .ok (aliases ++ [a])
  | none => .ok aliases

/-- Main loop of `validateWorkspaces`, threading the `aliases` and `paths`
sets; `pathOK` is the `existsSync` oracle. -/
def vwLoop (pathOK : String → Bool) (allWss : List Workspace) :
    List Workspace → List String → List String → Except String Unit
  | [], _, _ => .ok ()
  | ws :: rest, aliases, paths =>
    match vwAliasCheck aliases ws with
    | .error e => .error e
    | .ok aliases' =>
      if ws.path ∈ paths then .error ("Duplicate path: " ++ ws.path)
      else if !(pathOK ws.path) then
        .error ("Workspace path does not exist: " ++ ws.path)
      else
        match vwDeps allWss ws ws.dependsOn with
        | .error e => .error e
        | .ok _ => vwLoop pathOK allWss rest aliases' (paths ++ [ws.path])

/-- Entry point `validateWorkspaces`. -/
def validateWorkspaces (pathOK : String → Bool) (config : Config) : Except String Unit :=
  vwLoop pathOK config.workspace config.workspace [] []

/-! ## Task scheduler (`src/core/tasks.ts`)

Subprocess execution (`execa`) is an oracle mapping a workspace alias and
command string to an outcome: exit success, wall-clock duration, and the
error message captured on failure.  Concurrency within a batch does not
affect which tasks run or the per-alias results (each task writes only its
own key), so a batch is modelled in alias order; the `concurrency` ceiling
has no observable effect in the model. -/

structure ExecOut where
  ok : Bool
  duration : Nat
  errMsg : String
deriving DecidableEq

abbrev ExecOracle := String → String → ExecOut

/-- `TaskRunner.runTask`: resolve the command (no-op success with zero
duration when it is missing or empty), otherwise spawn it and record the
outcome; a failing subprocess is captured in the TaskResult, never thrown. -/
def runTask (config : Config) (g : NodesMap) (exec : ExecOracle)
    (alias0 commandType : String) : Except String TaskResult :=
  match lookupAL g alias0 with
  | none => .error ("Workspace not found: " ++ alias0)
  | some node =>
    match getCommand node.workspace commandType config with
    | none => .ok ⟨alias0, true, 0, none⟩
    | some c =>
      if c = "" then .ok ⟨alias0, true, 0, none⟩
      else
        let r := exec alias0 c
        if r.ok then .ok ⟨alias0, true, r.duration, none⟩
        else .ok ⟨alias0, false, r.duration, some r.errMsg⟩

/-- `TaskRunner.runBatch`: every task in the batch runs to completion (no
mid-batch cancellation); the per-alias result map is modelled in alias
order. -/
def runBatchT (config : Config) (g : NodesMap) (exec : ExecOracle) (commandType : String)
    (aliases : List String) : Except String (List (String × TaskResult)) :=
  aliases.mapM (fun a => (runTask config g exec a commandType).map (fun r => (a, r)))

/-- Filter application inside `runAll`:
`batch.filter(alias => filter.includes(alias))` when a filter is given. -/
def applyFilter (filter : Option (List String)) (b : List String) : List String :=
  match filter with
  | some f => b.filter (fun a => f.contains a)
  | none => b

/-- The `for` loop over batches inside `runAll`.  The first component is
the returned value (`.error` models a throw); the second records which
aliases had their task started, in order — the observable "executed" trace
of spawned subprocesses. -/
def runBatchesT (config : Config) (g : NodesMap) (exec : ExecOracle) (commandType : String)
    (filter : Option (List String)) :
    List (List String) → List (String × TaskResult) →
    Except String (List (String × TaskResult)) × List String
  | [], acc => (.ok acc, [])
  | b :: rest, acc =>
    let batch := applyFilter filter b
    if batch.isEmpty then runBatchesT config g exec commandType filter rest acc
    else
      match runBatchT config g exec commandType batch with
      | .error e => (.error e, batch)
      | .ok br =>
        if br.any (fun p => !p.2.success) then
          (.error ("Failed to run " ++ commandType), batch)
        else
          let r := runBatchesT config g exec commandType filter rest (acc ++ br)
          (r.1, batch ++ r.2)

/-- `TaskRunner.runAll` (with execution trace). -/
def runAllT (config : Config) (g : NodesMap) (exec : ExecOracle) (commandType : String)
    (filter : Option (List String)) :
    Except String (List (String × TaskResult)) × List String :=
  match getParallelBatches g with
  | .error e => (.error e, [])
  | .ok bs => runBatchesT config g exec commandType filter bs []

/-! ## Package resolver (`src/core/resolution.ts`)

`analyze` reads each workspace's manifest (merged `dependencies` and
`devDependencies`, a plain object and hence duplicate-free in its keys),
skips `workspace:`-protocol ranges, resolves each remaining dependency
through `resolveInstalledVersion` (filesystem I/O, modelled as an oracle
returning the concrete version and location, or `none`), fills the
per-workspace resolution map, and groups resolved versions per package for
conflict detection. -/

/-- Model of `String.prototype.startsWith` (used by the generated resolver
hook and by the `workspace:` protocol check). -/
def strStartsWith (s p : String) : Bool := p.data.isPrefixOf s.data

structure ResolvedPkg where
  version : String
  resolvedPath : String
deriving DecidableEq

abbrev WsResolution := List (String × ResolvedPkg)
abbrev ResolutionMapT := List (String × WsResolution)
abbrev VersionMapT := List (String × List String)

structure ConflictInfo where
  packageName : String
  versions : VersionMapT
deriving DecidableEq

/-- `this.resolutionMap[alias][pkgName] = …`. -/
def setResolution (rm : ResolutionMapT) (alias0 pkgName : String) (rp : ResolvedPkg) :
    ResolutionMapT :=
  setAL rm alias0 (setAL ((lookupAL rm alias0).getD []) pkgName rp)

/-- Conflict bookkeeping: get-or-create the package's version map, then
get-or-create the version's workspace array and push the alias. -/
def pushPkgVersion (ap : List (String × VersionMapT)) (pkgName v alias0 : String) :
    List (String × VersionMapT) :=
  let vm := (lookupAL ap pkgName).getD []
  let l := (lookupAL vm v).getD []
  setAL ap pkgName (setAL vm v (l ++ [alias0]))

/-- The `for ([pkgName, versionRange] of Object.entries(allDeps))` loop for
one workspace. -/
def analyzeDeps (resolveIV : String → String → String → Option ResolvedPkg)
    (ws : Workspace) (deps : List (String × String))
    (st : ResolutionMapT × List (String × VersionMapT)) :
    ResolutionMapT × List (String × VersionMapT) :=
  deps.foldl
    (fun st pv =>
      if strStartsWith pv.2 "workspace:" then st
      else
        match resolveIV ws.path pv.1 pv.2 with
        | none => st
        | some rp =>
          (setResolution st.1 (identOf ws) pv.1 rp,
           pushPkgVersion st.2 pv.1 rp.version (identOf ws)))
    st

/-- Core of `PackageResolver.analyze`: the per-workspace collection pass
followed by conflict detection (`versionMap.size > 1`).  `manifest` is the
manifest-reading oracle (`none` models a missing `package.json`, which
skips the workspace without touching the resolution map). -/
def analyzeCore (manifest : String → Option (List (String × String)))
    (resolveIV : String → String → String → Option ResolvedPkg)
    (wss : List Workspace) : ResolutionMapT × List ConflictInfo :=
  let st := wss.foldl
    (fun st ws =>
      match manifest ws.path with
      | none => st
      | some deps => analyzeDeps resolveIV ws deps (setAL st.1 (identOf ws) [], st.2))
    (([] : ResolutionMapT), ([] : List (String × VersionMapT)))
  (st.1, (st.2.filter (fun p => 1 < p.2.length)).map (fun p => ⟨p.1, p.2⟩))

/-! ## Generated runtime resolver hook (`generateResolverHook`)

The hook's `findWorkspace` walks `workspaceRoots` — the declared
workspaces in declaration order, each as `{alias: ws.alias || ws.path,
path: ws.path}` — and returns the alias of the FIRST root whose path is a
string prefix of the caller's file path. -/

def workspaceRoots (wss : List Workspace) : List (String × String) :=
  wss.map (fun ws => (identOf ws, ws.path))

/-- The generated `findWorkspace(filePath)`. -/
def findWorkspace (roots : List (String × String)) (filePath : String) : Option String :=
  match roots.find? (fun ws => strStartsWith filePath ws.2) with
  | some ws => some ws.1
  | none => none

/-- Modelled from the spec: the spec's §4.2 runtime-override contract says
the calling workspace is identified by "longest-prefix match" of the
caller's path against the workspace root paths.  This definition follows
those words (among the roots whose path is a prefix of the caller's path,
the one with the longest path wins; first among ties), to be compared with
the generated hook's `findWorkspace` above. -/
def findWorkspaceLongest (roots : List (String × String)) (filePath : String) :
    Option String :=
  (roots.foldl
    (fun best ws =>
      if strStartsWith filePath ws.2 then
        match best with
        | none => some ws
        | some b => if b.2.length < ws.2.length then some ws else some b
      else best)
    none).map (·.1)

/-! ## Concrete configurations used in witnesses and counterexamples -/

/-- Two-workspace chain used as a witness configuration. -/
def wsWa : Workspace := ⟨"packages/a", some "wa", [], [("build", "make a")]⟩

/-- Second workspace of the witness chain, depending on `wa`. -/
def wsWb : Workspace := ⟨"packages/b", some "wb", ["wa"], [("build", "make b")]⟩

/-- A workspace whose `dependsOn` names no declared workspace: the
dependency relation is acyclic, yet the peeling algorithms get stuck. -/
def wsDangling : Workspace := ⟨"a", none, ["m"], []⟩

/-- Potential of an in-degree map: the sum of the nonnegative counter
values (used to bound the Kahn loop's iteration count). -/
def intPotential (m : List (String × Int)) : Nat :=
  (m.map (fun p => p.2.toNat)).sum

/-- Invariant of the DFS traversal state under well-formed graphs: the
recursion stack and the path array coincide, the path is duplicate-free, it
is a chain of dependency edges, its members are visited, and every visited
name is a node key. -/
def DfsInv (g : NodesMap) (s : DfsState) : Prop :=
  s.recStack = s.path ∧ s.path.Nodup ∧
  s.path.Chain' (dependsRel g) ∧
  (∀ x ∈ s.path, x ∈ s.visited) ∧
  (∀ x ∈ s.visited, x ∈ keysAL g)

/-- Ghost finish order of the DFS: `L` lists the finished names (visited
and no longer on the recursion stack) in finishing order, and every
dependency of a finished name finishes strictly earlier. -/
def GhostTopo (g : NodesMap) (s : DfsState) (L : List String) : Prop :=
  L.Nodup ∧
  (∀ x, x ∈ L ↔ (x ∈ s.visited ∧ x ∉ s.recStack)) ∧
  (∀ a d, dependsRel g a d → a ∈ L → d ∈ L ∧ L.indexOf d < L.indexOf a)

/-- Specification of one `dfs` frame: on normal return the recursion stack
and path are restored, visitation grew to include the argument, and the
ghost finish order extends; a thrown cycle is a genuine dependency cycle;
fuel never runs out. -/
def DVisitOut (g : NodesMap) (a : String) (s : DfsState) (L : List String) : DfsOut → Prop
  | .ok s' => DfsInv g s' ∧ s'.recStack = s.recStack ∧ s'.path = s.path ∧
      (∀ x ∈ s.visited, x ∈ s'.visited) ∧ a ∈ s'.visited ∧
      (∃ L' Δ, GhostTopo g s' L' ∧ L' = L ++ Δ ∧ a ∈ L')
  | .cycle l => isDepCycleB g l = true
  | .fuelOut => False

/-- Specification of the dependency loop of one `dfs` frame: on normal
return the listed dependencies are all finished. -/
def DDepsOut (g : NodesMap) (t : DfsState) (Lt : List String) (deps : List String) :
    DfsOut → Prop
  | .ok t2 => DfsInv g t2 ∧ t2.recStack = t.recStack ∧ t2.path = t.path ∧
      (∀ x ∈ t.visited, x ∈ t2.visited) ∧
      (∃ L2 Δ, GhostTopo g t2 L2 ∧ L2 = Lt ++ Δ) ∧
      (∀ dep ∈ deps, dep ∈ t2.visited ∧ dep ∉ t2.recStack)
  | .cycle l => isDepCycleB g l = true
  | .fuelOut => False

/-- Specification of the outer key loop of `detectCycles`. -/
def DOuterOut (g : NodesMap) (ks : List String) (s : DfsState) : DfsOut → Prop
  | .ok s2 => ∃ L2, GhostTopo g s2 L2 ∧ s2.recStack = [] ∧
      (∀ k ∈ ks, k ∈ s2.visited) ∧ (∀ x ∈ s.visited, x ∈ s2.visited)
  | .cycle l => isDepCycleB g l = true
  | .fuelOut => False

/-- Did the task for `a` start and report success? -/
def taskOkB (config : Config) (g : NodesMap) (exec : ExecOracle)
    (commandType a : String) : Bool :=
  match runTask config g exec a commandType with
  | .ok r => r.success
  | .error _ => false

/-- The `TaskResult` recorded for `a` (dummy failure if the task could not
even start, which cannot happen for aliases of the constructed graph). -/
def taskRes (config : Config) (g : NodesMap) (exec : ExecOracle)
    (commandType a : String) : TaskResult :=
  match runTask config g exec a commandType with
  | .ok r => r
  | .error _ => ⟨a, false, 0, none⟩

/-- Fixture: configuration holding the `wsWa`, `wsWb` chain. -/
def cfgW : Config := ⟨none, [wsWa, wsWb], []⟩

/-- Fixture: oracle under which every spawned command succeeds. -/
def execOk : ExecOracle := fun _ _ => ⟨true, 1, ""⟩

/-- Fixture: oracle failing exactly the command of workspace `wb`. -/
def execFailWb : ExecOracle :=
  fun a _ => if a == "wb" then ⟨false, 2, "boom"⟩ else ⟨true, 1, ""⟩

/-- Membership in the grouped `allPackages` structure: workspace `w` is
listed under version `v` for package `p`. -/
def apHas (ap : List (String × VersionMapT)) (p v w : String) : Prop :=
  ∃ vm l, lookupAL ap p = some vm ∧ lookupAL vm v = some l ∧ w ∈ l

/-- The per-workspace resolution map records that workspace `w` resolved
package `p` to version `v`. -/
def resolvesTo (rm : ResolutionMapT) (w p v : String) : Prop :=
  ∃ wr rp, lookupAL rm w = some wr ∧ lookupAL wr p = some rp ∧ rp.version = v

/-- Fixture: two alias-less workspaces for the resolver-analysis witness. -/
def wss4 : List Workspace := [⟨"w1", none, [], []⟩, ⟨"w2", none, [], []⟩]

/-- Fixture: manifests declaring `express` in both workspaces. -/
def manifest4 : String → Option (List (String × String)) :=
  fun pws =>
    if pws == "w1" then some [("express", "^5.0.0")]
    else if pws == "w2" then some [("express", "^4.18.0")]
    else none

/-- Fixture: installed-version oracle resolving `express` to `5.0.0` under
`w1` and to `4.18.3` under `w2`. -/
def resolveIV4 : String → String → String → Option ResolvedPkg :=
  fun pws _ _ =>
    if pws == "w1" then some ⟨"5.0.0", "/n1"⟩ else some ⟨"4.18.3", "/n2"⟩

/-! # Theorems

Everything from here on is a theorem about the definitions above. -/

theorem mem_keysAL {α : Type} {m : List (String × α)} {k : String} {v : α}
    (h : (k, v) ∈ m) : k ∈ keysAL m :=
  List.mem_map.mpr ⟨(k, v), h, rfl⟩

theorem lookupAL_setAL_self {α : Type} (m : List (String × α)) (k : String) (v : α) :
    lookupAL (setAL m k v) k = some v := by
  induction m with
  | nil => simp [setAL, lookupAL]
  | cons h t ih =>
    obtain ⟨k', v'⟩ := h
    by_cases hk : k = k'
    · simp [setAL, lookupAL, hk]
    · simp [setAL, lookupAL, hk, ih]

theorem lookupAL_setAL_ne {α : Type} (m : List (String × α)) (k k' : String) (v : α)
    (h : k' ≠ k) : lookupAL (setAL m k v) k' = lookupAL m k' := by
  induction m with
  | nil => simp [setAL, lookupAL, h]
  | cons hd t ih =>
    obtain ⟨k₀, v₀⟩ := hd
    by_cases hk : k = k₀
    · subst hk
      simp [setAL, lookupAL, h]
    · by_cases hk' : k' = k₀ <;> simp [setAL, lookupAL, hk, hk', ih]

theorem keysAL_setAL_mem {α : Type} (m : List (String × α)) (k : String) (v : α)
    (h : k ∈ keysAL m) : keysAL (setAL m k v) = keysAL m := by
  induction m with
  | nil => simp [keysAL] at h
  | cons hd t ih =>
    obtain ⟨k₀, v₀⟩ := hd
    by_cases hk : k = k₀
    · simp [setAL, keysAL, hk]
    · have h' : k ∈ keysAL t := by
        simp [keysAL] at h ⊢
        rcases h with h | h
        · exact absurd h hk
        · exact h
      have ih' := ih h'
      simp only [setAL, if_neg hk, keysAL, List.map_cons]
      simp only [keysAL] at ih'
      rw [ih']

theorem keysAL_setAL_not_mem {α : Type} (m : List (String × α)) (k : String) (v : α)
    (h : k ∉ keysAL m) : keysAL (setAL m k v) = keysAL m ++ [k] := by
  induction m with
  | nil => simp [setAL, keysAL]
  | cons hd t ih =>
    obtain ⟨k₀, v₀⟩ := hd
    simp [keysAL] at h
    simp [setAL, h.1, keysAL] at ih ⊢
    exact ih (by simp [keysAL, h.2])

theorem nodup_keys_setAL {α : Type} (m : List (String × α)) (k : String) (v : α)
    (h : (keysAL m).Nodup) : (keysAL (setAL m k v)).Nodup := by
  by_cases hk : k ∈ keysAL m
  · rw [keysAL_setAL_mem m k v hk]; exact h
  · rw [keysAL_setAL_not_mem m k v hk]
    refine List.Nodup.append h (by simp) ?_
    intro x hx hx'
    simp at hx'
    subst hx'
    exact hk hx

theorem mem_keysAL_setAL {α : Type} (m : List (String × α)) (k k' : String) (v : α) :
    k' ∈ keysAL (setAL m k v) ↔ k' ∈ keysAL m ∨ k' = k := by
  by_cases hk : k ∈ keysAL m
  · rw [keysAL_setAL_mem m k v hk]
    constructor
    · exact Or.inl
    · rintro (h | h)
      · exact h
      · subst h; exact hk
  · rw [keysAL_setAL_not_mem m k v hk]
    simp

/-! Basic lemmas about the association-list operations. -/

theorem keysAL_eraseAL {α : Type} (m : List (String × α)) (k : String) :
    keysAL (eraseAL m k) = (keysAL m).erase k := by
  induction m with
  | nil => simp [eraseAL, keysAL]
  | cons hd t ih =>
    obtain ⟨k₀, v₀⟩ := hd
    by_cases hk : k = k₀
    · simp [eraseAL, keysAL, hk, List.erase_cons]
    · have : ¬ (k₀ == k) = true := by
        simp [hk]
        exact fun hh => hk hh.symm
      simp [eraseAL, keysAL, hk, List.erase_cons, this] at ih ⊢
      exact ih

theorem lookupAL_eq_none_of_not_mem {α : Type} (m : List (String × α)) (k : String)
    (h : k ∉ keysAL m) : lookupAL m k = none := by
  induction m with
  | nil => simp [lookupAL]
  | cons hd t ih =>
    obtain ⟨k₀, v₀⟩ := hd
    simp [keysAL] at h
    simp [lookupAL, h.1]
    exact ih (by simp [keysAL, h.2])

theorem lookupAL_eraseAL_self {α : Type} (m : List (String × α)) (k : String)
    (hnd : (keysAL m).Nodup) : lookupAL (eraseAL m k) k = none := by
  apply lookupAL_eq_none_of_not_mem
  rw [keysAL_eraseAL]
  exact hnd.not_mem_erase

theorem lookupAL_eraseAL_ne {α : Type} (m : List (String × α)) (k k' : String)
    (h : k' ≠ k) : lookupAL (eraseAL m k) k' = lookupAL m k' := by
  induction m with
  | nil => simp [eraseAL]
  | cons hd t ih =>
    obtain ⟨k₀, v₀⟩ := hd
    by_cases hk : k = k₀
    · subst hk
      simp [eraseAL, lookupAL, h]
    · by_cases hk' : k' = k₀ <;> simp [eraseAL, lookupAL, hk, hk', ih]

theorem lookupAL_mem_keys {α : Type} (m : List (String × α)) (k : String) :
    (lookupAL m k).isSome ↔ k ∈ keysAL m := by
  induction m with
  | nil => simp [lookupAL, keysAL]
  | cons hd t ih =>
    obtain ⟨k₀, v₀⟩ := hd
    by_cases hk : k = k₀ <;> simp [lookupAL, keysAL, hk, ih]

theorem lookupAL_eq_none_iff {α : Type} (m : List (String × α)) (k : String) :
    lookupAL m k = none ↔ k ∉ keysAL m := by
  rw [← lookupAL_mem_keys]
  cases h : lookupAL m k <;> simp [h]

theorem lookupAL_isSome_of_mem {α : Type} (m : List (String × α)) (k : String) (v : α)
    (h : (k, v) ∈ m) : (lookupAL m k).isSome := by
  rw [lookupAL_mem_keys]
  exact List.mem_map.mpr ⟨(k, v), h, rfl⟩

theorem mem_of_lookupAL_eq_some {α : Type} (m : List (String × α)) (k : String) (v : α)
    (h : lookupAL m k = some v) : (k, v) ∈ m := by
  induction m with
  | nil => simp [lookupAL] at h
  | cons hd t ih =>
    obtain ⟨k₀, v₀⟩ := hd
    by_cases hk : k = k₀
    · simp [lookupAL, hk] at h
      simp [hk, h]
    · simp [lookupAL, hk] at h
      exact List.mem_cons_of_mem _ (ih h)

theorem lookupAL_eq_some_of_mem_nodup {α : Type} (m : List (String × α)) (k : String) (v : α)
    (hnd : (keysAL m).Nodup) (h : (k, v) ∈ m) : lookupAL m k = some v := by
  induction m with
  | nil => simp at h
  | cons hd t ih =>
    obtain ⟨k₀, v₀⟩ := hd
    have hnd' : k₀ ∉ keysAL t ∧ (keysAL t).Nodup := by
      simpa [keysAL] using hnd
    rcases List.mem_cons.mp h with hh | hh
    · have h1 : k = k₀ ∧ v = v₀ := by simpa using hh
      simp [lookupAL, h1.1, h1.2]
    · by_cases hk : k = k₀
      · subst hk
        exact absurd (mem_keysAL hh) hnd'.1
      · simp [lookupAL, hk]
        exact ih hnd'.2 hh

theorem mem_addSet (l : List String) (a b : String) :
    b ∈ addSet l a ↔ b ∈ l ∨ b = a := by
  unfold addSet
  by_cases h : a ∈ l
  · simp [h]
    intro hb; subst hb
    exact h
  · simp [h]

theorem nodup_addSet (l : List String) (a : String) (h : l.Nodup) :
    (addSet l a).Nodup := by
  unfold addSet
  by_cases hc : a ∈ l
  · simp [hc, h]
  · simp [hc]
    refine List.Nodup.append h (by simp) ?_
    intro x hx hx'
    simp at hx'
    subst hx'
    exact hc hx

theorem sub_addSet (l : List String) (a : String) : l ⊆ addSet l a := by
  intro x hx
  exact (mem_addSet l a x).mpr (Or.inl hx)

theorem self_mem_addSet (l : List String) (a : String) : a ∈ addSet l a := by
  exact (mem_addSet l a a).mpr (Or.inr rfl)

theorem nodup_setOfList (l : List String) : (setOfList l).Nodup := by
  unfold setOfList
  suffices h : ∀ acc : List String, acc.Nodup → (l.foldl addSet acc).Nodup by
    exact h [] (by simp)
  induction l with
  | nil => intro acc h; simpa using h
  | cons hd t ih =>
    intro acc h
    exact ih (addSet acc hd) (nodup_addSet acc hd h)

theorem mem_setOfList (l : List String) (a : String) : a ∈ setOfList l ↔ a ∈ l := by
  unfold setOfList
  suffices h : ∀ acc : List String, a ∈ l.foldl addSet acc ↔ a ∈ acc ∨ a ∈ l by
    simpa using h []
  induction l with
  | nil => intro acc; simp
  | cons hd t ih =>
    intro acc
    rw [List.foldl_cons, ih (addSet acc hd), mem_addSet]
    constructor
    · rintro (⟨h | h⟩ | h)
      · exact Or.inl h
      · exact Or.inr (by simp [h])
      · exact Or.inr (by simp [h])
    · rintro (h | h)
      · exact Or.inl (Or.inl h)
      · rcases List.mem_cons.mp h with h | h
        · exact Or.inl (Or.inr h)
        · exact Or.inr h

theorem dependsRel_iff (g : NodesMap) (a b : String) :
    dependsRel g a b ↔ dependsB g a b = true := by
  unfold dependsRel dependsB
  cases h : lookupAL g a <;> simp

theorem wellFormed_lookup {g : NodesMap} (hwf : wellFormedB g = true)
    {a : String} {n : GraphNode} (ha : lookupAL g a = some n)
    {d : String} (hd : d ∈ n.dependencies) : (lookupAL g d).isSome := by
  have hmem := mem_of_lookupAL_eq_some g a n ha
  have h1 := (List.all_eq_true.mp hwf) (a, n) hmem
  exact (List.all_eq_true.mp h1) d hd

/-! ### Graph construction lemmas -/

theorem mem_setAL {α : Type} (m : List (String × α)) (k : String) (v : α)
    (p : String × α) (h : p ∈ setAL m k v) : p ∈ m ∨ p = (k, v) := by
  induction m with
  | nil => simpa [setAL] using h
  | cons hd t ih =>
    obtain ⟨k₀, v₀⟩ := hd
    by_cases hk : k = k₀
    · subst hk
      simp [setAL] at h
      rcases h with h | h
      · exact Or.inr (by simp [h])
      · exact Or.inl (by simp [h])
    · simp [setAL, hk] at h
      rcases h with h | h
      · exact Or.inl (by simp [h])
      · rcases ih h with h' | h'
        · exact Or.inl (List.mem_cons_of_mem _ h')
        · exact Or.inr h'

theorem buildNodes_keys_nodup_aux (wss : List Workspace) (m : NodesMap)
    (h : (keysAL m).Nodup) :
    (keysAL (wss.foldl
      (fun m ws => setAL m (identOf ws) ⟨ws, setOfList ws.dependsOn, []⟩) m)).Nodup := by
  induction wss generalizing m with
  | nil => simpa using h
  | cons ws rest ih =>
    exact ih _ (nodup_keys_setAL _ _ _ h)

theorem buildNodes_keys_nodup (wss : List Workspace) :
    (keysAL (buildNodes wss)).Nodup :=
  buildNodes_keys_nodup_aux wss [] (by simp [keysAL])

theorem mem_buildNodes_aux (wss : List Workspace) (m : NodesMap) (p : String × GraphNode)
    (h : p ∈ wss.foldl
      (fun m ws => setAL m (identOf ws) ⟨ws, setOfList ws.dependsOn, []⟩) m) :
    p ∈ m ∨ ∃ ws ∈ wss, p = (identOf ws, ⟨ws, setOfList ws.dependsOn, []⟩) := by
  induction wss generalizing m with
  | nil => exact Or.inl (by simpa using h)
  | cons ws rest ih =>
    rcases ih _ h with h' | h'
    · rcases mem_setAL _ _ _ _ h' with h'' | h''
      · exact Or.inl h''
      · exact Or.inr ⟨ws, by simp, h''⟩
    · obtain ⟨ws', hws', hp⟩ := h'
      exact Or.inr ⟨ws', List.mem_cons_of_mem _ hws', hp⟩

theorem mem_buildNodes (wss : List Workspace) (p : String × GraphNode)
    (h : p ∈ buildNodes wss) :
    ∃ ws ∈ wss, p = (identOf ws, ⟨ws, setOfList ws.dependsOn, []⟩) := by
  rcases mem_buildNodes_aux wss [] p h with h' | h'
  · simp at h'
  · exact h'

theorem bdStep_keys (x : String) (m : NodesMap) (dep : String) :
    keysAL (bdStep x m dep) = keysAL m := by
  unfold bdStep
  cases h : lookupAL m dep with
  | none => rfl
  | some dn =>
    exact keysAL_setAL_mem m dep _ ((lookupAL_mem_keys m dep).mp (by simp [h]))

theorem bdStep_lookup_ne (x : String) (m : NodesMap) (dep k : String) (h : k ≠ dep) :
    lookupAL (bdStep x m dep) k = lookupAL m k := by
  unfold bdStep
  cases hl : lookupAL m dep with
  | none => rfl
  | some dn => exact lookupAL_setAL_ne m dep k _ h

theorem bdStep_lookup_self (x : String) (m : NodesMap) (dep : String) :
    lookupAL (bdStep x m dep) dep =
      (lookupAL m dep).map (fun dn => { dn with dependents := addSet dn.dependents x }) := by
  unfold bdStep
  cases hl : lookupAL m dep with
  | none => simp [hl]
  | some dn => simp [lookupAL_setAL_self]

theorem bdFold_lookup (x : String) (L : List String) (hL : L.Nodup) (m : NodesMap)
    (k : String) :
    lookupAL (L.foldl (bdStep x) m) k =
      if k ∈ L then
        (lookupAL m k).map (fun dn => { dn with dependents := addSet dn.dependents x })
      else lookupAL m k := by
  induction L generalizing m with
  | nil => simp
  | cons dep L' ih =>
    have hnd : dep ∉ L' ∧ L'.Nodup := by simpa using hL
    rw [List.foldl_cons, ih hnd.2]
    by_cases hkL : k ∈ L'
    · have hkdep : k ≠ dep := fun h => hnd.1 (h ▸ hkL)
      simp [hkL, hkdep, bdStep_lookup_ne x m dep k hkdep, List.mem_cons]
    · by_cases hkd : k = dep
      · subst hkd
        simp [hkL, bdStep_lookup_self]
      · simp [hkL, hkd, bdStep_lookup_ne x m dep k hkd, List.mem_cons]

theorem bdFold_keys (x : String) (L : List String) (m : NodesMap) :
    keysAL (L.foldl (bdStep x) m) = keysAL m := by
  induction L generalizing m with
  | nil => rfl
  | cons dep L' ih =>
    rw [List.foldl_cons, ih (bdStep x m dep), bdStep_keys]

theorem bd_outer_char (es : List (String × GraphNode)) (m : NodesMap)
    (done : List (String × GraphNode))
    (hdeps : ∀ p ∈ es, p.2.dependencies.Nodup)
    (hchar : ∀ d dn, lookupAL m d = some dn →
      ∀ x, x ∈ dn.dependents ↔ ∃ xn, (x, xn) ∈ done ∧ d ∈ xn.dependencies)
    (hnd : ∀ d dn, lookupAL m d = some dn → dn.dependents.Nodup) :
    (keysAL (es.foldl (fun m p => p.2.dependencies.foldl (bdStep p.1) m) m) = keysAL m) ∧
    (∀ d, ((lookupAL (es.foldl (fun m p => p.2.dependencies.foldl (bdStep p.1) m) m) d).map
        (fun n => (n.workspace, n.dependencies))) =
      ((lookupAL m d).map (fun n => (n.workspace, n.dependencies)))) ∧
    (∀ d dn, lookupAL (es.foldl (fun m p => p.2.dependencies.foldl (bdStep p.1) m) m) d = some dn →
      (∀ x, x ∈ dn.dependents ↔ ∃ xn, (x, xn) ∈ done ++ es ∧ d ∈ xn.dependencies) ∧
      dn.dependents.Nodup) := by
  induction es generalizing m done with
  | nil =>
    refine ⟨rfl, fun d => rfl, fun d dn h => ⟨fun x => ?_, hnd d dn h⟩⟩
    simpa using hchar d dn h x
  | cons p es' ih =>
    obtain ⟨x, xn⟩ := p
    -- the inner fold over xn.dependencies
    have hxdep : xn.dependencies.Nodup := hdeps (x, xn) (by simp)
    have hstep := fun k => bdFold_lookup x xn.dependencies hxdep m k
    -- state after processing this entry
    have hchar1 : ∀ d dn, lookupAL (xn.dependencies.foldl (bdStep x) m) d = some dn →
        ∀ y, y ∈ dn.dependents ↔ ∃ yn, (y, yn) ∈ done ++ [(x, xn)] ∧ d ∈ yn.dependencies := by
      intro d dn hdn y
      rw [hstep d] at hdn
      by_cases hdx : d ∈ xn.dependencies
      · simp [hdx] at hdn
        obtain ⟨dn0, hdn0, hdneq⟩ := hdn
        subst hdneq
        simp only [mem_addSet]
        rw [hchar d dn0 hdn0 y]
        constructor
        · rintro (⟨yn, hyn, hdy⟩ | hyx)
          · exact ⟨yn, by simp [hyn], hdy⟩
          · subst hyx
            exact ⟨xn, by simp, hdx⟩
        · rintro ⟨yn, hyn, hdy⟩
          simp at hyn
          rcases hyn with hyn | hyn
          · exact Or.inl ⟨yn, hyn, hdy⟩
          · exact Or.inr hyn.1
      · simp [hdx] at hdn
        rw [hchar d dn hdn y]
        constructor
        · rintro ⟨yn, hyn, hdy⟩
          exact ⟨yn, by simp [hyn], hdy⟩
        · rintro ⟨yn, hyn, hdy⟩
          simp at hyn
          rcases hyn with hyn | hyn
          · exact ⟨yn, hyn, hdy⟩
          · exact absurd (hyn.2 ▸ hdy) hdx
    have hnd1 : ∀ d dn, lookupAL (xn.dependencies.foldl (bdStep x) m) d = some dn →
        dn.dependents.Nodup := by
      intro d dn hdn
      rw [hstep d] at hdn
      by_cases hdx : d ∈ xn.dependencies
      · simp [hdx] at hdn
        obtain ⟨dn0, hdn0, hdneq⟩ := hdn
        subst hdneq
        exact nodup_addSet _ _ (hnd d dn0 hdn0)
      · simp [hdx] at hdn
        exact hnd d dn hdn
    have hskel1 : ∀ d, ((lookupAL (xn.dependencies.foldl (bdStep x) m) d).map
        (fun n => (n.workspace, n.dependencies))) =
        ((lookupAL m d).map (fun n => (n.workspace, n.dependencies))) := by
      intro d
      rw [hstep d]
      by_cases hdx : d ∈ xn.dependencies
      · simp [hdx]
        cases lookupAL m d <;> simp
      · simp [hdx]
    have hkeys1 : keysAL (xn.dependencies.foldl (bdStep x) m) = keysAL m :=
      bdFold_keys x xn.dependencies m
    have ih' := ih (xn.dependencies.foldl (bdStep x) m) (done ++ [(x, xn)])
      (fun p hp => hdeps p (List.mem_cons_of_mem _ hp)) hchar1 hnd1
    refine ⟨?_, ?_, ?_⟩
    · rw [List.foldl_cons, ih'.1, hkeys1]
    · intro d
      rw [List.foldl_cons, ih'.2.1 d, hskel1 d]
    · intro d dn h
      have h3 := ih'.2.2 d dn (by rw [List.foldl_cons] at h; exact h)
      refine ⟨fun y => ?_, h3.2⟩
      rw [h3.1 y]
      simp [List.append_assoc]

theorem graphOf_full (wss : List Workspace) :
    (keysAL (graphOf wss) = keysAL (buildNodes wss)) ∧
    (∀ d, ((lookupAL (graphOf wss) d).map (fun n => (n.workspace, n.dependencies))) =
      ((lookupAL (buildNodes wss) d).map (fun n => (n.workspace, n.dependencies)))) ∧
    (∀ d dn, lookupAL (graphOf wss) d = some dn →
      (∀ x, x ∈ dn.dependents ↔ ∃ xn, (x, xn) ∈ buildNodes wss ∧ d ∈ xn.dependencies) ∧
      dn.dependents.Nodup) := by
  unfold graphOf buildDependents
  have h := bd_outer_char (buildNodes wss) (buildNodes wss) []
    (fun p hp => by
      obtain ⟨ws, _, hws⟩ := mem_buildNodes wss p hp
      rw [hws]
      exact nodup_setOfList _)
    (fun d dn hdn x => by
      obtain ⟨ws, _, hws⟩ := mem_buildNodes wss _ (mem_of_lookupAL_eq_some _ _ _ hdn)
      have hdn' : dn = ⟨ws, setOfList ws.dependsOn, []⟩ := congrArg Prod.snd hws
      simp [hdn'])
    (fun d dn hdn => by
      obtain ⟨ws, _, hws⟩ := mem_buildNodes wss _ (mem_of_lookupAL_eq_some _ _ _ hdn)
      have hdn' : dn = ⟨ws, setOfList ws.dependsOn, []⟩ := congrArg Prod.snd hws
      simp [hdn'])
  refine ⟨h.1, h.2.1, fun d dn hdn => ?_⟩
  have h3 := h.2.2 d dn hdn
  exact ⟨fun x => by simpa using h3.1 x, h3.2⟩

theorem graphOf_keys (wss : List Workspace) :
    keysAL (graphOf wss) = keysAL (buildNodes wss) :=
  (graphOf_full wss).1

theorem graphOf_keys_nodup (wss : List Workspace) : (keysAL (graphOf wss)).Nodup := by
  rw [graphOf_keys]
  exact buildNodes_keys_nodup wss

theorem graphOf_node_shape (wss : List Workspace) (k : String) (n : GraphNode)
    (h : lookupAL (graphOf wss) k = some n) :
    ∃ ws ∈ wss, k = identOf ws ∧ n.workspace = ws ∧
      n.dependencies = setOfList ws.dependsOn := by
  have hskel := (graphOf_full wss).2.1 k
  rw [h] at hskel
  cases hb : lookupAL (buildNodes wss) k with
  | none => rw [hb] at hskel; simp at hskel
  | some n0 =>
    rw [hb] at hskel
    simp at hskel
    obtain ⟨ws, hws, hshape⟩ := mem_buildNodes wss _ (mem_of_lookupAL_eq_some _ _ _ hb)
    have hk : k = identOf ws := congrArg Prod.fst hshape
    have hn0 : n0 = ⟨ws, setOfList ws.dependsOn, []⟩ := congrArg Prod.snd hshape
    exact ⟨ws, hws, hk, by rw [hskel.1, hn0], by rw [hskel.2, hn0]⟩

theorem graphOf_deps_nodup (wss : List Workspace) (k : String) (n : GraphNode)
    (h : lookupAL (graphOf wss) k = some n) : n.dependencies.Nodup := by
  obtain ⟨ws, _, _, _, hdeps⟩ := graphOf_node_shape wss k n h
  rw [hdeps]
  exact nodup_setOfList _

theorem graphOf_dependents_nodup (wss : List Workspace) (k : String) (n : GraphNode)
    (h : lookupAL (graphOf wss) k = some n) : n.dependents.Nodup :=
  ((graphOf_full wss).2.2 k n h).2

theorem lookupAL_buildNodes_graphOf (wss : List Workspace) (x : String) :
    (lookupAL (graphOf wss) x).isSome = (lookupAL (buildNodes wss) x).isSome := by
  have h := (graphOf_full wss).2.1 x
  cases h1 : lookupAL (graphOf wss) x <;> cases h2 : lookupAL (buildNodes wss) x <;>
    rw [h1, h2] at h <;> simp_all

theorem graphOf_dependents_iff (wss : List Workspace) (d : String) (dn : GraphNode)
    (h : lookupAL (graphOf wss) d = some dn) (x : String) :
    x ∈ dn.dependents ↔ dependsRel (graphOf wss) x d := by
  rw [((graphOf_full wss).2.2 d dn h).1 x]
  constructor
  · rintro ⟨xn, hxn, hdx⟩
    have hlk : lookupAL (buildNodes wss) x = some xn :=
      lookupAL_eq_some_of_mem_nodup _ _ _ (buildNodes_keys_nodup wss) hxn
    have hsome : (lookupAL (graphOf wss) x).isSome := by
      rw [lookupAL_buildNodes_graphOf, hlk]; rfl
    obtain ⟨xg, hxg⟩ := Option.isSome_iff_exists.mp hsome
    have hskel := (graphOf_full wss).2.1 x
    rw [hxg, hlk] at hskel
    simp at hskel
    exact ⟨xg, hxg, hskel.2 ▸ hdx⟩
  · rintro ⟨xg, hxg, hdx⟩
    have hlk : lookupAL (buildNodes wss) x ≠ none := by
      intro hnone
      have := lookupAL_buildNodes_graphOf wss x
      rw [hxg, hnone] at this
      simp at this
    obtain ⟨xn, hxn⟩ := Option.ne_none_iff_exists'.mp hlk
    have hskel := (graphOf_full wss).2.1 x
    rw [hxg, hxn] at hskel
    simp at hskel
    exact ⟨xn, mem_of_lookupAL_eq_some _ _ _ hxn, hskel.2 ▸ hdx⟩

theorem graphOf_dependents_sub_keys (wss : List Workspace) (d : String) (dn : GraphNode)
    (h : lookupAL (graphOf wss) d = some dn) (x : String) (hx : x ∈ dn.dependents) :
    x ∈ keysAL (graphOf wss) := by
  obtain ⟨xg, hxg, _⟩ := (graphOf_dependents_iff wss d dn h x).mp hx
  exact (lookupAL_mem_keys _ _).mp (by rw [hxg]; rfl)

/-! ### Acyclicity tools -/

theorem acyclic_of_rank (g : NodesMap) (rank : String → Nat)
    (h : ∀ a b, dependsRel g a b → rank b < rank a) : Acyclic g := by
  intro a hcyc
  have hmono : ∀ x y, Relation.TransGen (dependsRel g) x y → rank y < rank x := by
    intro x y hxy
    induction hxy with
    | single h1 => exact h _ _ h1
    | tail _ h1 ih => exact lt_trans (h _ _ h1) ih
  exact lt_irrefl _ (hmono a a hcyc)

theorem exists_source (g : NodesMap) (hacy : Acyclic g) (S : List String) (hS : S ≠ []) :
    ∃ a ∈ S, ∀ d, dependsRel g a d → d ∉ S := by
  by_contra hcon
  push_neg at hcon
  -- every member of S has a dependency inside S: choose one
  have hpick : ∀ a ∈ S, ∃ d, dependsRel g a d ∧ d ∈ S := by
    intro a ha
    obtain ⟨d, hd, hdS⟩ := hcon a ha
    exact ⟨d, hd, hdS⟩
  classical
  let f : String → String := fun a =>
    if h : ∃ d, dependsRel g a d ∧ d ∈ S then h.choose else a
  have hf : ∀ a ∈ S, dependsRel g a (f a) ∧ f a ∈ S := by
    intro a ha
    have hex := hpick a ha
    simp only [f, dif_pos hex]
    exact hex.choose_spec
  obtain ⟨a₀, ha₀⟩ := List.exists_mem_of_ne_nil S hS
  have hiter : ∀ n, f^[n] a₀ ∈ S := by
    intro n
    induction n with
    | zero => simpa using ha₀
    | succ n ih =>
      rw [Function.iterate_succ_apply']
      exact (hf _ ih).2
  have hcard : S.toFinset.card < (Finset.range (S.length + 1)).card := by
    rw [Finset.card_range]
    exact Nat.lt_succ_of_le (List.toFinset_card_le S)
  obtain ⟨i, _, j, _, hij, heq⟩ :=
    Finset.exists_ne_map_eq_of_card_lt_of_maps_to hcard
      (fun i _ => List.mem_toFinset.mpr (hiter i))
  -- arrange i < j
  rcases Nat.lt_or_ge i j with hlt | hge
  · exact absurd heq (fun heq => (hacy (f^[i] a₀)) (by
      have hstep : ∀ m a, a ∈ S → 1 ≤ m → Relation.TransGen (dependsRel g) a (f^[m] a) := by
        intro m
        induction m with
        | zero => intro a _ h1; exact absurd h1 (by simp)
        | succ m ihm =>
          intro a ha _
          rcases Nat.eq_zero_or_pos m with hm | hm
          · subst hm
            exact Relation.TransGen.single (hf a ha).1
          · have hin : f^[m] a ∈ S := by
              have : ∀ n, f^[n] a ∈ S := by
                intro n
                induction n with
                | zero => simpa using ha
                | succ n ihn =>
                  rw [Function.iterate_succ_apply']
                  exact (hf _ ihn).2
              exact this m
            have := ihm a ha hm
            rw [Function.iterate_succ_apply']
            exact Relation.TransGen.tail this (hf _ hin).1
      have h1 : Relation.TransGen (dependsRel g) (f^[i] a₀) (f^[j - i] (f^[i] a₀)) :=
        hstep (j - i) (f^[i] a₀) (hiter i) (by omega)
      have h2 : f^[j - i] (f^[i] a₀) = f^[j] a₀ := by
        rw [← Function.iterate_add_apply]
        congr 1
        omega
      rw [h2, ← heq] at h1
      exact h1))
  · have hgt : j < i := by omega
    exact absurd heq.symm (fun heq => (hacy (f^[j] a₀)) (by
      have hstep : ∀ m a, a ∈ S → 1 ≤ m → Relation.TransGen (dependsRel g) a (f^[m] a) := by
        intro m
        induction m with
        | zero => intro a _ h1; exact absurd h1 (by simp)
        | succ m ihm =>
          intro a ha _
          rcases Nat.eq_zero_or_pos m with hm | hm
          · subst hm
            exact Relation.TransGen.single (hf a ha).1
          · have hin : f^[m] a ∈ S := by
              have : ∀ n, f^[n] a ∈ S := by
                intro n
                induction n with
                | zero => simpa using ha
                | succ n ihn =>
                  rw [Function.iterate_succ_apply']
                  exact (hf _ ihn).2
              exact this m
            have := ihm a ha hm
            rw [Function.iterate_succ_apply']
            exact Relation.TransGen.tail this (hf _ hin).1
      have h1 : Relation.TransGen (dependsRel g) (f^[j] a₀) (f^[i - j] (f^[j] a₀)) :=
        hstep (i - j) (f^[j] a₀) (hiter j) (by omega)
      have h2 : f^[i - j] (f^[j] a₀) = f^[i] a₀ := by
        rw [← Function.iterate_add_apply]
        congr 1
        omega
      rw [h2, ← heq] at h1
      exact h1))

/-! ### Parallel-batch support lemmas -/

theorem graphOf_good (wss : List Workspace) : GoodGraph (graphOf wss) :=
  ⟨graphOf_keys_nodup wss,
   fun k n h => graphOf_deps_nodup wss k n h,
   fun k n h => graphOf_dependents_nodup wss k n h,
   fun d dn h x => graphOf_dependents_iff wss d dn h x⟩

theorem dependentsOf_nodup (g : NodesMap) (hg : GoodGraph g) (a : String) :
    (dependentsOf g a).Nodup := by
  unfold dependentsOf
  cases h : lookupAL g a with
  | none => simp
  | some n => exact hg.2.2.1 a n h

theorem mem_dependentsOf (g : NodesMap) (hg : GoodGraph g) (a x : String)
    (ha : a ∈ keysAL g) : x ∈ dependentsOf g a ↔ dependsRel g x a := by
  unfold dependentsOf
  obtain ⟨n, hn⟩ := Option.isSome_iff_exists.mp ((lookupAL_mem_keys g a).mpr ha)
  rw [hn]
  exact hg.2.2.2 a n hn x

theorem mem_depsOf (g : NodesMap) (a d : String) (ha : a ∈ keysAL g) :
    d ∈ depsOf g a ↔ dependsRel g a d := by
  unfold depsOf dependsRel
  obtain ⟨n, hn⟩ := Option.isSome_iff_exists.mp ((lookupAL_mem_keys g a).mpr ha)
  rw [hn]
  constructor
  · exact fun h => ⟨n, rfl, h⟩
  · rintro ⟨n', hn', h⟩
    cases hn'
    exact h

theorem decStep_keys (m : List (String × Int)) (dep : String) :
    keysAL (decStep m dep) = keysAL m := by
  unfold decStep
  cases h : lookupAL m dep with
  | none => rfl
  | some d => exact keysAL_setAL_mem m dep _ ((lookupAL_mem_keys m dep).mp (by simp [h]))

theorem decStep_lookup_ne (m : List (String × Int)) (dep k : String) (h : k ≠ dep) :
    lookupAL (decStep m dep) k = lookupAL m k := by
  unfold decStep
  cases hl : lookupAL m dep with
  | none => rfl
  | some d => exact lookupAL_setAL_ne m dep k _ h

theorem decStep_lookup_self (m : List (String × Int)) (dep : String) :
    lookupAL (decStep m dep) dep = (lookupAL m dep).map (· - 1) := by
  unfold decStep
  cases hl : lookupAL m dep with
  | none => simp [hl]
  | some d => simp [hl, lookupAL_setAL_self]

theorem decFold_lookup (L : List String) (hL : L.Nodup) (m : List (String × Int))
    (k : String) :
    lookupAL (L.foldl decStep m) k =
      if k ∈ L then (lookupAL m k).map (· - 1) else lookupAL m k := by
  induction L generalizing m with
  | nil => simp
  | cons dep L' ih =>
    have hnd : dep ∉ L' ∧ L'.Nodup := by simpa using hL
    rw [List.foldl_cons, ih hnd.2]
    by_cases hkL : k ∈ L'
    · have hkdep : k ≠ dep := fun h => hnd.1 (h ▸ hkL)
      simp [hkL, hkdep, decStep_lookup_ne m dep k hkdep, List.mem_cons]
    · by_cases hkd : k = dep
      · subst hkd
        simp [hkL, decStep_lookup_self]
      · simp [hkL, hkd, decStep_lookup_ne m dep k hkd, List.mem_cons]

theorem decFold_keys (L : List String) (m : List (String × Int)) :
    keysAL (L.foldl decStep m) = keysAL m := by
  induction L generalizing m with
  | nil => rfl
  | cons dep L' ih => rw [List.foldl_cons, ih, decStep_keys]

theorem processBatchStep_keys (g : NodesMap) (m : List (String × Int)) (b : String) :
    keysAL (processBatchStep g m b) = (keysAL m).erase b := by
  unfold processBatchStep
  rw [decFold_keys, keysAL_eraseAL]

theorem processBatchStep_lookup (g : NodesMap) (hg : GoodGraph g)
    (m : List (String × Int)) (hmk : (keysAL m).Nodup) (b k : String) :
    lookupAL (processBatchStep g m b) k =
      if k = b then none
      else (lookupAL m k).map (fun d => if k ∈ dependentsOf g b then d - 1 else d) := by
  unfold processBatchStep
  rw [decFold_lookup _ (dependentsOf_nodup g hg b)]
  by_cases hkb : k = b
  · subst hkb
    simp only [if_pos rfl]
    rw [lookupAL_eraseAL_self m k hmk]
    by_cases hd : k ∈ dependentsOf g k <;> simp [hd]
  · rw [lookupAL_eraseAL_ne m b k hkb]
    by_cases hd : k ∈ dependentsOf g b <;> simp [hd, hkb]

theorem eraseFold_mem (batch : List String) (ks : List String) (hks : ks.Nodup) (k : String) :
    k ∈ batch.foldl List.erase ks ↔ k ∈ ks ∧ k ∉ batch := by
  induction batch generalizing ks with
  | nil => simp
  | cons b batch' ih =>
    rw [List.foldl_cons, ih (ks.erase b) (hks.erase b)]
    rw [List.Nodup.mem_erase_iff hks]
    constructor
    · rintro ⟨⟨h1, h2⟩, h3⟩
      exact ⟨h2, by simp [h1, h3]⟩
    · rintro ⟨h1, h2⟩
      simp at h2
      exact ⟨⟨h2.1, h1⟩, h2.2⟩

theorem eraseFold_nodup (batch : List String) (ks : List String) (hks : ks.Nodup) :
    (batch.foldl List.erase ks).Nodup := by
  induction batch generalizing ks with
  | nil => simpa using hks
  | cons b batch' ih => exact ih (ks.erase b) (hks.erase b)

theorem eraseFold_length (batch : List String) (ks : List String) (hks : ks.Nodup)
    (hbn : batch.Nodup) (hsub : ∀ b ∈ batch, b ∈ ks) :
    (batch.foldl List.erase ks).length + batch.length = ks.length := by
  induction batch generalizing ks with
  | nil => simp
  | cons b batch' ih =>
    have hb : b ∈ ks := hsub b (by simp)
    have hlen : (ks.erase b).length + 1 = ks.length := by
      rw [List.length_erase_of_mem hb]
      have : ks.length ≠ 0 := by
        intro h0
        rw [List.length_eq_zero] at h0
        subst h0
        simp at hb
      omega
    have hbn' : batch'.Nodup ∧ b ∉ batch' := by
      constructor
      · exact (List.nodup_cons.mp hbn).2
      · exact (List.nodup_cons.mp hbn).1
    have hsub' : ∀ x ∈ batch', x ∈ ks.erase b := by
      intro x hx
      rw [List.Nodup.mem_erase_iff hks]
      exact ⟨fun hxb => hbn'.2 (hxb ▸ hx), hsub x (List.mem_cons_of_mem _ hx)⟩
    have := ih (ks.erase b) (hks.erase b) hbn'.1 hsub'
    rw [List.foldl_cons]
    simp only [List.length_cons]
    omega

theorem length_filter_comm (l1 l2 : List String) (h1 : l1.Nodup) (h2 : l2.Nodup) :
    (l1.filter (fun x => decide (x ∈ l2))).length =
    (l2.filter (fun x => decide (x ∈ l1))).length := by
  have e1 : (l1.filter (fun x => decide (x ∈ l2))).toFinset =
      l1.toFinset ∩ l2.toFinset := by
    ext x
    simp [List.mem_filter]
  have e2 : (l2.filter (fun x => decide (x ∈ l1))).toFinset =
      l2.toFinset ∩ l1.toFinset := by
    ext x
    simp [List.mem_filter]
  have n1 : (l1.filter (fun x => decide (x ∈ l2))).Nodup := h1.filter _
  have n2 : (l2.filter (fun x => decide (x ∈ l1))).Nodup := h2.filter _
  rw [← List.toFinset_card_of_nodup n1, ← List.toFinset_card_of_nodup n2, e1, e2,
    Finset.inter_comm]

theorem processBatch_lookup (g : NodesMap) (hg : GoodGraph g) :
    ∀ (batch : List String) (m : List (String × Int)), batch.Nodup →
    (keysAL m).Nodup → (∀ b ∈ batch, b ∈ keysAL m) → ∀ k,
    lookupAL (processBatch g m batch) k =
      if k ∈ batch then none
      else (lookupAL m k).map
        (fun d => d - ((batch.filter (fun b => decide (k ∈ dependentsOf g b))).length : Int)) := by
  intro batch
  induction batch with
  | nil =>
    intro m _ _ _ k
    simp [processBatch]
  | cons b batch' ih =>
    intro m hbn hmk hsub k
    have hbn' : b ∉ batch' ∧ batch'.Nodup := by simpa using hbn
    have hbm : b ∈ keysAL m := hsub b (by simp)
    have hm1k : keysAL (processBatchStep g m b) = (keysAL m).erase b :=
      processBatchStep_keys g m b
    have hm1nd : (keysAL (processBatchStep g m b)).Nodup := by
      rw [hm1k]; exact hmk.erase b
    have hsub' : ∀ x ∈ batch', x ∈ keysAL (processBatchStep g m b) := by
      intro x hx
      rw [hm1k, List.Nodup.mem_erase_iff hmk]
      exact ⟨fun hxb => hbn'.1 (hxb ▸ hx), hsub x (List.mem_cons_of_mem _ hx)⟩
    have hstep := processBatchStep_lookup g hg m hmk b
    unfold processBatch at ih ⊢
    rw [List.foldl_cons]
    rw [ih (processBatchStep g m b) hbn'.2 hm1nd hsub' k]
    by_cases hk1 : k ∈ batch'
    · simp [hk1, List.mem_cons]
    · by_cases hk2 : k = b
      · subst hk2
        rw [hstep k]
        simp [hk1]
      · rw [hstep k]
        simp only [if_neg hk2]
        have hmem : k ∉ b :: batch' := by simp [hk2, hk1]
        rw [if_neg hk1, if_neg hmem]
        cases hlk : lookupAL m k with
        | none => simp
        | some d =>
          simp only [Option.map_some, Option.map_map]
          congr 1
          funext
          simp only [Function.comp]
          rw [List.filter_cons]
          by_cases hdep : k ∈ dependentsOf g b
          · simp [hdep]
            ring
          · simp [hdep]

theorem processBatch_keys (g : NodesMap) (batch : List String) :
    ∀ m : List (String × Int),
    keysAL (processBatch g m batch) = batch.foldl List.erase (keysAL m) := by
  induction batch with
  | nil => intro m; rfl
  | cons b batch' ih =>
    intro m
    unfold processBatch at ih ⊢
    rw [List.foldl_cons, List.foldl_cons, ih, processBatchStep_keys]

theorem length_filter_or_disjoint (l : List String) (q r : String → Bool)
    (hd : ∀ x, ¬(q x = true ∧ r x = true)) :
    (l.filter (fun x => q x || r x)).length = (l.filter q).length + (l.filter r).length := by
  induction l with
  | nil => simp
  | cons a l' ih =>
    rw [List.filter_cons, List.filter_cons, List.filter_cons]
    by_cases hq : q a = true
    · have hr : ¬ r a = true := fun hr => hd a ⟨hq, hr⟩
      simp [hq, hr, ih]
      omega
    · by_cases hr : r a = true
      · simp [hq, hr, ih]
        omega
      · simp [hq, hr, ih]

theorem keysAL_length {α : Type} (m : List (String × α)) :
    (keysAL m).length = m.length := by
  simp [keysAL]

theorem peelLoop_ok (g : NodesMap) (hg : GoodGraph g) (hacy : Acyclic g) :
    ∀ (fuel : Nat) (m : List (String × Int)), m.length < fuel →
    (keysAL m).Nodup → (∀ k ∈ keysAL m, k ∈ keysAL g) →
    (∀ k d, lookupAL m k = some d →
      d = (((depsOf g k).filter (fun x => decide (x ∈ keysAL m))).length : Int)) →
    ∃ bs, peelLoop g fuel m = .ok bs ∧
      (∀ a, a ∈ bs.join ↔ a ∈ keysAL m) ∧ bs.join.Nodup ∧
      (∀ i a, a ∈ bs.getD i [] → ∀ d, dependsRel g a d →
        (d ∉ keysAL m ∨ ∃ j, j < i ∧ d ∈ bs.getD j [])) := by
  intro fuel
  induction fuel with
  | zero => intro m hlt; omega
  | succ fuel ih =>
    intro m hlt hmnd hsub hdeg
    by_cases hme : m.isEmpty
    · refine ⟨[], by simp [peelLoop, hme], ?_, by simp, by simp⟩
      have : m = [] := List.isEmpty_iff.mp hme
      subst this
      simp [keysAL]
    · -- the batch of zero-degree keys
      have hBmem : ∀ a, a ∈ (m.filter (fun p => p.2 == 0)).map (·.1) ↔
          lookupAL m a = some 0 := by
        intro a
        constructor
        · intro ha
          obtain ⟨p, hp, hpa⟩ := List.mem_map.mp ha
          obtain ⟨hpm, hp0⟩ := List.mem_filter.mp hp
          have : p.2 = 0 := by simpa using hp0
          have := lookupAL_eq_some_of_mem_nodup m p.1 p.2 hmnd (by
            obtain ⟨p1, p2⟩ := p
            exact hpm)
          rw [hpa] at this
          rw [this]
          simp [‹p.2 = 0›]
        · intro ha
          refine List.mem_map.mpr ⟨(a, 0), List.mem_filter.mpr ⟨?_, by simp⟩, rfl⟩
          exact mem_of_lookupAL_eq_some m a 0 ha
      have hBnd : ((m.filter (fun p => p.2 == 0)).map (·.1)).Nodup := by
        have hsb : List.Sublist ((m.filter (fun p => p.2 == 0)).map (·.1)) (keysAL m) :=
          List.Sublist.map _ (List.filter_sublist m)
        exact hmnd.sublist hsb
      have hBsubm : ∀ b ∈ (m.filter (fun p => p.2 == 0)).map (·.1), b ∈ keysAL m := by
        intro b hb
        exact (lookupAL_mem_keys m b).mp (by rw [(hBmem b).mp hb]; rfl)
      have hBne : ¬ ((m.filter (fun p => p.2 == 0)).map (·.1)).isEmpty := by
        have hkne : keysAL m ≠ [] := by
          intro h
          have : m = [] := by
            cases m with
            | nil => rfl
            | cons p t => simp [keysAL] at h
          exact hme (by simp [this])
        obtain ⟨a, haS, hano⟩ := exists_source g hacy (keysAL m) hkne
        have hag : a ∈ keysAL g := hsub a haS
        obtain ⟨d₀, hd₀⟩ := Option.isSome_iff_exists.mp ((lookupAL_mem_keys m a).mpr haS)
        have hdeg₀ := hdeg a d₀ hd₀
        have hfil : (depsOf g a).filter (fun x => decide (x ∈ keysAL m)) = [] := by
          rw [List.filter_eq_nil_iff]
          intro x hx
          simp only [decide_eq_true_eq]
          exact hano x ((mem_depsOf g a x hag).mp hx)
        rw [hfil] at hdeg₀
        simp at hdeg₀
        have : a ∈ (m.filter (fun p => p.2 == 0)).map (·.1) :=
          (hBmem a).mpr (by rw [hd₀, hdeg₀])
        intro hemp
        rw [List.isEmpty_iff] at hemp
        rw [hemp] at this
        simp at this
      -- the next state
      have hm'keys : keysAL (processBatch g m ((m.filter (fun p => p.2 == 0)).map (·.1))) =
          ((m.filter (fun p => p.2 == 0)).map (·.1)).foldl List.erase (keysAL m) :=
        processBatch_keys g _ m
      have hm'mem : ∀ k, k ∈ keysAL (processBatch g m ((m.filter (fun p => p.2 == 0)).map (·.1))) ↔
          k ∈ keysAL m ∧ k ∉ (m.filter (fun p => p.2 == 0)).map (·.1) := by
        intro k
        rw [hm'keys]
        exact eraseFold_mem _ _ hmnd k
      have hm'nd : (keysAL (processBatch g m ((m.filter (fun p => p.2 == 0)).map (·.1)))).Nodup := by
        rw [hm'keys]
        exact eraseFold_nodup _ _ hmnd
      have hm'len : (processBatch g m ((m.filter (fun p => p.2 == 0)).map (·.1))).length < fuel := by
        have h1 := eraseFold_length ((m.filter (fun p => p.2 == 0)).map (·.1)) (keysAL m) hmnd hBnd hBsubm
        have h2 : ((m.filter (fun p => p.2 == 0)).map (·.1)).length ≠ 0 := by
          intro h0
          exact hBne (by
            rw [List.isEmpty_iff]
            exact List.length_eq_zero.mp h0)
        have h3 := keysAL_length (processBatch g m ((m.filter (fun p => p.2 == 0)).map (·.1)))
        have h4 := keysAL_length m
        rw [hm'keys] at h3
        omega
      have hm'sub : ∀ k ∈ keysAL (processBatch g m ((m.filter (fun p => p.2 == 0)).map (·.1))),
          k ∈ keysAL g := by
        intro k hk
        exact hsub k ((hm'mem k).mp hk).1
      have hPBL := processBatch_lookup g hg ((m.filter (fun p => p.2 == 0)).map (·.1)) m hBnd hmnd hBsubm
      have hm'deg : ∀ k d, lookupAL (processBatch g m ((m.filter (fun p => p.2 == 0)).map (·.1))) k = some d →
          d = (((depsOf g k).filter (fun x =>
            decide (x ∈ keysAL (processBatch g m ((m.filter (fun p => p.2 == 0)).map (·.1)))))).length : Int) := by
        intro k d hkd
        rw [hPBL k] at hkd
        by_cases hkB : k ∈ (m.filter (fun p => p.2 == 0)).map (·.1)
        · simp [hkB] at hkd
        · simp only [if_neg hkB] at hkd
          obtain ⟨d₀, hd₀, hdeq⟩ := Option.map_eq_some'.mp hkd
          have hkm : k ∈ keysAL m := (lookupAL_mem_keys m k).mp (by rw [hd₀]; rfl)
          have hkg : k ∈ keysAL g := hsub k hkm
          obtain ⟨kn, hkn⟩ := Option.isSome_iff_exists.mp ((lookupAL_mem_keys g k).mpr hkg)
          have hdepnd : (depsOf g k).Nodup := by
            unfold depsOf
            rw [hkn]
            exact hg.2.1 k kn hkn
          -- the count of decrements equals the number of removed dependencies
          have hcnt : (((m.filter (fun p => p.2 == 0)).map (·.1)).filter
              (fun b => decide (k ∈ dependentsOf g b))).length =
              ((depsOf g k).filter
                (fun x => decide (x ∈ (m.filter (fun p => p.2 == 0)).map (·.1)))).length := by
            have hcong : ((m.filter (fun p => p.2 == 0)).map (·.1)).filter
                (fun b => decide (k ∈ dependentsOf g b)) =
                ((m.filter (fun p => p.2 == 0)).map (·.1)).filter
                (fun b => decide (b ∈ depsOf g k)) := by
              apply List.filter_congr
              intro b hb
              have hbg : b ∈ keysAL g := hsub b (hBsubm b hb)
              simp only [decide_eq_decide]
              rw [mem_dependentsOf g hg b k hbg, mem_depsOf g k b hkg]
            rw [hcong]
            exact length_filter_comm _ _ hBnd hdepnd
          have hsplit : ((depsOf g k).filter (fun x => decide (x ∈ keysAL m))).length =
              ((depsOf g k).filter (fun x =>
                decide (x ∈ keysAL (processBatch g m ((m.filter (fun p => p.2 == 0)).map (·.1)))))).length +
              ((depsOf g k).filter
                (fun x => decide (x ∈ (m.filter (fun p => p.2 == 0)).map (·.1)))).length := by
            have hcong2 : (depsOf g k).filter (fun x => decide (x ∈ keysAL m)) =
                (depsOf g k).filter (fun x =>
                  decide (x ∈ keysAL (processBatch g m ((m.filter (fun p => p.2 == 0)).map (·.1)))) ||
                  decide (x ∈ (m.filter (fun p => p.2 == 0)).map (·.1))) := by
              apply List.filter_congr
              intro x _
              by_cases h1 : x ∈ keysAL m
              · by_cases h2 : x ∈ (m.filter (fun p => p.2 == 0)).map (·.1)
                · have h3 : x ∉ keysAL (processBatch g m ((m.filter (fun p => p.2 == 0)).map (·.1))) :=
                    fun hc => ((hm'mem x).mp hc).2 h2
                  simp [h1, h2, h3]
                · have h3 : x ∈ keysAL (processBatch g m ((m.filter (fun p => p.2 == 0)).map (·.1))) :=
                    (hm'mem x).mpr ⟨h1, h2⟩
                  simp [h1, h2, h3]
              · have h3 : x ∉ keysAL (processBatch g m ((m.filter (fun p => p.2 == 0)).map (·.1))) :=
                  fun hc => h1 ((hm'mem x).mp hc).1
                have h2 : x ∉ (m.filter (fun p => p.2 == 0)).map (·.1) :=
                  fun hc => h1 (hBsubm x hc)
                simp [h1, h2, h3]
            rw [hcong2]
            apply length_filter_or_disjoint
            intro x ⟨h1, h2⟩
            simp only [decide_eq_true_eq] at h1 h2
            exact ((hm'mem x).mp h1).2 h2
          have hd₀v := hdeg k d₀ hd₀
          subst hdeq
          rw [hd₀v, hsplit, hcnt]
          push_cast
          ring
      obtain ⟨bs', hbs', hjoin', hnd', hord'⟩ :=
        ih (processBatch g m ((m.filter (fun p => p.2 == 0)).map (·.1))) hm'len hm'nd hm'sub hm'deg
      refine ⟨((m.filter (fun p => p.2 == 0)).map (·.1)) :: bs', ?_, ?_, ?_, ?_⟩
      · show peelLoop g (fuel + 1) m = _
        rw [peelLoop]
        simp only [hme, if_false, Bool.false_eq_true]
        rw [if_neg (by simpa using hBne)]
        rw [hbs']
      · intro a
        have hj : (((m.filter (fun p => p.2 == 0)).map (·.1)) :: bs').join =
            ((m.filter (fun p => p.2 == 0)).map (·.1)) ++ bs'.join := rfl
        rw [hj, List.mem_append]
        constructor
        · rintro (h | h)
          · exact hBsubm a h
          · exact ((hm'mem a).mp ((hjoin' a).mp h)).1
        · intro ham
          by_cases haB : a ∈ (m.filter (fun p => p.2 == 0)).map (·.1)
          · exact Or.inl haB
          · exact Or.inr ((hjoin' a).mpr ((hm'mem a).mpr ⟨ham, haB⟩))
      · simp only [List.join_cons]
        refine List.Nodup.append hBnd hnd' ?_
        intro x hx hx'
        exact ((hm'mem x).mp ((hjoin' x).mp hx')).2 hx
      · intro i a ha d hd
        cases i with
        | zero =>
          simp only [List.getD] at ha
          have ha' : a ∈ (m.filter (fun p => p.2 == 0)).map (·.1) := by simpa using ha
          have hla := (hBmem a).mp ha'
          have hdeg0 := hdeg a 0 hla
          have hag : a ∈ keysAL g := hsub a (hBsubm a ha')
          have hfil : (depsOf g a).filter (fun x => decide (x ∈ keysAL m)) = [] := by
            have : (((depsOf g a).filter (fun x => decide (x ∈ keysAL m))).length : Int) = 0 :=
              hdeg0.symm
            have hlen : ((depsOf g a).filter (fun x => decide (x ∈ keysAL m))).length = 0 := by
              exact_mod_cast this
            exact List.length_eq_zero.mp hlen
          left
          intro hdm
          have hdd : d ∈ depsOf g a := (mem_depsOf g a d hag).mpr hd
          have : d ∈ (depsOf g a).filter (fun x => decide (x ∈ keysAL m)) :=
            List.mem_filter.mpr ⟨hdd, by simpa using hdm⟩
          rw [hfil] at this
          simp at this
        | succ i' =>
          have ha' : a ∈ bs'.getD i' [] := by simpa [List.getD] using ha
          rcases hord' i' a ha' d hd with hleft | ⟨j, hj, hdj⟩
          · rw [hm'mem d] at hleft
            push_neg at hleft
            by_cases hdm : d ∈ keysAL m
            · refine Or.inr ⟨0, by omega, ?_⟩
              simpa [List.getD] using hleft hdm
            · exact Or.inl hdm
          · refine Or.inr ⟨j + 1, by omega, ?_⟩
            simpa [List.getD] using hdj

theorem mem_join_of_mem_getD (bs : List (List String)) (i : Nat) (a : String)
    (h : a ∈ bs.getD i []) : a ∈ bs.join := by
  induction bs generalizing i with
  | nil => simp [List.getD] at h
  | cons b bs' ih =>
    cases i with
    | zero =>
      have hb : a ∈ b := by simpa [List.getD] using h
      exact List.mem_join.mpr ⟨b, by simp, hb⟩
    | succ i' =>
      have : a ∈ bs'.getD i' [] := by simpa [List.getD] using h
      have := ih i' this
      rcases List.mem_join.mp this with ⟨l, hl, hal⟩
      exact List.mem_join.mpr ⟨l, by simp [hl], hal⟩

theorem nodup_join_getD_unique (bs : List (List String)) (h : bs.join.Nodup)
    (i j : Nat) (hij : i ≠ j) (a : String) (hi : a ∈ bs.getD i []) (hj : a ∈ bs.getD j []) :
    False := by
  induction bs generalizing i j with
  | nil => simp [List.getD] at hi
  | cons b bs' ih =>
    have hnd : b.Nodup ∧ bs'.join.Nodup ∧ ∀ x ∈ b, x ∉ bs'.join := by
      have hj' : (b :: bs').join = b ++ bs'.join := rfl
      rw [hj'] at h
      exact ⟨h.of_append_left, h.of_append_right, fun x hx => (List.disjoint_of_nodup_append h) hx⟩
    cases i with
    | zero =>
      cases j with
      | zero => exact hij rfl
      | succ j' =>
        have hb : a ∈ b := by simpa [List.getD] using hi
        have hj2 : a ∈ bs'.getD j' [] := by simpa [List.getD] using hj
        exact hnd.2.2 a hb (mem_join_of_mem_getD bs' j' a hj2)
    | succ i' =>
      cases j with
      | zero =>
        have hb : a ∈ b := by simpa [List.getD] using hj
        have hi2 : a ∈ bs'.getD i' [] := by simpa [List.getD] using hi
        exact hnd.2.2 a hb (mem_join_of_mem_getD bs' i' a hi2)
      | succ j' =>
        have hi2 : a ∈ bs'.getD i' [] := by simpa [List.getD] using hi
        have hj2 : a ∈ bs'.getD j' [] := by simpa [List.getD] using hj
        exact ih hnd.2.1 i' j' (by omega) hi2 hj2

theorem join_indexOf_lt (bs : List (List String)) (h : bs.join.Nodup)
    (i j : Nat) (hij : j < i) (x y : String)
    (hx : x ∈ bs.getD j []) (hy : y ∈ bs.getD i []) :
    bs.join.indexOf x < bs.join.indexOf y := by
  induction bs generalizing i j with
  | nil => simp [List.getD] at hx
  | cons b bs' ih =>
    have hjoin : (b :: bs').join = b ++ bs'.join := rfl
    have hnd : b.Nodup ∧ bs'.join.Nodup ∧ ∀ z ∈ b, z ∉ bs'.join := by
      rw [hjoin] at h
      exact ⟨h.of_append_left, h.of_append_right, fun z hz => (List.disjoint_of_nodup_append h) hz⟩
    cases j with
    | zero =>
      have hxb : x ∈ b := by simpa [List.getD] using hx
      obtain ⟨i', rfl⟩ : ∃ i', i = i' + 1 := ⟨i - 1, by omega⟩
      have hy2 : y ∈ bs'.getD i' [] := by simpa [List.getD] using hy
      have hyj : y ∈ bs'.join := mem_join_of_mem_getD bs' i' y hy2
      have hynb : y ∉ b := fun hyb => hnd.2.2 y hyb hyj
      rw [hjoin, List.indexOf_append_of_mem hxb, List.indexOf_append_of_not_mem hynb]
      have := List.indexOf_lt_length.mpr hxb
      omega
    | succ j' =>
      obtain ⟨i', rfl⟩ : ∃ i', i = i' + 1 := ⟨i - 1, by omega⟩
      have hx2 : x ∈ bs'.getD j' [] := by simpa [List.getD] using hx
      have hy2 : y ∈ bs'.getD i' [] := by simpa [List.getD] using hy
      have hxj : x ∈ bs'.join := mem_join_of_mem_getD bs' j' x hx2
      have hyj : y ∈ bs'.join := mem_join_of_mem_getD bs' i' y hy2
      have hxnb : x ∉ b := fun hxb => hnd.2.2 x hxb hxj
      have hynb : y ∉ b := fun hyb => hnd.2.2 y hyb hyj
      rw [hjoin, List.indexOf_append_of_not_mem hxnb, List.indexOf_append_of_not_mem hynb]
      have := ih hnd.2.1 i' j' (by omega) hx2 hy2
      omega

theorem initDegrees_keys (g : NodesMap) : keysAL (initDegrees g) = keysAL g := by
  simp [initDegrees, keysAL]

theorem initDegrees_lookup (g : NodesMap) (k : String) :
    lookupAL (initDegrees g) k = (lookupAL g k).map (fun n => (n.dependencies.length : Int)) := by
  induction g with
  | nil => simp [initDegrees, lookupAL]
  | cons p t ih =>
    obtain ⟨k₀, n₀⟩ := p
    by_cases hk : k = k₀ <;> simp [initDegrees, lookupAL, hk] <;>
      simpa [initDegrees] using ih

theorem peelLoop_mem (g : NodesMap) :
    ∀ (fuel : Nat) (m : List (String × Int)) (bs : List (List String)),
    peelLoop g fuel m = .ok bs → (keysAL m).Nodup →
    (∀ a ∈ bs.join, a ∈ keysAL m) ∧ bs.join.Nodup := by
  intro fuel
  induction fuel with
  | zero => intro m bs h; simp [peelLoop] at h
  | succ fuel ih =>
    intro m bs h hmnd
    rw [peelLoop] at h
    by_cases hme : m.isEmpty
    · simp [hme] at h
      subst h
      simp
    · simp only [hme, if_false, Bool.false_eq_true] at h
      by_cases hbe : ((m.filter (fun p => p.2 == 0)).map (·.1)).isEmpty
      · rw [if_pos hbe] at h
        simp at h
      · rw [if_neg hbe] at h
        cases hrec : peelLoop g fuel (processBatch g m ((m.filter (fun p => p.2 == 0)).map (·.1))) with
        | error e => rw [hrec] at h; simp at h
        | ok bs' =>
          rw [hrec] at h
          simp at h
          subst h
          have hBnd : ((m.filter (fun p => p.2 == 0)).map (·.1)).Nodup :=
            hmnd.sublist (List.Sublist.map _ (List.filter_sublist m))
          have hBsubm : ∀ b ∈ (m.filter (fun p => p.2 == 0)).map (·.1), b ∈ keysAL m := by
            intro b hb
            obtain ⟨p, hp, hpb⟩ := List.mem_map.mp hb
            exact hpb ▸ mem_keysAL (List.mem_of_mem_filter hp)
          have hm'nd : (keysAL (processBatch g m ((m.filter (fun p => p.2 == 0)).map (·.1)))).Nodup := by
            rw [processBatch_keys]
            exact eraseFold_nodup _ _ hmnd
          have hm'mem : ∀ k, k ∈ keysAL (processBatch g m ((m.filter (fun p => p.2 == 0)).map (·.1))) ↔
              k ∈ keysAL m ∧ k ∉ (m.filter (fun p => p.2 == 0)).map (·.1) := by
            intro k
            rw [processBatch_keys]
            exact eraseFold_mem _ _ hmnd k
          obtain ⟨hsub', hnd'⟩ := ih _ bs' hrec hm'nd
          constructor
          · intro a ha
            have hj : (((m.filter (fun p => p.2 == 0)).map (·.1)) :: bs').join =
                ((m.filter (fun p => p.2 == 0)).map (·.1)) ++ bs'.join := rfl
            rw [hj, List.mem_append] at ha
            rcases ha with ha | ha
            · exact hBsubm a ha
            · exact ((hm'mem a).mp (hsub' a ha)).1
          · have hj : (((m.filter (fun p => p.2 == 0)).map (·.1)) :: bs').join =
                ((m.filter (fun p => p.2 == 0)).map (·.1)) ++ bs'.join := rfl
            rw [hj]
            refine List.Nodup.append hBnd hnd' ?_
            intro x hx hx'
            exact ((hm'mem x).mp (hsub' x hx')).2 hx

theorem batches_mem_keys (wss : List Workspace) (bs : List (List String))
    (h : getParallelBatches (graphOf wss) = .ok bs) :
    (∀ a ∈ bs.join, a ∈ keysAL (graphOf wss)) ∧ bs.join.Nodup := by
  unfold getParallelBatches at h
  have := peelLoop_mem (graphOf wss) _ _ bs h
    (by rw [initDegrees_keys]; exact graphOf_keys_nodup wss)
  rw [initDegrees_keys] at this
  exact this

theorem batches_full (wss : List Workspace)
    (hwf : wellFormedB (graphOf wss) = true) (hacy : Acyclic (graphOf wss)) :
    ∃ bs, getParallelBatches (graphOf wss) = .ok bs ∧
      (∀ a, a ∈ bs.join ↔ a ∈ keysAL (graphOf wss)) ∧ bs.join.Nodup ∧
      (∀ i a, a ∈ bs.getD i [] → ∀ d, dependsRel (graphOf wss) a d →
        ∃ j, j < i ∧ d ∈ bs.getD j []) := by
  have hg := graphOf_good wss
  have hkeq := initDegrees_keys (graphOf wss)
  have hlt : (initDegrees (graphOf wss)).length < (graphOf wss).length + 1 := by
    have := keysAL_length (initDegrees (graphOf wss))
    have := keysAL_length (graphOf wss)
    rw [initDegrees_keys] at *
    omega
  obtain ⟨bs, hok, hjoin, hnd, hord⟩ := peelLoop_ok (graphOf wss) hg hacy
    ((graphOf wss).length + 1) (initDegrees (graphOf wss)) hlt
    (by rw [hkeq]; exact hg.1)
    (by rw [hkeq]; intro k hk; exact hk)
    (by
      intro k d hkd
      rw [initDegrees_lookup] at hkd
      obtain ⟨n, hn, hd⟩ := Option.map_eq_some'.mp hkd
      have hdeps : depsOf (graphOf wss) k = n.dependencies := by
        unfold depsOf
        rw [hn]
      have hfil : (depsOf (graphOf wss) k).filter
          (fun x => decide (x ∈ keysAL (initDegrees (graphOf wss)))) =
          depsOf (graphOf wss) k := by
        rw [List.filter_eq_self]
        intro x hx
        rw [hdeps] at hx
        have := wellFormed_lookup hwf hn hx
        simp only [decide_eq_true_eq]
        rw [hkeq]
        exact (lookupAL_mem_keys _ _).mp this
      rw [hfil, hdeps, ← hd])
  rw [hkeq] at hjoin hord
  refine ⟨bs, hok, hjoin, hnd, ?_⟩
  intro i a ha d hd
  rcases hord i a ha d hd with hleft | h
  · exfalso
    obtain ⟨n, hn, hdn⟩ := hd
    have := wellFormed_lookup hwf hn hdn
    exact hleft ((lookupAL_mem_keys _ _).mp this)
  · exact h

theorem mem_getD_of_mem_join (bs : List (List String)) (a : String)
    (h : a ∈ bs.join) : ∃ i, a ∈ bs.getD i [] := by
  induction bs with
  | nil => simp at h
  | cons b bs' ih =>
    have hj : (b :: bs').join = b ++ bs'.join := rfl
    rw [hj, List.mem_append] at h
    rcases h with h | h
    · exact ⟨0, by simpa [List.getD] using h⟩
    · obtain ⟨i, hi⟩ := ih h
      exact ⟨i + 1, by simpa [List.getD] using hi⟩

/-- C1 (amended): for every set of workspace declarations whose dependency
relation is acyclic and in which every declared dependency names a declared
workspace (the well-formedness `validateWorkspaces` enforces before the
graph is ever built), `getParallelBatches` succeeds; its batches cover the
graph's workspaces, every workspace lies in exactly one batch, every
dependency of a workspace lies in a strictly earlier batch, no workspace
shares a batch with a direct or transitive dependency, and the
concatenation of the batches lists every dependency strictly before its
dependent — a valid topological order. -/
theorem C1_parallel_batches (wss : List Workspace)
    (hwf : wellFormedB (graphOf wss) = true) (hacy : Acyclic (graphOf wss)) :
    ∃ bs, getParallelBatches (graphOf wss) = .ok bs ∧
      bs.join.Perm (keysAL (graphOf wss)) ∧
      (∀ a, a ∈ keysAL (graphOf wss) → ∃! i, a ∈ bs.getD i []) ∧
      (∀ i a, a ∈ bs.getD i [] → ∀ d, dependsRel (graphOf wss) a d →
        ∃ j, j < i ∧ d ∈ bs.getD j []) ∧
      (∀ a b, Relation.TransGen (dependsRel (graphOf wss)) a b →
        ∀ i, a ∈ bs.getD i [] → b ∉ bs.getD i []) ∧
      (∀ a d, dependsRel (graphOf wss) a d →
        bs.join.indexOf d < bs.join.indexOf a) := by
  obtain ⟨bs, hok, hjoin, hnd, hord⟩ := batches_full wss hwf hacy
  have htrans : ∀ a b, Relation.TransGen (dependsRel (graphOf wss)) a b →
      ∀ i, a ∈ bs.getD i [] → ∃ j, j < i ∧ b ∈ bs.getD j [] := by
    intro a b htg
    induction htg with
    | single h1 =>
      intro i hai
      exact hord i a hai _ h1
    | tail _ h1 ihtg =>
      intro i hai
      obtain ⟨j, hj, hcj⟩ := ihtg i hai
      obtain ⟨j', hj', hbj'⟩ := hord j _ hcj _ h1
      exact ⟨j', by omega, hbj'⟩
  refine ⟨bs, hok, ?_, ?_, hord, ?_, ?_⟩
  · rw [List.perm_ext_iff_of_nodup hnd (graphOf_keys_nodup wss)]
    exact hjoin
  · intro a ha
    obtain ⟨i, hi⟩ := mem_getD_of_mem_join bs a ((hjoin a).mpr ha)
    refine ⟨i, hi, ?_⟩
    intro j hj
    by_contra hne
    exact nodup_join_getD_unique bs hnd j i hne a hj hi
  · intro a b htg i hai hbi
    obtain ⟨j, hj, hbj⟩ := htrans a b htg i hai
    exact nodup_join_getD_unique bs hnd j i (by omega) b hbj hbi
  · intro a d hd
    have hak : a ∈ keysAL (graphOf wss) := by
      obtain ⟨n, hn, _⟩ := hd
      exact (lookupAL_mem_keys _ _).mp (by rw [hn]; rfl)
    obtain ⟨i, hi⟩ := mem_getD_of_mem_join bs a ((hjoin a).mpr hak)
    obtain ⟨j, hj, hdj⟩ := hord i a hi d hd
    exact join_indexOf_lt bs hnd i j hj d a hdj hi

/-- The witness chain graph, computed. -/
theorem graphW_eq : graphOf [wsWa, wsWb] =
    [("wa", ⟨wsWa, [], ["wb"]⟩), ("wb", ⟨wsWb, ["wa"], []⟩)] := by decide

theorem graphW_rel (a b : String) (h : dependsRel (graphOf [wsWa, wsWb]) a b) :
    a = "wb" ∧ b = "wa" := by
  obtain ⟨n, hn, hb⟩ := h
  rw [graphW_eq] at hn
  by_cases h1 : a = "wa"
  · simp [lookupAL, h1] at hn
    subst hn
    simp at hb
  · by_cases h2 : a = "wb"
    · simp [lookupAL, h1, h2] at hn
      subst hn
      simp at hb
      exact ⟨h2, hb⟩
    · simp [lookupAL, h1, h2] at hn

theorem graphW_acyclic : Acyclic (graphOf [wsWa, wsWb]) := by
  apply acyclic_of_rank _ (fun s => if s = "wb" then 1 else 0)
  intro a b h
  obtain ⟨ha, hb⟩ := graphW_rel a b h
  subst ha; subst hb
  simp

/-- Witness for C1: the two-workspace chain satisfies the hypotheses, and
the conclusion holds there. -/
theorem C1_witness :
    wellFormedB (graphOf [wsWa, wsWb]) = true ∧
    Acyclic (graphOf [wsWa, wsWb]) ∧
    (∃ bs, getParallelBatches (graphOf [wsWa, wsWb]) = .ok bs ∧
      bs.join.Perm (keysAL (graphOf [wsWa, wsWb])) ∧
      (∀ a, a ∈ keysAL (graphOf [wsWa, wsWb]) → ∃! i, a ∈ bs.getD i []) ∧
      (∀ i a, a ∈ bs.getD i [] → ∀ d, dependsRel (graphOf [wsWa, wsWb]) a d →
        ∃ j, j < i ∧ d ∈ bs.getD j []) ∧
      (∀ a b, Relation.TransGen (dependsRel (graphOf [wsWa, wsWb])) a b →
        ∀ i, a ∈ bs.getD i [] → b ∉ bs.getD i []) ∧
      (∀ a d, dependsRel (graphOf [wsWa, wsWb]) a d →
        bs.join.indexOf d < bs.join.indexOf a)) :=
  ⟨by decide, graphW_acyclic, C1_parallel_batches [wsWa, wsWb] (by decide) graphW_acyclic⟩

theorem graphD_eq : graphOf [wsDangling] = [("a", ⟨wsDangling, ["m"], []⟩)] := by decide

theorem graphD_rel (a b : String) (h : dependsRel (graphOf [wsDangling]) a b) :
    a = "a" ∧ b = "m" := by
  obtain ⟨n, hn, hb⟩ := h
  rw [graphD_eq] at hn
  by_cases h1 : a = "a"
  · simp [lookupAL, h1] at hn
    subst hn
    simp at hb
    exact ⟨h1, hb⟩
  · simp [lookupAL, h1] at hn

theorem graphD_acyclic : Acyclic (graphOf [wsDangling]) := by
  apply acyclic_of_rank _ (fun s => if s = "a" then 1 else 0)
  intro a b h
  obtain ⟨ha, hb⟩ := graphD_rel a b h
  subst ha; subst hb
  simp

/-- Counterexample to C1 as stated: the single declaration
`{path: "a", dependsOn: ["m"]}` (no workspace `m` is declared) has an
acyclic dependency relation, the graph holds the workspace `a`, yet
`getParallelBatches` throws `Unable to determine parallel batches` instead
of assigning `a` to a batch — because the in-degree seeded from
`dependencies.size` counts the dangling dependency, which no round can
ever remove. -/
theorem C1_counterexample :
    Acyclic (graphOf [wsDangling]) ∧
    keysAL (graphOf [wsDangling]) = ["a"] ∧
    getParallelBatches (graphOf [wsDangling]) =
      .error "Unable to determine parallel batches" :=
  ⟨graphD_acyclic, by decide, rfl⟩

/-! ### Kahn-loop support lemmas -/

theorem intPotential_setAL (m : List (String × Int)) (k : String) (v : Int) :
    intPotential (setAL m k v) + ((lookupAL m k).getD 0).toNat =
      intPotential m + v.toNat := by
  induction m with
  | nil => simp [setAL, lookupAL, intPotential]
  | cons p t ih =>
    obtain ⟨k₀, v₀⟩ := p
    by_cases hk : k = k₀
    · simp [setAL, lookupAL, hk, intPotential]
      omega
    · simp [setAL, lookupAL, hk, intPotential] at ih ⊢
      omega

theorem topoDecStep_mu (m : List (String × Int)) (q : List String) (dep : String) :
    intPotential (topoDecStep (m, q) dep).1 + (topoDecStep (m, q) dep).2.length ≤
      intPotential m + q.length := by
  unfold topoDecStep
  simp only
  have hset := intPotential_setAL m dep ((lookupAL m dep).getD 0 - 1)
  by_cases h0 : ((lookupAL m dep).getD 0 - 1) == 0
  · have h1 : (lookupAL m dep).getD 0 = 1 := by
      have := beq_iff_eq.mp h0
      omega
    simp only [h0, if_true]
    rw [h1] at hset ⊢
    simp only [List.length_append, List.length_cons, List.length_nil]
    omega
  · simp only [h0, if_false, Bool.false_eq_true]
    have h1 : (lookupAL m dep).getD 0 ≠ 1 := by
      intro h1
      rw [h1] at h0
      simp at h0
    have : ((lookupAL m dep).getD 0 - 1).toNat ≤ ((lookupAL m dep).getD 0).toNat := by
      omega
    omega

theorem topoDecFold_mu (L : List String) (m : List (String × Int)) (q : List String) :
    intPotential (L.foldl topoDecStep (m, q)).1 + (L.foldl topoDecStep (m, q)).2.length ≤
      intPotential m + q.length := by
  induction L generalizing m q with
  | nil => simp
  | cons dep L' ih =>
    rw [List.foldl_cons]
    calc intPotential (L'.foldl topoDecStep (topoDecStep (m, q) dep)).1 +
          (L'.foldl topoDecStep (topoDecStep (m, q) dep)).2.length
        ≤ intPotential (topoDecStep (m, q) dep).1 + (topoDecStep (m, q) dep).2.length := by
          have := ih (topoDecStep (m, q) dep).1 (topoDecStep (m, q) dep).2
          simpa using this
      _ ≤ intPotential m + q.length := topoDecStep_mu m q dep

theorem topoDecFold_spec (L : List String) (hL : L.Nodup) :
    ∀ (m : List (String × Int)) (q0 : List String), (∀ dep ∈ L, dep ∈ keysAL m) →
    (∀ k, lookupAL (L.foldl topoDecStep (m, q0)).1 k =
      if k ∈ L then (lookupAL m k).map (· - 1) else lookupAL m k) ∧
    keysAL (L.foldl topoDecStep (m, q0)).1 = keysAL m ∧
    (L.foldl topoDecStep (m, q0)).2 =
      q0 ++ L.filter (fun dep => (lookupAL m dep).getD 0 == 1) := by
  induction L with
  | nil => intro m q0 _; simp
  | cons dep L' ih =>
    intro m q0 hpres
    have hnd : dep ∉ L' ∧ L'.Nodup := by simpa using hL
    have hdepm : dep ∈ keysAL m := hpres dep (by simp)
    obtain ⟨d₀, hd₀⟩ := Option.isSome_iff_exists.mp ((lookupAL_mem_keys m dep).mpr hdepm)
    have hstep : topoDecStep (m, q0) dep =
        (setAL m dep (d₀ - 1), if d₀ - 1 == 0 then q0 ++ [dep] else q0) := by
      unfold topoDecStep
      rw [hd₀]
      rfl
    have hkeys1 : keysAL (setAL m dep (d₀ - 1)) = keysAL m :=
      keysAL_setAL_mem m dep _ hdepm
    have hpres' : ∀ x ∈ L', x ∈ keysAL (setAL m dep (d₀ - 1)) := by
      intro x hx
      rw [hkeys1]
      exact hpres x (List.mem_cons_of_mem _ hx)
    have ih' := ih hnd.2 (setAL m dep (d₀ - 1))
      (if d₀ - 1 == 0 then q0 ++ [dep] else q0) hpres'
    rw [List.foldl_cons, hstep]
    refine ⟨?_, ?_, ?_⟩
    · intro k
      rw [ih'.1 k]
      by_cases hkL : k ∈ L'
      · have hkdep : k ≠ dep := fun h => hnd.1 (h ▸ hkL)
        rw [if_pos hkL, if_pos (by simp [hkL]), lookupAL_setAL_ne m dep k _ hkdep]
      · by_cases hkd : k = dep
        · subst hkd
          rw [if_neg hkL, if_pos (by simp), lookupAL_setAL_self, hd₀]
          rfl
        · rw [if_neg hkL, if_neg (by simp [hkd, hkL]),
            lookupAL_setAL_ne m dep k _ hkd]
    · rw [ih'.2.1, hkeys1]
    · rw [ih'.2.2]
      have hfil : L'.filter (fun x => (lookupAL (setAL m dep (d₀ - 1)) x).getD 0 == 1) =
          L'.filter (fun x => (lookupAL m x).getD 0 == 1) := by
        apply List.filter_congr
        intro x hx
        have hxdep : x ≠ dep := fun h => hnd.1 (h ▸ hx)
        rw [lookupAL_setAL_ne m dep x _ hxdep]
      rw [hfil, List.filter_cons]
      by_cases hd1 : d₀ - 1 == 0
      · have : ((lookupAL m dep).getD 0 == 1) = true := by
          rw [hd₀]
          have := beq_iff_eq.mp hd1
          simp
          omega
        simp only [hd1, if_true, this]
        simp
      · have : ¬ ((lookupAL m dep).getD 0 == 1) = true := by
          rw [hd₀]
          intro hc
          have := beq_iff_eq.mp hc
          simp at this
          rw [this] at hd1
          simp at hd1
        simp [hd1, this]

theorem length_filter_erase_one (l : List String) (hl : l.Nodup) (p : String → Bool)
    (a : String) (ha : a ∈ l) (hpa : p a = true) :
    (l.filter (fun x => p x && !(x == a))).length + 1 = (l.filter p).length := by
  induction l with
  | nil => simp at ha
  | cons b l' ih =>
    have hnd : b ∉ l' ∧ l'.Nodup := by simpa using hl
    by_cases hba : b = a
    · subst hba
      have hcong : l'.filter (fun x => p x && !(x == b)) = l'.filter p := by
        apply List.filter_congr
        intro x hx
        have : ¬ (x == b) = true := by
          simp
          intro hxb
          exact hnd.1 (hxb ▸ hx)
        simp [this]
      rw [List.filter_cons, List.filter_cons]
      simp [hpa, hcong]
    · have ha' : a ∈ l' := by
        rcases List.mem_cons.mp ha with h | h
        · exact absurd h.symm hba
        · exact h
      rw [List.filter_cons, List.filter_cons]
      have hbne : (b == a) = false := by simp [hba]
      by_cases hpb : p b = true
      · have hrec := ih hnd.2 ha'
        simp only [hpb, hbne, Bool.true_and, Bool.not_false, if_true, List.length_cons]
        omega
      · have hrec := ih hnd.2 ha'
        simp only [hpb, Bool.false_and, if_false, Bool.false_eq_true]
        simpa using hrec

theorem topoLoop_ok (g : NodesMap) (hg : GoodGraph g) (hwf : wellFormedB g = true)
    (hacy : Acyclic g) :
    ∀ (fuel : Nat) (queue : List String) (m : List (String × Int)) (res : List String),
    queue.length + intPotential m < fuel →
    keysAL m = keysAL g →
    (res ++ queue).Nodup →
    (∀ k ∈ res ++ queue, k ∈ keysAL g) →
    (∀ k d, lookupAL m k = some d →
      d = (((depsOf g k).filter (fun x => decide (x ∉ res))).length : Int)) →
    (∀ k ∈ keysAL g, ((k ∈ res ∨ k ∈ queue) ↔ ∀ x, dependsRel g k x → x ∈ res)) →
    (∀ a d, dependsRel g a d → a ∈ res → d ∈ res ∧ res.indexOf d < res.indexOf a) →
    ∃ fin0, topoLoop g fuel queue m res = some fin0 ∧
      fin0.Nodup ∧ (∀ k, k ∈ fin0 ↔ k ∈ keysAL g) ∧
      (∀ a d, dependsRel g a d → a ∈ fin0 → d ∈ fin0 ∧ fin0.indexOf d < fin0.indexOf a) := by
  intro fuel
  induction fuel with
  | zero => intro queue m res hlt; omega
  | succ fuel ih =>
    intro queue m res hlt hkeys hnd hsub hdeg hM hO
    cases queue with
    | nil =>
      refine ⟨res, rfl, by simpa using hnd, ?_, hO⟩
      intro k
      constructor
      · intro hk
        exact hsub k (by simpa using hk)
      · intro hk
        by_contra hkr
        have hSne : (keysAL g).filter (fun x => decide (x ∉ res)) ≠ [] := by
          intro hS
          have : k ∈ (keysAL g).filter (fun x => decide (x ∉ res)) :=
            List.mem_filter.mpr ⟨hk, by simpa using hkr⟩
          rw [hS] at this
          simp at this
        obtain ⟨a, haS, hano⟩ := exists_source g hacy _ hSne
        have haK : a ∈ keysAL g ∧ a ∉ res := by
          have := List.mem_filter.mp haS
          exact ⟨this.1, by simpa using this.2⟩
        have hdep : ∀ x, dependsRel g a x → x ∈ res := by
          intro x hx
          have hxK : x ∈ keysAL g := by
            obtain ⟨n, hn, hxn⟩ := hx
            exact (lookupAL_mem_keys _ _).mp (wellFormed_lookup hwf hn hxn)
          have := hano x hx
          by_contra hxr
          exact this (List.mem_filter.mpr ⟨hxK, by simpa using hxr⟩)
        have := (hM a haK.1).mpr hdep
        rcases this with h | h
        · exact haK.2 h
        · simp at h
    | cons alias0 qrest =>
      have ha0g : alias0 ∈ keysAL g := hsub alias0 (by simp)
      have ha0res : alias0 ∉ res := by
        have := hnd
        rw [List.nodup_append] at this
        exact fun hr => this.2.2 hr (by simp)
      have hLnd : (dependentsOf g alias0).Nodup := dependentsOf_nodup g hg alias0
      have hLsub : ∀ x ∈ dependentsOf g alias0, x ∈ keysAL g := by
        intro x hx
        have := (mem_dependentsOf g hg alias0 x ha0g).mp hx
        obtain ⟨n, hn, _⟩ := this
        exact (lookupAL_mem_keys _ _).mp (by rw [hn]; rfl)
      have hLpres : ∀ x ∈ dependentsOf g alias0, x ∈ keysAL m := by
        intro x hx
        rw [hkeys]
        exact hLsub x hx
      obtain ⟨hflook, hfkeys, hfq⟩ := topoDecFold_spec (dependentsOf g alias0) hLnd m [] hLpres
      -- invariant: a queued name has degree zero and a zero-degree name is settled
      have hdeg0_of_mem : ∀ k, k ∈ res ∨ k ∈ alias0 :: qrest → k ∈ keysAL g →
          lookupAL m k = some (((depsOf g k).filter (fun x => decide (x ∉ res))).length : Int) := by
        intro k hk hkg
        obtain ⟨d, hd⟩ := Option.isSome_iff_exists.mp
          ((lookupAL_mem_keys m k).mpr (by rw [hkeys]; exact hkg))
        rw [hd, hdeg k d hd]
      have hqueue_deg : ∀ k, k ∈ res ∨ k ∈ alias0 :: qrest → k ∈ keysAL g →
          lookupAL m k = some 0 := by
        intro k hk hkg
        have hdep := (hM k hkg).mp hk
        have hfil : (depsOf g k).filter (fun x => decide (x ∉ res)) = [] := by
          rw [List.filter_eq_nil_iff]
          intro x hx
          simp only [decide_eq_true_eq, Decidable.not_not]
          exact hdep x ((mem_depsOf g k x hkg).mp hx)
        have := hdeg0_of_mem k hk hkg
        rw [hfil] at this
        simpa using this
      -- members of the new queue additions
      have hnewQmem : ∀ dep, dep ∈ (topoDec g alias0 (m, [])).2 ↔
          dep ∈ dependentsOf g alias0 ∧ lookupAL m dep = some 1 := by
        intro dep
        unfold topoDec
        rw [hfq]
        simp only [List.nil_append, List.mem_filter]
        constructor
        · rintro ⟨h1, h2⟩
          obtain ⟨d, hd⟩ := Option.isSome_iff_exists.mp
            ((lookupAL_mem_keys m dep).mpr (hLpres dep h1))
          rw [hd] at h2
          simp at h2
          exact ⟨h1, by rw [hd, h2]⟩
        · rintro ⟨h1, h2⟩
          refine ⟨h1, ?_⟩
          rw [h2]
          simp
      have hnewQfresh : ∀ dep, dep ∈ (topoDec g alias0 (m, [])).2 →
          dep ∉ res ∧ dep ∉ alias0 :: qrest := by
        intro dep hdep
        obtain ⟨h1, h2⟩ := (hnewQmem dep).mp hdep
        have hdg : dep ∈ keysAL g := hLsub dep h1
        constructor
        · intro hc
          have := hqueue_deg dep (Or.inl hc) hdg
          rw [this] at h2
          simp at h2
        · intro hc
          have := hqueue_deg dep (Or.inr hc) hdg
          rw [this] at h2
          simp at h2
      have hnewQnd : (topoDec g alias0 (m, [])).2.Nodup := by
        unfold topoDec
        rw [hfq]
        simpa using hLnd.filter _
      -- the new state satisfies all the invariants
      have hm'keys : keysAL (topoDec g alias0 (m, [])).1 = keysAL g := by
        unfold topoDec
        rw [hfkeys, hkeys]
      have hm'deg : ∀ k d, lookupAL (topoDec g alias0 (m, [])).1 k = some d →
          d = (((depsOf g k).filter (fun x => decide (x ∉ res ++ [alias0]))).length : Int) := by
        intro k d hkd
        unfold topoDec at hkd
        rw [hflook k] at hkd
        have hkg : k ∈ keysAL g := by
          by_cases hkL : k ∈ dependentsOf g alias0
          · exact hLsub k hkL
          · rw [if_neg hkL] at hkd
            exact hkeys ▸ (lookupAL_mem_keys m k).mp (by rw [hkd]; rfl)
        by_cases hkL : k ∈ dependentsOf g alias0
        · rw [if_pos hkL] at hkd
          obtain ⟨d₀, hd₀, hdeq⟩ := Option.map_eq_some'.mp hkd
          have hdval := hdeg k d₀ hd₀
          have ha0dep : alias0 ∈ depsOf g k :=
            (mem_depsOf g k alias0 hkg).mpr ((mem_dependentsOf g hg alias0 k ha0g).mp hkL)
          have hdepnd : (depsOf g k).Nodup := by
            unfold depsOf
            obtain ⟨n, hn⟩ := Option.isSome_iff_exists.mp ((lookupAL_mem_keys g k).mpr hkg)
            rw [hn]
            exact hg.2.1 k n hn
          have hcong : (depsOf g k).filter (fun x => decide (x ∉ res ++ [alias0])) =
              (depsOf g k).filter (fun x => decide (x ∉ res) && !(x == alias0)) := by
            apply List.filter_congr
            intro x _
            by_cases h1 : x ∈ res <;> by_cases h2 : x = alias0 <;> simp [h1, h2]
          have hlen : ((depsOf g k).filter
              (fun x => decide (x ∉ res) && !(x == alias0))).length + 1 =
              ((depsOf g k).filter (fun x => decide (x ∉ res))).length :=
            length_filter_erase_one (depsOf g k) hdepnd
              (fun x => decide (x ∉ res)) alias0 ha0dep (by simpa using ha0res)
          rw [hcong, ← hdeq, hdval]
          push_cast
          omega
        · rw [if_neg hkL] at hkd
          have hdval := hdeg k d hkd
          have ha0ndep : alias0 ∉ depsOf g k := by
            intro hc
            exact hkL ((mem_dependentsOf g hg alias0 k ha0g).mpr
              ((mem_depsOf g k alias0 hkg).mp hc))
          have hcong : (depsOf g k).filter (fun x => decide (x ∉ res ++ [alias0])) =
              (depsOf g k).filter (fun x => decide (x ∉ res)) := by
            apply List.filter_congr
            intro x hx
            have hxne : x ≠ alias0 := fun h => ha0ndep (h ▸ hx)
            by_cases h1 : x ∈ res <;> simp [h1, hxne]
          rw [hcong]
          exact hdval
      have hnd' : ((res ++ [alias0]) ++ (qrest ++ (topoDec g alias0 (m, [])).2)).Nodup := by
        have h1 : ((res ++ [alias0]) ++ qrest).Nodup := by
          have : res ++ alias0 :: qrest = (res ++ [alias0]) ++ qrest := by simp
          rw [← this]
          exact hnd
        have h2 : (topoDec g alias0 (m, [])).2.Nodup := hnewQnd
        have hdisj : ∀ x ∈ (res ++ [alias0]) ++ qrest,
            x ∉ (topoDec g alias0 (m, [])).2 := by
          intro x hx hc
          obtain ⟨hc1, hc2⟩ := hnewQfresh x hc
          rcases List.mem_append.mp hx with hx | hx
          · rcases List.mem_append.mp hx with hx | hx
            · exact hc1 hx
            · exact hc2 (by simp at hx; simp [hx])
          · exact hc2 (by simp [hx])
        have : (res ++ [alias0]) ++ (qrest ++ (topoDec g alias0 (m, [])).2) =
            ((res ++ [alias0]) ++ qrest) ++ (topoDec g alias0 (m, [])).2 := by
          simp
        rw [this]
        exact List.Nodup.append h1 h2 (fun x hx hc => hdisj x hx hc)
      have hsub' : ∀ k ∈ (res ++ [alias0]) ++ (qrest ++ (topoDec g alias0 (m, [])).2),
          k ∈ keysAL g := by
        intro k hk
        rcases List.mem_append.mp hk with hk | hk
        · rcases List.mem_append.mp hk with hk | hk
          · exact hsub k (by simp [hk])
          · simp at hk
            exact hk ▸ ha0g
        · rcases List.mem_append.mp hk with hk | hk
          · exact hsub k (by simp [hk])
          · exact hLsub k ((hnewQmem k).mp hk).1
      have hM' : ∀ k ∈ keysAL g,
          ((k ∈ res ++ [alias0] ∨ k ∈ qrest ++ (topoDec g alias0 (m, [])).2) ↔
            ∀ x, dependsRel g k x → x ∈ res ++ [alias0]) := by
        intro k hkg
        constructor
        · intro hk
          rcases hk with hk | hk
          · rcases List.mem_append.mp hk with hk | hk
            · intro x hx
              exact List.mem_append.mpr (Or.inl (((hM k hkg).mp (Or.inl hk)) x hx))
            · simp at hk
              subst hk
              intro x hx
              exact List.mem_append.mpr (Or.inl (((hM k hkg).mp (Or.inr (by simp))) x hx))
          · rcases List.mem_append.mp hk with hk | hk
            · intro x hx
              exact List.mem_append.mpr (Or.inl (((hM k hkg).mp (Or.inr (by simp [hk]))) x hx))
            · -- freshly enqueued: its degree dropped to zero
              obtain ⟨hk1, hk2⟩ := (hnewQmem k).mp hk
              have hm'k : lookupAL (topoDec g alias0 (m, [])).1 k = some 0 := by
                unfold topoDec
                rw [hflook k, if_pos hk1, hk2]
                rfl
              have := hm'deg k 0 hm'k
              have hfil : (depsOf g k).filter (fun x => decide (x ∉ res ++ [alias0])) = [] := by
                have : (((depsOf g k).filter
                    (fun x => decide (x ∉ res ++ [alias0]))).length : Int) = 0 := this.symm
                have hl : ((depsOf g k).filter
                    (fun x => decide (x ∉ res ++ [alias0]))).length = 0 := by
                  exact_mod_cast this
                exact List.length_eq_zero.mp hl
              intro x hx
              have hxd : x ∈ depsOf g k := (mem_depsOf g k x hkg).mpr hx
              by_contra hxr
              have : x ∈ (depsOf g k).filter (fun x => decide (x ∉ res ++ [alias0])) :=
                List.mem_filter.mpr ⟨hxd, by simpa using hxr⟩
              rw [hfil] at this
              simp at this
        · intro hdep
          by_cases hold : k ∈ res ∨ k ∈ alias0 :: qrest
          · rcases hold with h | h
            · exact Or.inl (List.mem_append.mpr (Or.inl h))
            · rcases List.mem_cons.mp h with h | h
              · exact Or.inl (List.mem_append.mpr (Or.inr (by simp [h])))
              · exact Or.inr (List.mem_append.mpr (Or.inl h))
          · push_neg at hold
            have hnotall : ¬ ∀ x, dependsRel g k x → x ∈ res := by
              intro hc
              rcases (hM k hkg).mpr hc with h | h
              · exact hold.1 h
              · exact hold.2 h
            push_neg at hnotall
            obtain ⟨x₀, hx₀, hx₀r⟩ := hnotall
            have hx₀a : x₀ = alias0 := by
              have := hdep x₀ hx₀
              rcases List.mem_append.mp this with h | h
              · exact absurd h hx₀r
              · simpa using h
            rw [hx₀a] at hx₀ hx₀r
            -- the stored degree of k is exactly one
            have hdepnd : (depsOf g k).Nodup := by
              unfold depsOf
              obtain ⟨n, hn⟩ := Option.isSome_iff_exists.mp ((lookupAL_mem_keys g k).mpr hkg)
              rw [hn]
              exact hg.2.1 k n hn
            have ha0dep : alias0 ∈ depsOf g k := (mem_depsOf g k alias0 hkg).mpr hx₀
            have hfil0 : (depsOf g k).filter (fun x => decide (x ∉ res ++ [alias0])) = [] := by
              rw [List.filter_eq_nil_iff]
              intro x hx
              simp only [decide_eq_true_eq, Decidable.not_not]
              exact hdep x ((mem_depsOf g k x hkg).mp hx)
            have hcong : (depsOf g k).filter (fun x => decide (x ∉ res ++ [alias0])) =
                (depsOf g k).filter (fun x => decide (x ∉ res) && !(x == alias0)) := by
              apply List.filter_congr
              intro x _
              by_cases h1 : x ∈ res <;> by_cases h2 : x = alias0 <;> simp [h1, h2]
            have hlen : ((depsOf g k).filter
                (fun x => decide (x ∉ res) && !(x == alias0))).length + 1 =
                ((depsOf g k).filter (fun x => decide (x ∉ res))).length :=
              length_filter_erase_one (depsOf g k) hdepnd
                (fun x => decide (x ∉ res)) alias0 ha0dep (by simpa using hx₀r)
            rw [hcong] at hfil0
            rw [hfil0] at hlen
            have hlen1 : ((depsOf g k).filter (fun x => decide (x ∉ res))).length = 1 := by
              simp only [List.length_nil] at hlen
              omega
            have hk1 : lookupAL m k = some 1 := by
              obtain ⟨d, hd⟩ := Option.isSome_iff_exists.mp
                ((lookupAL_mem_keys m k).mpr (by rw [hkeys]; exact hkg))
              have hdv := hdeg k d hd
              rw [hlen1] at hdv
              rw [hd, hdv]
              rfl
            have hkL : k ∈ dependentsOf g alias0 :=
              (mem_dependentsOf g hg alias0 k ha0g).mpr hx₀
            exact Or.inr (List.mem_append.mpr (Or.inr ((hnewQmem k).mpr ⟨hkL, hk1⟩)))
      have hO' : ∀ a d, dependsRel g a d → a ∈ res ++ [alias0] →
          d ∈ res ++ [alias0] ∧
          (res ++ [alias0]).indexOf d < (res ++ [alias0]).indexOf a := by
        intro a d had ha
        rcases List.mem_append.mp ha with ha | ha
        · obtain ⟨hd1, hd2⟩ := hO a d had ha
          refine ⟨List.mem_append.mpr (Or.inl hd1), ?_⟩
          rw [List.indexOf_append_of_mem hd1, List.indexOf_append_of_mem ha]
          exact hd2
        · simp at ha
          subst ha
          have hdres : d ∈ res := ((hM a ha0g).mp (Or.inr (by simp))) d had
          refine ⟨List.mem_append.mpr (Or.inl hdres), ?_⟩
          rw [List.indexOf_append_of_mem hdres,
            List.indexOf_append_of_not_mem ha0res]
          have h1 := List.indexOf_lt_length.mpr hdres
          have h2 : [a].indexOf a = 0 := by simp
          omega
      have hfuel' : (qrest ++ (topoDec g alias0 (m, [])).2).length +
          intPotential (topoDec g alias0 (m, [])).1 < fuel := by
        have hmu : intPotential (topoDec g alias0 (m, [])).1 +
            (topoDec g alias0 (m, [])).2.length ≤ intPotential m := by
          have := topoDecFold_mu (dependentsOf g alias0) m []
          unfold topoDec
          simpa using this
        simp only [List.length_append] at *
        simp only [List.length_cons] at hlt
        omega
      obtain ⟨fin0, hfin, hfnd, hfmem, hford⟩ := ih (qrest ++ (topoDec g alias0 (m, [])).2)
        (topoDec g alias0 (m, [])).1 (res ++ [alias0]) hfuel' hm'keys hnd' hsub' hm'deg hM' hO'
      refine ⟨fin0, ?_, hfnd, hfmem, hford⟩
      rw [topoLoop]
      exact hfin

theorem intPotential_initDegrees (g : NodesMap) :
    intPotential (initDegrees g) = (g.map (fun p => p.2.dependencies.length)).sum := by
  unfold intPotential initDegrees
  apply congrArg List.sum
  rw [List.map_map]
  apply List.map_congr_left
  intro p _
  simp [Function.comp]

theorem initQueue_sublist (g : NodesMap) : List.Sublist (initQueue g) (keysAL g) :=
  List.Sublist.map _ (List.filter_sublist g)

theorem mem_initQueue (g : NodesMap) (hnd : (keysAL g).Nodup) (k : String) :
    k ∈ initQueue g ↔ ∃ n, lookupAL g k = some n ∧ n.dependencies = [] := by
  unfold initQueue
  constructor
  · intro hk
    obtain ⟨p, hp, hpk⟩ := List.mem_map.mp hk
    obtain ⟨hpm, hpe⟩ := List.mem_filter.mp hp
    refine ⟨p.2, ?_, by simpa using hpe⟩
    rw [← hpk]
    exact lookupAL_eq_some_of_mem_nodup g p.1 p.2 hnd (by
      obtain ⟨p1, p2⟩ := p
      exact hpm)
  · rintro ⟨n, hn, hne⟩
    refine List.mem_map.mpr ⟨(k, n), List.mem_filter.mpr ⟨?_, by simp [hne]⟩, rfl⟩
    exact mem_of_lookupAL_eq_some g k n hn

/-- C6 (amended): for every set of workspace declarations whose dependency
relation is acyclic and in which every declared dependency names a declared
workspace, `getTopologicalOrder` returns a permutation of the graph's
workspace identities in which every alias appears strictly after every
alias it depends on. -/
theorem C6_topological_order (wss : List Workspace)
    (hwf : wellFormedB (graphOf wss) = true) (hacy : Acyclic (graphOf wss)) :
    ∃ res, getTopologicalOrder (graphOf wss) = .ok res ∧
      res.Perm (keysAL (graphOf wss)) ∧
      (∀ a d, dependsRel (graphOf wss) a d → res.indexOf d < res.indexOf a) := by
  have hg := graphOf_good wss
  have hfuel : (initQueue (graphOf wss)).length + intPotential (initDegrees (graphOf wss)) <
      kahnFuel (graphOf wss) := by
    have h1 : (initQueue (graphOf wss)).length ≤ (keysAL (graphOf wss)).length :=
      (initQueue_sublist (graphOf wss)).length_le
    have h2 := keysAL_length (graphOf wss)
    have h3 := intPotential_initDegrees (graphOf wss)
    unfold kahnFuel
    omega
  obtain ⟨fin0, hfin, hfnd, hfmem, hford⟩ := topoLoop_ok (graphOf wss) hg hwf hacy
    (kahnFuel (graphOf wss)) (initQueue (graphOf wss)) (initDegrees (graphOf wss)) []
    hfuel
    (initDegrees_keys (graphOf wss))
    (by simpa using (initQueue_sublist (graphOf wss)).nodup hg.1)
    (by
      intro k hk
      simp only [List.nil_append] at hk
      exact (initQueue_sublist (graphOf wss)).mem hk)
    (by
      intro k d hkd
      rw [initDegrees_lookup] at hkd
      obtain ⟨n, hn, hd⟩ := Option.map_eq_some'.mp hkd
      have hdeps : depsOf (graphOf wss) k = n.dependencies := by
        unfold depsOf
        rw [hn]
      have hfil : (depsOf (graphOf wss) k).filter (fun x => decide (x ∉ ([] : List String))) =
          depsOf (graphOf wss) k := by
        rw [List.filter_eq_self]
        intro x _
        simp
      rw [hfil, hdeps, ← hd])
    (by
      intro k hkg
      constructor
      · intro hk x hx
        rcases hk with hk | hk
        · simp at hk
        · obtain ⟨n, hn, hne⟩ := (mem_initQueue (graphOf wss) hg.1 k).mp hk
          obtain ⟨n', hn', hxn⟩ := hx
          rw [hn] at hn'
          cases hn'
          rw [hne] at hxn
          simp at hxn
      · intro hdep
        refine Or.inr ((mem_initQueue (graphOf wss) hg.1 k).mpr ?_)
        obtain ⟨n, hn⟩ := Option.isSome_iff_exists.mp ((lookupAL_mem_keys _ _).mpr hkg)
        refine ⟨n, hn, ?_⟩
        rw [List.eq_nil_iff_forall_not_mem]
        intro y hy
        have : dependsRel (graphOf wss) k y := ⟨n, hn, hy⟩
        simpa using hdep y this)
    (by
      intro a d _ ha
      simp at ha)
  have hperm : fin0.Perm (keysAL (graphOf wss)) := by
    rw [List.perm_ext_iff_of_nodup hfnd (graphOf_keys_nodup wss)]
    exact hfmem
  refine ⟨fin0, ?_, hperm, ?_⟩
  · have hlen : fin0.length = (graphOf wss).length := by
      have := hperm.length_eq
      have h2 := keysAL_length (graphOf wss)
      omega
    unfold getTopologicalOrder
    rw [hfin]
    show (if fin0.length ≠ (graphOf wss).length then
        Except.error "Graph contains cycles (should have been caught earlier)"
      else Except.ok fin0) = Except.ok fin0
    rw [if_neg (by omega)]
  · intro a d hd
    have hak : a ∈ keysAL (graphOf wss) := by
      obtain ⟨n, hn, _⟩ := hd
      exact (lookupAL_mem_keys _ _).mp (by rw [hn]; rfl)
    exact (hford a d hd ((hfmem a).mpr hak)).2

/-- Witness for C6: the two-workspace chain satisfies the hypotheses and
the conclusion holds there. -/
theorem C6_witness :
    wellFormedB (graphOf [wsWa, wsWb]) = true ∧
    Acyclic (graphOf [wsWa, wsWb]) ∧
    (∃ res, getTopologicalOrder (graphOf [wsWa, wsWb]) = .ok res ∧
      res.Perm (keysAL (graphOf [wsWa, wsWb])) ∧
      (∀ a d, dependsRel (graphOf [wsWa, wsWb]) a d → res.indexOf d < res.indexOf a)) :=
  ⟨by decide, graphW_acyclic, C6_topological_order [wsWa, wsWb] (by decide) graphW_acyclic⟩

/-- Counterexample to C6 as stated: the single declaration
`{path: "a", dependsOn: ["m"]}` (no workspace `m` is declared) has an
acyclic dependency relation, yet `getTopologicalOrder` throws its
internal-invariant error instead of returning a permutation — the dangling
dependency keeps `a`'s in-degree at one forever, so the queue never emits
it and the final length check fails. -/
theorem C6_counterexample :
    Acyclic (graphOf [wsDangling]) ∧
    keysAL (graphOf [wsDangling]) = ["a"] ∧
    getTopologicalOrder (graphOf [wsDangling]) =
      .error "Graph contains cycles (should have been caught earlier)" :=
  ⟨graphD_acyclic, by decide, rfl⟩

/-! ### DFS support lemmas -/

theorem chainDepB_iff (g : NodesMap) : ∀ l : List String,
    chainDepB g l = true ↔ l.Chain' (dependsRel g)
  | [] => by simp [chainDepB]
  | [a] => by simp [chainDepB]
  | a :: b :: rest => by
    rw [chainDepB, Bool.and_eq_true, chainDepB_iff g (b :: rest), List.chain'_cons,
      ← dependsRel_iff]

theorem chain'_drop {R : String → String → Prop} : ∀ (l : List String) (n : Nat),
    l.Chain' R → (l.drop n).Chain' R := by
  intro l n
  induction n generalizing l with
  | zero => intro h; simpa using h
  | succ n ih =>
    intro h
    cases l with
    | nil => simp
    | cons a l' =>
      rw [List.drop_succ_cons]
      exact ih l' h.tail

theorem drop_indexOf_cons : ∀ (l : List String) (a : String), a ∈ l →
    l.drop (l.indexOf a) = a :: l.drop (l.indexOf a + 1) := by
  intro l
  induction l with
  | nil => intro a ha; simp at ha
  | cons b l' ih =>
    intro a ha
    by_cases hab : a = b
    · subst hab
      simp [List.indexOf_cons_self]
    · have hne : (b == a) = false := by
        simp
        exact fun h => hab h.symm
      have ha' : a ∈ l' := by
        rcases List.mem_cons.mp ha with h | h
        · exact absurd h hab
        · exact h
      rw [List.indexOf_cons, hne]
      simp only [cond_false]
      rw [List.drop_succ_cons, List.drop_succ_cons]
      exact ih a ha'

theorem countP_anti (l : List String) (p q : String → Bool)
    (h : ∀ x ∈ l, p x = true → q x = true) :
    (l.filter p).length ≤ (l.filter q).length := by
  induction l with
  | nil => simp
  | cons a l' ih =>
    have ih' := ih (fun x hx => h x (List.mem_cons_of_mem _ hx))
    rw [List.filter_cons, List.filter_cons]
    by_cases hp : p a = true
    · rw [if_pos hp, if_pos (h a (by simp) hp)]
      simpa using ih'
    · rw [if_neg hp]
      by_cases hq : q a = true
      · rw [if_pos hq]
        simp
        omega
      · rw [if_neg hq]
        exact ih'

theorem getLast?_drop_of_lt : ∀ (l : List String) (i : Nat), i < l.length →
    (l.drop i).getLast? = l.getLast? := by
  intro l
  induction l with
  | nil => intro i hi; simp at hi
  | cons a l' ih =>
    intro i hi
    cases i with
    | zero => simp
    | succ i' =>
      rw [List.drop_succ_cons]
      have hi' : i' < l'.length := by simpa using hi
      rw [ih i' hi']
      cases l' with
      | nil => simp at hi'
      | cons b t => rw [List.getLast?_cons_cons]

theorem filter_not_mem_append_one (g : NodesMap) (hg : GoodGraph g)
    (v : List String) (a : String) (hak : a ∈ keysAL g) (hav : a ∉ v) :
    ((keysAL g).filter (fun x => decide (x ∉ v ++ [a]))).length + 1 =
      ((keysAL g).filter (fun x => decide (x ∉ v))).length := by
  have hcong : (keysAL g).filter (fun x => decide (x ∉ v ++ [a])) =
      (keysAL g).filter (fun x => decide (x ∉ v) && !(x == a)) := by
    apply List.filter_congr
    intro x _
    by_cases h1 : x ∈ v <;> by_cases h2 : x = a <;> simp [h1, h2]
  rw [hcong]
  exact length_filter_erase_one (keysAL g) hg.1 (fun x => decide (x ∉ v)) a hak
    (by simpa using hav)

theorem dfsVisit_spec (g : NodesMap) (hg : GoodGraph g) (hwf : wellFormedB g = true) :
    ∀ (fuel : Nat) (alias0 : String) (s : DfsState) (L : List String),
    DfsInv g s → GhostTopo g s L →
    alias0 ∈ keysAL g → alias0 ∉ s.visited →
    (∀ z, s.path.getLast? = some z → dependsRel g z alias0) →
    ((keysAL g).filter (fun x => decide (x ∉ s.visited))).length < fuel →
    DVisitOut g alias0 s L (dfsVisit g fuel alias0 s) := by
  intro fuel
  induction fuel with
  | zero => intro alias0 s L _ _ _ _ _ hf; omega
  | succ fuel ihf =>
    intro alias0 s L hinv hgh hak hav hlast hf
    obtain ⟨hrs, hnd, hch, hpv, hvk⟩ := hinv
    obtain ⟨node, hlookup⟩ := Option.isSome_iff_exists.mp ((lookupAL_mem_keys g alias0).mpr hak)
    have ha0rs : alias0 ∉ s.recStack := fun h => hav (hpv alias0 (hrs ▸ h))
    have ha0p : alias0 ∉ s.path := fun h => hav (hpv alias0 h)
    have hs1v : addSet s.visited alias0 = s.visited ++ [alias0] := by
      unfold addSet
      rw [if_neg hav]
    have hs1r : addSet s.recStack alias0 = s.recStack ++ [alias0] := by
      unfold addSet
      rw [if_neg ha0rs]
    have hinv1 : DfsInv g ⟨s.visited ++ [alias0], s.recStack ++ [alias0], s.path ++ [alias0]⟩ := by
      refine ⟨by rw [hrs], ?_, ?_, ?_, ?_⟩
      · refine List.Nodup.append hnd (by simp) ?_
        intro x hx hx'
        simp at hx'
        subst hx'
        exact ha0p hx
      · rw [List.chain'_append]
        refine ⟨hch, by simp, ?_⟩
        intro x hx y hy
        simp at hy
        subst hy
        exact hlast x hx
      · intro x hx
        rcases List.mem_append.mp hx with hx | hx
        · exact List.mem_append.mpr (Or.inl (hpv x hx))
        · exact List.mem_append.mpr (Or.inr hx)
      · intro x hx
        rcases List.mem_append.mp hx with hx | hx
        · exact hvk x hx
        · simp at hx
          subst hx
          exact hak
    have hgh1 : GhostTopo g ⟨s.visited ++ [alias0], s.recStack ++ [alias0], s.path ++ [alias0]⟩ L := by
      obtain ⟨hLnd, hLmem, hLrank⟩ := hgh
      refine ⟨hLnd, ?_, hLrank⟩
      intro x
      rw [hLmem x]
      constructor
      · rintro ⟨h1, h2⟩
        have hxa : x ≠ alias0 := fun h => hav (h ▸ h1)
        refine ⟨List.mem_append.mpr (Or.inl h1), ?_⟩
        intro hc
        rcases List.mem_append.mp hc with hc | hc
        · exact h2 hc
        · simp at hc
          exact hxa hc
      · rintro ⟨h1, h2⟩
        have hxa : x ≠ alias0 := by
          intro h
          exact h2 (h ▸ List.mem_append.mpr (Or.inr (by simp)))
        constructor
        · rcases List.mem_append.mp h1 with h | h
          · exact h
          · simp at h
            exact absurd h hxa
        · exact fun hc => h2 (List.mem_append.mpr (Or.inl hc))
    have hdeps : ∀ (deps : List String), (∀ dep ∈ deps, dependsRel g alias0 dep) →
        ∀ (t : DfsState) (Lt : List String),
        DfsInv g t → GhostTopo g t Lt →
        t.recStack = s.recStack ++ [alias0] →
        t.path = s.path ++ [alias0] →
        (∀ x ∈ s.visited, x ∈ t.visited) → alias0 ∈ t.visited →
        DDepsOut g t Lt deps (dfsDeps (dfsVisit g fuel) deps t) := by
      intro deps
      induction deps with
      | nil =>
        intro _ t Lt hinvt hght _ _ _ _
        show DDepsOut g t Lt [] (.ok t)
        exact ⟨hinvt, rfl, rfl, fun x hx => hx, ⟨Lt, [], hght, by simp⟩, by simp⟩
      | cons dep rest ihd =>
        intro hedge t Lt hinvt hght hts htp htv hta
        have hedge0 : dependsRel g alias0 dep := hedge dep (by simp)
        have hedgerest : ∀ d ∈ rest, dependsRel g alias0 d :=
          fun d hd => hedge d (List.mem_cons_of_mem _ hd)
        rw [dfsDeps]
        by_cases hvis : dep ∈ t.visited
        · rw [if_pos hvis]
          by_cases hrec : dep ∈ t.recStack
          · rw [if_pos hrec]
            show isDepCycleB g (cycleOf t.path dep) = true
            obtain ⟨hrst, hndt, hcht, hpvt, hvkt⟩ := hinvt
            have hdp : dep ∈ t.path := hrst ▸ hrec
            have hplast : t.path.getLast? = some alias0 := by
              rw [htp]
              exact List.getLast?_concat _
            have hidx : t.path.indexOf dep < t.path.length :=
              List.indexOf_lt_length.mpr hdp
            have hdropc := drop_indexOf_cons t.path dep hdp
            have hlen2 : 2 ≤ (cycleOf t.path dep).length := by
              unfold cycleOf
              rw [if_pos hdp, List.length_append]
              have h1 : 1 ≤ (t.path.drop (t.path.indexOf dep)).length := by
                rw [hdropc]
                simp
              simp only [List.length_cons, List.length_nil]
              omega
            have hchain : (cycleOf t.path dep).Chain' (dependsRel g) := by
              unfold cycleOf
              rw [if_pos hdp, List.chain'_append]
              refine ⟨chain'_drop _ _ hcht, by simp, ?_⟩
              intro x hx y hy
              simp at hy
              subst hy
              rw [getLast?_drop_of_lt _ _ hidx, hplast] at hx
              simp at hx
              subst hx
              exact hedge0
            have hhead : (cycleOf t.path dep).head? = some dep := by
              unfold cycleOf
              rw [if_pos hdp, hdropc]
              rfl
            have hlast2 : (cycleOf t.path dep).getLast? = some dep := by
              unfold cycleOf
              exact List.getLast?_concat _
            unfold isDepCycleB
            rw [Bool.and_eq_true, Bool.and_eq_true]
            refine ⟨⟨by simp [hlen2], (chainDepB_iff g _).mpr hchain⟩, ?_⟩
            rw [hhead, hlast2]
            simp
          · rw [if_neg hrec]
            have := ihd hedgerest t Lt hinvt hght hts htp htv hta
            cases hres : dfsDeps (dfsVisit g fuel) rest t with
            | ok t2 =>
              rw [hres] at this
              obtain ⟨h1, h2, h3, h4, h5, h6⟩ := this
              show DDepsOut g t Lt (dep :: rest) (.ok t2)
              refine ⟨h1, h2, h3, h4, h5, ?_⟩
              intro d hd
              rcases List.mem_cons.mp hd with hd | hd
              · subst hd
                exact ⟨h4 d hvis, by rw [h2]; exact hrec⟩
              · exact h6 d hd
            | cycle l =>
              rw [hres] at this
              show isDepCycleB g l = true
              exact this
            | fuelOut => rw [hres] at this; exact this
        · rw [if_neg hvis]
          have hdepk : dep ∈ keysAL g := by
            obtain ⟨n, hn, hdn⟩ := hedge0
            exact (lookupAL_mem_keys _ _).mp (wellFormed_lookup hwf hn hdn)
          have hlastt : ∀ z, t.path.getLast? = some z → dependsRel g z dep := by
            intro z hz
            rw [htp, List.getLast?_concat] at hz
            cases hz
            exact hedge0
          have hfuel2 : ((keysAL g).filter (fun x => decide (x ∉ t.visited))).length < fuel := by
            have hsub1 : ((keysAL g).filter (fun x => decide (x ∉ t.visited))).length ≤
                ((keysAL g).filter (fun x => decide (x ∉ s.visited ++ [alias0]))).length := by
              apply countP_anti
              intro x _ hx
              simp only [decide_eq_true_eq] at hx ⊢
              intro hc
              rcases List.mem_append.mp hc with hc | hc
              · exact hx (htv x hc)
              · simp at hc
                exact hx (hc ▸ hta)
            have hone := filter_not_mem_append_one g hg s.visited alias0 hak hav
            omega
          have hvisit := ihf dep t Lt hinvt hght hdepk hvis hlastt hfuel2
          cases hres : dfsVisit g fuel dep t with
          | ok t2 =>
            rw [hres] at hvisit
            obtain ⟨h1, h2, h3, h4, h5, L2, Δ2, hg2, hL2, hdepL2⟩ := hvisit
            have hcont := ihd hedgerest t2 L2 h1 hg2 (by rw [h2, hts]) (by rw [h3, htp])
              (fun x hx => h4 x (htv x hx)) (h4 alias0 hta)
            show DDepsOut g t Lt (dep :: rest) (dfsDeps (dfsVisit g fuel) rest t2)
            cases hres2 : dfsDeps (dfsVisit g fuel) rest t2 with
            | ok t3 =>
              rw [hres2] at hcont
              obtain ⟨g1, g2, g3, g4, ⟨L3, Δ3, hg3, hL3⟩, g6⟩ := hcont
              show DDepsOut g t Lt (dep :: rest) (.ok t3)
              refine ⟨g1, by rw [g2, h2], by rw [g3, h3], fun x hx => g4 x (h4 x hx),
                ⟨L3, Δ2 ++ Δ3, hg3, by rw [hL3, hL2, List.append_assoc]⟩, ?_⟩
              intro d hd
              rcases List.mem_cons.mp hd with hd | hd
              · subst hd
                refine ⟨g4 d h5, ?_⟩
                rw [g2, h2]
                intro hc
                have hrsv : d ∈ t.visited := by
                  obtain ⟨hrst, _, _, hpvt, _⟩ := hinvt
                  exact hpvt d (hrst ▸ hc)
                exact hvis hrsv
              · exact g6 d hd
            | cycle l =>
              rw [hres2] at hcont
              show isDepCycleB g l = true
              exact hcont
            | fuelOut => rw [hres2] at hcont; exact hcont
          | cycle l =>
            rw [hres] at hvisit
            show isDepCycleB g l = true
            exact hvisit
          | fuelOut =>
            rw [hres] at hvisit
            exact hvisit.elim
    have hrun := hdeps node.dependencies
      (fun dep hdep => ⟨node, hlookup, hdep⟩)
      ⟨s.visited ++ [alias0], s.recStack ++ [alias0], s.path ++ [alias0]⟩ L hinv1 hgh1
      rfl rfl (fun x hx => List.mem_append.mpr (Or.inl hx))
      (List.mem_append.mpr (Or.inr (by simp)))
    rw [dfsVisit]
    simp only [hs1v, hs1r, hlookup]
    cases hres : dfsDeps (dfsVisit g fuel) node.dependencies
        ⟨s.visited ++ [alias0], s.recStack ++ [alias0], s.path ++ [alias0]⟩ with
    | ok s2 =>
      rw [hres] at hrun
      obtain ⟨⟨i1, i2, i3, i4, i5⟩, h2, h3, h4, ⟨L2, Δ2, hg2, hL2⟩, h6⟩ := hrun
      show DVisitOut g alias0 s L (.ok ⟨s2.visited, s2.recStack.erase alias0, s2.path.dropLast⟩)
      have hrs2 : s2.recStack.erase alias0 = s.recStack := by
        rw [h2, List.erase_append_right _ ha0rs]
        simp
      have hp2 : s2.path.dropLast = s.path := by
        rw [h3]
        exact List.dropLast_concat ..
      have ha0L2 : alias0 ∉ L2 := by
        intro hc
        have := (hg2.2.1 alias0).mp hc
        exact this.2 (h2 ▸ List.mem_append.mpr (Or.inr (by simp)))
      refine ⟨⟨by rw [hrs2, hp2, hrs], by rw [hp2]; exact hnd, by rw [hp2]; exact hch,
        ?_, ?_⟩, hrs2, hp2, ?_, ?_, ?_⟩
      · intro x hx
        rw [hp2] at hx
        exact h4 x (List.mem_append.mpr (Or.inl (hpv x hx)))
      · exact i5
      · intro x hx
        exact h4 x (List.mem_append.mpr (Or.inl hx))
      · exact h4 alias0 (List.mem_append.mpr (Or.inr (by simp)))
      · refine ⟨L2 ++ [alias0], Δ2 ++ [alias0], ⟨?_, ?_, ?_⟩, by rw [hL2, List.append_assoc],
          List.mem_append.mpr (Or.inr (by simp))⟩
        · refine List.Nodup.append hg2.1 (by simp) ?_
          intro x hx hx'
          simp at hx'
          subst hx'
          exact ha0L2 hx
        · intro x
          constructor
          · intro hx
            rcases List.mem_append.mp hx with hx | hx
            · obtain ⟨hxv, hxr⟩ := (hg2.2.1 x).mp hx
              refine ⟨hxv, ?_⟩
              rw [hrs2]
              intro hc
              exact hxr (h2 ▸ List.mem_append.mpr (Or.inl hc))
            · simp at hx
              subst hx
              refine ⟨h4 x (List.mem_append.mpr (Or.inr (by simp))), ?_⟩
              rw [hrs2]
              exact ha0rs
          · rintro ⟨hxv, hxr⟩
            rw [hrs2] at hxr
            by_cases hxa : x = alias0
            · exact List.mem_append.mpr (Or.inr (by simp [hxa]))
            · refine List.mem_append.mpr (Or.inl ((hg2.2.1 x).mpr ⟨hxv, ?_⟩))
              rw [h2]
              intro hc
              rcases List.mem_append.mp hc with hc | hc
              · exact hxr hc
              · simp at hc
                exact hxa hc
        · intro a d had ha
          rcases List.mem_append.mp ha with ha | ha
          · obtain ⟨hd1, hd2⟩ := hg2.2.2 a d had ha
            refine ⟨List.mem_append.mpr (Or.inl hd1), ?_⟩
            rw [List.indexOf_append_of_mem hd1, List.indexOf_append_of_mem ha]
            exact hd2
          · simp at ha
            subst ha
            obtain ⟨n', hn', hdn'⟩ := had
            rw [hlookup] at hn'
            cases hn'
            obtain ⟨hdv, hdr⟩ := h6 d hdn'
            have hdL2 : d ∈ L2 := (hg2.2.1 d).mpr ⟨hdv, hdr⟩
            refine ⟨List.mem_append.mpr (Or.inl hdL2), ?_⟩
            rw [List.indexOf_append_of_mem hdL2,
              List.indexOf_append_of_not_mem ha0L2]
            have hlt1 := List.indexOf_lt_length.mpr hdL2
            have h2' : [a].indexOf a = 0 := by simp
            omega
    | cycle l =>
      rw [hres] at hrun
      show DVisitOut g alias0 s L (.cycle l)
      exact hrun
    | fuelOut =>
      rw [hres] at hrun
      exact hrun.elim

theorem dfsOuter_spec (g : NodesMap) (hg : GoodGraph g) (hwf : wellFormedB g = true) :
    ∀ (ks : List String), (∀ k ∈ ks, k ∈ keysAL g) →
    ∀ (s : DfsState) (L : List String), DfsInv g s → GhostTopo g s L →
    s.recStack = [] → s.path = [] →
    DOuterOut g ks s (dfsOuter g (dfsFuel g) ks s) := by
  intro ks
  induction ks with
  | nil =>
    intro _ s L hinv hgh hrs _
    show DOuterOut g [] s (.ok s)
    exact ⟨L, hgh, hrs, by simp, fun x hx => hx⟩
  | cons k rest ih =>
    intro hks s L hinv hgh hrs hp
    rw [dfsOuter]
    by_cases hkv : k ∈ s.visited
    · rw [if_pos hkv]
      have hrest := ih (fun x hx => hks x (List.mem_cons_of_mem _ hx)) s L hinv hgh hrs hp
      cases hres : dfsOuter g (dfsFuel g) rest s with
      | ok s2 =>
        rw [hres] at hrest
        obtain ⟨L2, a1, a2, a3, a4⟩ := hrest
        show DOuterOut g (k :: rest) s (.ok s2)
        refine ⟨L2, a1, a2, ?_, a4⟩
        intro x hx
        rcases List.mem_cons.mp hx with hx | hx
        · exact a4 x (hx ▸ hkv)
        · exact a3 x hx
      | cycle l =>
        rw [hres] at hrest
        show isDepCycleB g l = true
        exact hrest
      | fuelOut => rw [hres] at hrest; exact hrest
    · rw [if_neg hkv]
      have hfuel : ((keysAL g).filter (fun x => decide (x ∉ s.visited))).length < dfsFuel g := by
        have h1 := List.length_filter_le (fun x => decide (x ∉ s.visited)) (keysAL g)
        have h2 := keysAL_length g
        unfold dfsFuel
        omega
      have hvisit := dfsVisit_spec g hg hwf (dfsFuel g) k s L hinv hgh (hks k (by simp)) hkv
        (fun z hz => by rw [hp] at hz; simp at hz) hfuel
      cases hres : dfsVisit g (dfsFuel g) k s with
      | ok s' =>
        rw [hres] at hvisit
        obtain ⟨hinv2, hrs2, hp2, hmono, hkvis, L', Δ, hgh2, hLeq, hkL⟩ := hvisit
        have hrest := ih (fun x hx => hks x (List.mem_cons_of_mem _ hx)) s' L' hinv2 hgh2
          (by rw [hrs2, hrs]) (by rw [hp2, hp])
        show DOuterOut g (k :: rest) s (dfsOuter g (dfsFuel g) rest s')
        cases hres2 : dfsOuter g (dfsFuel g) rest s' with
        | ok s2 =>
          rw [hres2] at hrest
          obtain ⟨L2, a1, a2, a3, a4⟩ := hrest
          show DOuterOut g (k :: rest) s (.ok s2)
          refine ⟨L2, a1, a2, ?_, fun x hx => a4 x (hmono x hx)⟩
          intro x hx
          rcases List.mem_cons.mp hx with hx | hx
          · exact a4 x (hx ▸ hkvis)
          · exact a3 x hx
        | cycle l =>
          rw [hres2] at hrest
          show isDepCycleB g l = true
          exact hrest
        | fuelOut => rw [hres2] at hrest; exact hrest
      | cycle l =>
        rw [hres] at hvisit
        show isDepCycleB g l = true
        exact hvisit
      | fuelOut => rw [hres] at hvisit; exact hvisit.elim

theorem detect_validity (g : NodesMap) (hg : GoodGraph g) (hwf : wellFormedB g = true)
    (hcyc : ∃ a, Relation.TransGen (dependsRel g) a a) :
    ∃ l, detectCyclesCore g = DfsOut.cycle l ∧ isDepCycleB g l = true := by
  have hspec := dfsOuter_spec g hg hwf (keysAL g) (fun k hk => hk) ⟨[], [], []⟩ []
    ⟨rfl, by simp, by simp, by simp, by simp⟩
    ⟨by simp, by simp, by intro a d _ ha; simp at ha⟩ rfl rfl
  have hdef : dfsOuter g (dfsFuel g) (keysAL g) ⟨[], [], []⟩ = detectCyclesCore g := rfl
  rw [hdef] at hspec
  cases hres : detectCyclesCore g with
  | ok s' =>
    exfalso
    rw [hres] at hspec
    obtain ⟨L', hgh', hrs', hall, _⟩ := hspec
    obtain ⟨a, hta⟩ := hcyc
    have hak : a ∈ keysAL g := by
      obtain ⟨c, h, _⟩ := Relation.TransGen.head'_iff.mp hta
      obtain ⟨n, hn, _⟩ := h
      exact (lookupAL_mem_keys g a).mp (Option.isSome_iff_exists.mpr ⟨n, hn⟩)
    have haL : a ∈ L' := (hgh'.2.1 a).mpr ⟨hall a hak, by rw [hrs']; simp⟩
    have hrank : ∀ x y, Relation.TransGen (dependsRel g) x y →
        x ∈ L' → y ∈ L' ∧ L'.indexOf y < L'.indexOf x := by
      intro x y h
      induction h with
      | single h => intro hx; exact hgh'.2.2 _ _ h hx
      | tail _ h2 ih =>
        intro hx
        obtain ⟨hb, hlt⟩ := ih hx
        obtain ⟨hy, hlt2⟩ := hgh'.2.2 _ _ h2 hb
        exact ⟨hy, lt_trans hlt2 hlt⟩
    have := hrank a a hta haL
    omega
  | cycle l =>
    rw [hres] at hspec
    exact ⟨l, rfl, hspec⟩
  | fuelOut => rw [hres] at hspec; exact hspec.elim

/-- **C5.** For every set of workspace declarations whose dependency relation
contains a cycle — amended with the well-formedness precondition that every
declared dependency resolves to a declared workspace — the DFS cycle
detection of graph construction fails with a reported path that is a genuine
cycle of the dependency relation: length at least two, consecutive elements
related left-to-right by `dependsRel`, and first element equal to the last.
(Without the amendment the reported path need not be a cycle of the relation:
see the counterexample.) -/
theorem C5_detect_cycles (wss : List Workspace)
    (hwf : wellFormedB (graphOf wss) = true)
    (hcyc : ∃ a, Relation.TransGen (dependsRel (graphOf wss)) a a) :
    ∃ l, detectCyclesCore (graphOf wss) = DfsOut.cycle l ∧
      isDepCycleB (graphOf wss) l = true :=
  detect_validity (graphOf wss) (graphOf_good wss) hwf hcyc

/-- Witness for C5 at the one-workspace self-loop `{path: "A", dependsOn: ["A"]}`:
the graph is well-formed, its dependency relation has a cycle, and the theorem
yields a genuine reported cycle. -/
theorem C5_witness :
    wellFormedB (graphOf [⟨"A", none, ["A"], []⟩]) = true ∧
    (∃ a, Relation.TransGen (dependsRel (graphOf [⟨"A", none, ["A"], []⟩])) a a) ∧
    ∃ l, detectCyclesCore (graphOf [⟨"A", none, ["A"], []⟩]) = DfsOut.cycle l ∧
      isDepCycleB (graphOf [⟨"A", none, ["A"], []⟩]) l = true :=
  ⟨by decide,
   ⟨"A", Relation.TransGen.single ((dependsRel_iff _ _ _).mpr (by decide))⟩,
   C5_detect_cycles [⟨"A", none, ["A"], []⟩] (by decide)
     ⟨"A", Relation.TransGen.single ((dependsRel_iff _ _ _).mpr (by decide))⟩⟩

/-- Counterexample to C5 as literally stated: the single declaration
`{path: "A", dependsOn: ["M", "A"]}` has a cyclic dependency relation
(`A → A` is an edge) and detection does fail, but the reported path
`["A", "M", "A"]` is NOT a valid cycle of the dependency relation: the
dangling name `M` has no node, so `M → A` is not an edge. -/
theorem C5_counterexample :
    dependsB (graphOf [⟨"A", none, ["M", "A"], []⟩]) "A" "A" = true ∧
    detectCyclesCore (graphOf [⟨"A", none, ["M", "A"], []⟩]) =
      DfsOut.cycle ["A", "M", "A"] ∧
    isDepCycleB (graphOf [⟨"A", none, ["M", "A"], []⟩]) ["A", "M", "A"] = false := by
  refine ⟨by decide, ?_, by decide⟩
  decide

theorem affFold_spec (deps : List String) : ∀ (q0 a0 : List String),
    ∃ Δ : List String,
      deps.foldl (fun (acc : List String × List String) dep =>
          if dep ∈ acc.2 then acc else (acc.1 ++ [dep], acc.2 ++ [dep])) (q0, a0)
        = (q0 ++ Δ, a0 ++ Δ) ∧
      (∀ x ∈ Δ, x ∈ deps ∧ x ∉ a0) ∧
      (∀ d ∈ deps, d ∈ a0 ++ Δ) ∧
      (a0.Nodup → (a0 ++ Δ).Nodup) := by
  induction deps with
  | nil =>
    intro q0 a0
    exact ⟨[], by simp, by simp, by simp, by simp⟩
  | cons d rest ih =>
    intro q0 a0
    rw [List.foldl_cons]
    by_cases hd : d ∈ a0
    · obtain ⟨Δ, h1, h2, h3, h4⟩ := ih q0 a0
      refine ⟨Δ, ?_, fun x hx => ⟨List.mem_cons_of_mem _ (h2 x hx).1, (h2 x hx).2⟩, ?_, h4⟩
      · rw [show (if d ∈ (q0, a0).2 then (q0, a0)
            else ((q0, a0).1 ++ [d], (q0, a0).2 ++ [d])) = (q0, a0) from if_pos hd]
        exact h1
      · intro e he
        rcases List.mem_cons.mp he with he | he
        · exact he ▸ List.mem_append.mpr (Or.inl hd)
        · exact h3 e he
    · obtain ⟨Δ, h1, h2, h3, h4⟩ := ih (q0 ++ [d]) (a0 ++ [d])
      refine ⟨d :: Δ, ?_, ?_, ?_, ?_⟩
      · rw [show (if d ∈ (q0, a0).2 then (q0, a0)
            else ((q0, a0).1 ++ [d], (q0, a0).2 ++ [d])) = (q0 ++ [d], a0 ++ [d])
            from if_neg hd]
        rw [h1]
        simp
      · intro x hx
        rcases List.mem_cons.mp hx with hx | hx
        · subst hx
          exact ⟨by simp, hd⟩
        · obtain ⟨hx1, hx2⟩ := h2 x hx
          exact ⟨List.mem_cons_of_mem _ hx1,
            fun hc => hx2 (List.mem_append.mpr (Or.inl hc))⟩
      · intro e he
        rcases List.mem_cons.mp he with he | he
        · subst he
          exact List.mem_append.mpr (Or.inr (by simp))
        · have := h3 e he
          simpa [List.append_assoc] using this
      · intro hnd
        have hnd1 : (a0 ++ [d]).Nodup := by
          refine List.Nodup.append hnd (by simp) ?_
          intro x hx hx'
          simp at hx'
          exact hd (hx' ▸ hx)
        have := h4 hnd1
        simpa [List.append_assoc] using this

theorem filter_not_mem_append_many (g : NodesMap) (hg : GoodGraph g) :
    ∀ (Δ a0 : List String), Δ.Nodup → (∀ x ∈ Δ, x ∈ keysAL g ∧ x ∉ a0) →
    ((keysAL g).filter (fun k => decide (k ∉ a0 ++ Δ))).length + Δ.length ≤
      ((keysAL g).filter (fun k => decide (k ∉ a0))).length := by
  intro Δ
  induction Δ with
  | nil => intro a0 _ _; simp
  | cons d Δr ih =>
    intro a0 hnd hmem
    have h1 := ih (a0 ++ [d]) (List.Nodup.of_cons hnd)
      (fun x hx => ⟨(hmem x (List.mem_cons_of_mem _ hx)).1, by
        intro hc
        rcases List.mem_append.mp hc with hc | hc
        · exact (hmem x (List.mem_cons_of_mem _ hx)).2 hc
        · simp at hc
          subst hc
          exact (List.nodup_cons.mp hnd).1 hx⟩)
    have h2 := filter_not_mem_append_one g hg a0 d (hmem d (by simp)).1 (hmem d (by simp)).2
    have hre : (keysAL g).filter (fun k => decide (k ∉ a0 ++ d :: Δr)) =
        (keysAL g).filter (fun k => decide (k ∉ (a0 ++ [d]) ++ Δr)) := by
      apply List.filter_congr
      intro k _
      simp [List.append_assoc]
    rw [hre]
    simp only [List.length_cons]
    omega

theorem affectedLoop_closed (g : NodesMap) :
    ∀ (fuel : Nat) (queue affected : List String),
    (∀ x ∈ queue, x ∈ affected) →
    (∀ x ∈ affected, ∀ n, lookupAL g x = some n → ∀ d ∈ n.dependents, d ∈ affected) →
    queue.length < fuel →
    affectedLoop g fuel queue affected = affected := by
  intro fuel
  induction fuel with
  | zero => intro q a _ _ hf; omega
  | succ fuel ih =>
    intro queue affected hqa hcl hf
    cases queue with
    | nil => rw [affectedLoop]
    | cons alias0 qrest =>
      cases hlk : lookupAL g alias0 with
      | none =>
        simp only [affectedLoop, hlk]
        apply ih qrest affected (fun x hx => hqa x (List.mem_cons_of_mem _ hx)) hcl
        simp at hf
        omega
      | some node =>
        obtain ⟨Δ, hfold, hΔ, hdepsin, _⟩ := affFold_spec node.dependents qrest affected
        have hΔnil : Δ = [] := by
          cases hc : Δ with
          | nil => rfl
          | cons y ys =>
            exfalso
            have hy := hΔ y (hc ▸ by simp)
            exact hy.2 (hcl alias0 (hqa alias0 (by simp)) node hlk y hy.1)
        rw [hΔnil] at hfold
        simp only [List.append_nil] at hfold
        simp only [affectedLoop, hlk]
        rw [hfold]
        apply ih qrest affected (fun x hx => hqa x (List.mem_cons_of_mem _ hx)) hcl
        simp at hf
        omega

theorem affectedLoop_spec (g : NodesMap) (hg : GoodGraph g)
    (hdk : ∀ a n, lookupAL g a = some n → ∀ d ∈ n.dependents, d ∈ keysAL g) :
    ∀ (fuel : Nat) (queue affected : List String),
    affected.Nodup →
    (∀ x ∈ queue, x ∈ affected) →
    (∀ x ∈ affected, x ∉ queue → ∀ n, lookupAL g x = some n →
        ∀ d ∈ n.dependents, d ∈ affected) →
    queue.length + ((keysAL g).filter (fun k => decide (k ∉ affected))).length < fuel →
    (affectedLoop g fuel queue affected).Nodup ∧
    (∀ x ∈ affected, x ∈ affectedLoop g fuel queue affected) ∧
    (∀ x ∈ affectedLoop g fuel queue affected, ∀ n, lookupAL g x = some n →
        ∀ d ∈ n.dependents, d ∈ affectedLoop g fuel queue affected) ∧
    (∀ (P : String → Prop), (∀ x ∈ affected, P x) →
        (∀ a n, lookupAL g a = some n → ∀ d ∈ n.dependents, P a → P d) →
        ∀ x ∈ affectedLoop g fuel queue affected, P x) := by
  intro fuel
  induction fuel with
  | zero => intro q a _ _ _ hf; omega
  | succ fuel ih =>
    intro queue affected hnd hqa hcl hf
    cases queue with
    | nil =>
      rw [affectedLoop]
      exact ⟨hnd, fun x hx => hx,
        fun x hx n hn d hd => hcl x hx (by simp) n hn d hd,
        fun P hP _ x hx => hP x hx⟩
    | cons alias0 qrest =>
      cases hlk : lookupAL g alias0 with
      | none =>
        simp only [affectedLoop, hlk]
        apply ih qrest affected hnd (fun x hx => hqa x (List.mem_cons_of_mem _ hx))
        · intro x hx hxq n hn d hd
          by_cases hxa : x = alias0
          · rw [hxa, hlk] at hn
            cases hn
          · exact hcl x hx (by simp [hxa, hxq]) n hn d hd
        · simp only [List.length_cons] at hf
          omega
      | some node =>
        obtain ⟨Δ, hfold, hΔ, hdepsin, hndnew⟩ := affFold_spec node.dependents qrest affected
        simp only [affectedLoop, hlk]
        rw [hfold]
        have hΔnd : Δ.Nodup := List.Nodup.of_append_right (hndnew hnd)
        have hΔk : ∀ x ∈ Δ, x ∈ keysAL g ∧ x ∉ affected :=
          fun x hx => ⟨hdk alias0 node hlk x (hΔ x hx).1, (hΔ x hx).2⟩
        have hfilt := filter_not_mem_append_many g hg Δ affected hΔnd hΔk
        have hfuel2 : (qrest ++ Δ).length +
            ((keysAL g).filter (fun k => decide (k ∉ affected ++ Δ))).length < fuel := by
          simp only [List.length_cons] at hf
          rw [List.length_append]
          omega
        have hmain := ih (qrest ++ Δ) (affected ++ Δ) (hndnew hnd)
          (by
            intro x hx
            rcases List.mem_append.mp hx with hx | hx
            · exact List.mem_append.mpr (Or.inl (hqa x (List.mem_cons_of_mem _ hx)))
            · exact List.mem_append.mpr (Or.inr hx))
          (by
            intro x hx hxq n hn d hd
            rcases List.mem_append.mp hx with hx | hx
            · by_cases hxa : x = alias0
              · rw [hxa, hlk] at hn
                cases hn
                exact hdepsin d hd
              · have hxqr : x ∉ qrest := fun hc => hxq (List.mem_append.mpr (Or.inl hc))
                exact List.mem_append.mpr
                  (Or.inl (hcl x hx (by simp [hxa, hxqr]) n hn d hd))
            · exact absurd (List.mem_append.mpr (Or.inr hx)) hxq)
          hfuel2
        obtain ⟨c1, c2, c3, c4⟩ := hmain
        refine ⟨c1, fun x hx => c2 x (List.mem_append.mpr (Or.inl hx)), c3, ?_⟩
        intro P hP hPc x hx
        refine c4 P ?_ hPc x hx
        intro y hy
        rcases List.mem_append.mp hy with hy | hy
        · exact hP y hy
        · exact hPc alias0 node hlk y (hΔ y hy).1 (hP alias0 (hqa alias0 (by simp)))

theorem foldl_addSet_of_disjoint :
    ∀ (l acc : List String), (∀ x ∈ l, x ∉ acc) → l.Nodup →
    l.foldl addSet acc = acc ++ l := by
  intro l
  induction l with
  | nil => intro acc _ _; simp
  | cons a l ih =>
    intro acc hdis hnd
    rw [List.foldl_cons]
    have ha : addSet acc a = acc ++ [a] := by
      unfold addSet
      rw [if_neg (hdis a (by simp))]
    rw [ha, ih (acc ++ [a])
      (fun x hx => by
        intro hc
        rcases List.mem_append.mp hc with hc | hc
        · exact hdis x (List.mem_cons_of_mem _ hx) hc
        · simp at hc
          exact (List.nodup_cons.mp hnd).1 (hc ▸ hx))
      (List.Nodup.of_cons hnd)]
    simp

theorem setOfList_eq_of_nodup (l : List String) (hnd : l.Nodup) : setOfList l = l := by
  unfold setOfList
  rw [foldl_addSet_of_disjoint l [] (by simp) hnd]
  simp

theorem getAffected_spec (wss : List Workspace) (X : List String) :
    (getAffected (graphOf wss) X).Nodup ∧
    (∀ x ∈ X, x ∈ getAffected (graphOf wss) X) ∧
    (∀ x ∈ getAffected (graphOf wss) X, ∀ n, lookupAL (graphOf wss) x = some n →
        ∀ d ∈ n.dependents, d ∈ getAffected (graphOf wss) X) ∧
    (∀ (P : String → Prop), (∀ x ∈ X, P x) →
        (∀ a n, lookupAL (graphOf wss) a = some n → ∀ d ∈ n.dependents, P a → P d) →
        ∀ x ∈ getAffected (graphOf wss) X, P x) := by
  have hdk : ∀ a n, lookupAL (graphOf wss) a = some n →
      ∀ d ∈ n.dependents, d ∈ keysAL (graphOf wss) :=
    fun a n hn d hd => graphOf_dependents_sub_keys wss a n hn d hd
  have hfuel : X.length +
      ((keysAL (graphOf wss)).filter
        (fun k => decide (k ∉ setOfList X))).length <
      X.length + (graphOf wss).length + 1 := by
    have h1 := List.length_filter_le (fun k => decide (k ∉ setOfList X)) (keysAL (graphOf wss))
    have h2 := keysAL_length (graphOf wss)
    omega
  have hmain := affectedLoop_spec (graphOf wss) (graphOf_good wss) hdk
    (X.length + (graphOf wss).length + 1) X (setOfList X)
    (nodup_setOfList X) (fun x hx => (mem_setOfList X x).mpr hx)
    (fun x hx hxq => absurd ((mem_setOfList X x).mp hx) hxq)
    hfuel
  obtain ⟨c1, c2, c3, c4⟩ := hmain
  exact ⟨c1, fun x hx => c2 x ((mem_setOfList X x).mpr hx), c3,
    fun P hP hPc => c4 P (fun x hx => hP x ((mem_setOfList X x).mp hx)) hPc⟩

/-- **C8.** For every constructed graph and every list of changed names `X`,
`getAffected` is a fixed point under iteration, and — amended with the
well-formedness precondition that every declared dependency resolves to a
declared workspace — its result is exactly `X` together with every transitive
dependent of a member of `X` (a name with a nonempty chain of dependency
edges down to that member).  Without the amendment the characterization
fails: a dependent of a dangling member of `X` is never reached (see the
counterexample); the fixed-point equation itself holds regardless, but is
stated here under the same precondition as one property. -/
theorem C8_affected_fixed_point (wss : List Workspace) (X : List String)
    (hwf : wellFormedB (graphOf wss) = true) :
    getAffected (graphOf wss) (getAffected (graphOf wss) X) =
      getAffected (graphOf wss) X ∧
    (∀ a, a ∈ getAffected (graphOf wss) X ↔
      a ∈ X ∨ ∃ x ∈ X, Relation.TransGen (dependsRel (graphOf wss)) a x) := by
  obtain ⟨c1, c2, c3, c4⟩ := getAffected_spec wss X
  constructor
  · show affectedLoop (graphOf wss)
      ((getAffected (graphOf wss) X).length + (graphOf wss).length + 1)
      (getAffected (graphOf wss) X) (setOfList (getAffected (graphOf wss) X)) =
      getAffected (graphOf wss) X
    rw [setOfList_eq_of_nodup _ c1]
    exact affectedLoop_closed (graphOf wss) _ _ _ (fun x hx => hx) c3 (by omega)
  · intro a
    constructor
    · intro ha
      refine c4 (fun y => y ∈ X ∨ ∃ x ∈ X, Relation.TransGen (dependsRel (graphOf wss)) y x)
        (fun x hx => Or.inl hx) ?_ a ha
      intro b n hn d hd hPb
      have hedge : dependsRel (graphOf wss) d b :=
        (graphOf_dependents_iff wss b n hn d).mp hd
      rcases hPb with hb | ⟨w, hw, ht⟩
      · exact Or.inr ⟨b, hb, Relation.TransGen.single hedge⟩
      · exact Or.inr ⟨w, hw, ht.head hedge⟩
    · rintro (ha | ⟨w, hw, ht⟩)
      · exact c2 a ha
      · induction ht using Relation.TransGen.head_induction_on with
        | base h =>
          rename_i b
          obtain ⟨bn, hbn, hwd⟩ := h
          have hwn := wellFormed_lookup hwf hbn hwd
          obtain ⟨wn, hwn'⟩ := Option.isSome_iff_exists.mp hwn
          have hbd : b ∈ wn.dependents :=
            (graphOf_dependents_iff wss w wn hwn' b).mpr ⟨bn, hbn, hwd⟩
          exact c3 w (c2 w hw) wn hwn' b hbd
        | ih h' ht' ihh =>
          rename_i b c
          obtain ⟨bn, hbn, hcd⟩ := h' 
          have hcn := wellFormed_lookup hwf hbn hcd
          obtain ⟨cn, hcn'⟩ := Option.isSome_iff_exists.mp hcn
          have hbd : b ∈ cn.dependents :=
            (graphOf_dependents_iff wss c cn hcn' b).mpr ⟨bn, hbn, hcd⟩
          exact c3 c ihh cn hcn' b hbd

/-- Witness for C8 on the two-workspace chain `b dependsOn a` with
changed set `{a}`: the graph is well-formed and the theorem applies. -/
theorem C8_witness :
    wellFormedB (graphOf [⟨"a", none, [], []⟩, ⟨"b", none, ["a"], []⟩]) = true ∧
    (getAffected (graphOf [⟨"a", none, [], []⟩, ⟨"b", none, ["a"], []⟩])
        (getAffected (graphOf [⟨"a", none, [], []⟩, ⟨"b", none, ["a"], []⟩]) ["a"]) =
      getAffected (graphOf [⟨"a", none, [], []⟩, ⟨"b", none, ["a"], []⟩]) ["a"] ∧
    (∀ x, x ∈ getAffected (graphOf [⟨"a", none, [], []⟩, ⟨"b", none, ["a"], []⟩]) ["a"] ↔
      x ∈ ["a"] ∨ ∃ w ∈ ["a"],
        Relation.TransGen
          (dependsRel (graphOf [⟨"a", none, [], []⟩, ⟨"b", none, ["a"], []⟩])) x w)) :=
  ⟨by decide,
   C8_affected_fixed_point [⟨"a", none, [], []⟩, ⟨"b", none, ["a"], []⟩] ["a"] (by decide)⟩

/-- Counterexample to C8 as literally stated: with the single declaration
`{path: "a", dependsOn: ["m"]}` and changed set `{"m"}`, the name `"a"` is
a (transitive) dependent of the member `"m"` of the changed set — the edge
`a → m` is in the dependency relation — yet `getAffected` never reaches it,
because the dangling name `"m"` has no node to supply reverse edges. -/
theorem C8_counterexample :
    dependsB (graphOf [⟨"a", none, ["m"], []⟩]) "a" "m" = true ∧
    "a" ∉ getAffected (graphOf [⟨"a", none, ["m"], []⟩]) ["m"] := by
  constructor
  · decide
  · decide

theorem mem_applyFilter (filter : Option (List String)) (b : List String) (a : String)
    (ha : a ∈ applyFilter filter b) : a ∈ b := by
  unfold applyFilter at ha
  cases filter with
  | none => exact ha
  | some f => exact (List.mem_filter.mp ha).1

theorem mem_applyFilter_some (f b : List String) (a : String) :
    a ∈ applyFilter (some f) b ↔ a ∈ b ∧ a ∈ f := by
  unfold applyFilter
  simp [List.mem_filter]

theorem runTask_isOk (config : Config) (g : NodesMap) (exec : ExecOracle)
    (commandType a : String) (ha : a ∈ keysAL g) :
    ∃ r, runTask config g exec a commandType = .ok r := by
  obtain ⟨n, hn⟩ := Option.isSome_iff_exists.mp ((lookupAL_mem_keys g a).mpr ha)
  unfold runTask
  simp only [hn]
  cases hc : getCommand n.workspace commandType config with
  | none => exact ⟨⟨a, true, 0, none⟩, rfl⟩
  | some c =>
    by_cases hce : c = ""
    · exact ⟨⟨a, true, 0, none⟩, by simp [hce]⟩
    · by_cases hro : (exec a c).ok
      · exact ⟨⟨a, true, (exec a c).duration, none⟩, by simp [hce, hro]⟩
      · exact ⟨⟨a, false, (exec a c).duration, some (exec a c).errMsg⟩, by simp [hce, hro]⟩

theorem taskRes_eq {config : Config} {g : NodesMap} {exec : ExecOracle}
    {commandType a : String} {r : TaskResult}
    (h : runTask config g exec a commandType = .ok r) :
    taskRes config g exec commandType a = r := by
  unfold taskRes
  rw [h]

theorem taskOkB_eq {config : Config} {g : NodesMap} {exec : ExecOracle}
    {commandType a : String} {r : TaskResult}
    (h : runTask config g exec a commandType = .ok r) :
    taskOkB config g exec commandType a = r.success := by
  unfold taskOkB
  rw [h]

theorem runBatchT_ok (config : Config) (g : NodesMap) (exec : ExecOracle)
    (commandType : String) :
    ∀ (aliases : List String),
    (∀ a ∈ aliases, ∃ r, runTask config g exec a commandType = .ok r) →
    runBatchT config g exec commandType aliases =
      .ok (aliases.map (fun a => (a, taskRes config g exec commandType a))) := by
  intro aliases
  induction aliases with
  | nil => intro _; rfl
  | cons a rest ih =>
    intro h
    obtain ⟨r, hr⟩ := h a (by simp)
    have hrest := ih (fun x hx => h x (List.mem_cons_of_mem _ hx))
    unfold runBatchT at hrest ⊢
    rw [List.mapM_cons, hr, hrest, List.map_cons, taskRes_eq hr]
    rfl

theorem runBatchesT_ok (config : Config) (g : NodesMap) (exec : ExecOracle)
    (commandType : String) (filter : Option (List String)) :
    ∀ (bs : List (List String)) (acc : List (String × TaskResult)),
    (∀ b ∈ bs, ∀ a ∈ applyFilter filter b,
        ∃ r, runTask config g exec a commandType = .ok r ∧ r.success = true) →
    runBatchesT config g exec commandType filter bs acc =
      (.ok (acc ++ ((bs.map (applyFilter filter)).join).map
          (fun a => (a, taskRes config g exec commandType a))),
       (bs.map (applyFilter filter)).join) := by
  intro bs
  induction bs with
  | nil => intro acc _; simp [runBatchesT]
  | cons b rest ih =>
    intro acc hok
    by_cases hbe : (applyFilter filter b).isEmpty
    · have hnil : applyFilter filter b = [] := List.isEmpty_iff.mp hbe
      simp only [runBatchesT, hbe, if_true]
      rw [ih acc (fun b' hb' => hok b' (List.mem_cons_of_mem _ hb'))]
      rw [List.map_cons, hnil]
      simp
    · have hbr := runBatchT_ok config g exec commandType (applyFilter filter b)
        (fun a ha => (hok b (by simp) a ha).imp (fun r hr => hr.1))
      have hnofail : ((applyFilter filter b).map
          (fun a => (a, taskRes config g exec commandType a))).any
          (fun p => !p.2.success) = false := by
        rw [List.any_eq_false]
        intro p hp
        rw [List.mem_map] at hp
        obtain ⟨a, ha, hpa⟩ := hp
        obtain ⟨r, hr, hrs⟩ := hok b (by simp) a ha
        rw [← hpa]
        simp [taskRes_eq hr, hrs]
      simp only [runBatchesT, hbe, if_false, Bool.false_eq_true, hbr, hnofail]
      rw [ih (acc ++ (applyFilter filter b).map
          (fun a => (a, taskRes config g exec commandType a)))
        (fun b' hb' => hok b' (List.mem_cons_of_mem _ hb'))]
      rw [List.map_cons]
      have hjc : ((applyFilter filter b) :: rest.map (applyFilter filter)).join =
          applyFilter filter b ++ (rest.map (applyFilter filter)).join := rfl
      rw [hjc, List.map_append, List.append_assoc]

theorem runBatchesT_fail (config : Config) (g : NodesMap) (exec : ExecOracle)
    (commandType : String) (filter : Option (List String)) :
    ∀ (pre : List (List String)) (b : List String) (post : List (List String))
      (acc : List (String × TaskResult)),
    (∀ b' ∈ pre, ∀ a ∈ applyFilter filter b',
        ∃ r, runTask config g exec a commandType = .ok r ∧ r.success = true) →
    (∀ a ∈ applyFilter filter b, ∃ r, runTask config g exec a commandType = .ok r) →
    (∃ a ∈ applyFilter filter b, taskOkB config g exec commandType a = false) →
    runBatchesT config g exec commandType filter (pre ++ b :: post) acc =
      (.error ("Failed to run " ++ commandType),
       ((pre.map (applyFilter filter)).join) ++ applyFilter filter b) := by
  intro pre
  induction pre with
  | nil =>
    intro b post acc _ hruns hfail
    obtain ⟨a0, ha0, hbad⟩ := hfail
    have hne : (applyFilter filter b).isEmpty = false := by
      cases h : applyFilter filter b with
      | nil => rw [h] at ha0; cases ha0
      | cons x xs => rfl
    have hbr := runBatchT_ok config g exec commandType (applyFilter filter b) hruns
    have hasfail : ((applyFilter filter b).map
        (fun a => (a, taskRes config g exec commandType a))).any
        (fun p => !p.2.success) = true := by
      rw [List.any_eq_true]
      obtain ⟨r, hr⟩ := hruns a0 ha0
      refine ⟨(a0, taskRes config g exec commandType a0), List.mem_map_of_mem _ ha0, ?_⟩
      have hsf : r.success = false := by
        have := taskOkB_eq hr
        rw [hbad] at this
        exact this.symm
      simp [taskRes_eq hr, hsf]
    rw [List.nil_append]
    simp only [runBatchesT, hne, if_false, Bool.false_eq_true, hbr, hasfail, if_true]
    simp
  | cons p pre ih =>
    intro b post acc hpre hruns hfail
    by_cases hbe : (applyFilter filter p).isEmpty
    · have hnil : applyFilter filter p = [] := List.isEmpty_iff.mp hbe
      have hrec := ih b post acc (fun b' hb' => hpre b' (List.mem_cons_of_mem _ hb'))
        hruns hfail
      rw [List.cons_append]
      simp only [runBatchesT, hbe, if_true]
      rw [hrec, List.map_cons, hnil]
      simp
    · have hbr := runBatchT_ok config g exec commandType (applyFilter filter p)
        (fun a ha => (hpre p (by simp) a ha).imp (fun r hr => hr.1))
      have hnofail : ((applyFilter filter p).map
          (fun a => (a, taskRes config g exec commandType a))).any
          (fun q => !q.2.success) = false := by
        rw [List.any_eq_false]
        intro q hq
        rw [List.mem_map] at hq
        obtain ⟨a, ha, hqa⟩ := hq
        obtain ⟨r, hr, hrs⟩ := hpre p (by simp) a ha
        rw [← hqa]
        simp [taskRes_eq hr, hrs]
      have hrec := ih b post (acc ++ (applyFilter filter p).map
          (fun a => (a, taskRes config g exec commandType a)))
        (fun b' hb' => hpre b' (List.mem_cons_of_mem _ hb')) hruns hfail
      rw [List.cons_append]
      simp only [runBatchesT, hbe, if_false, Bool.false_eq_true, hbr, hnofail]
      rw [hrec, List.map_cons]
      have hjc : ((applyFilter filter p) :: pre.map (applyFilter filter)).join =
          applyFilter filter p ++ (pre.map (applyFilter filter)).join := rfl
      rw [hjc, List.append_assoc]

theorem join_append (l₁ l₂ : List (List String)) :
    (l₁ ++ l₂).join = l₁.join ++ l₂.join := by
  induction l₁ with
  | nil => rfl
  | cons x xs ih =>
    have h1 : ((x :: xs) ++ l₂).join = x ++ (xs ++ l₂).join := rfl
    have h2 : (x :: xs).join = x ++ xs.join := rfl
    rw [h1, h2, ih, List.append_assoc]

/-- **C2.** `runAll` is fail-fast across batches: if the filtered batches
before some batch `b` all run with success, `b`'s tasks all run to
completion, and some task of `b` reports failure, then `runAll` throws
`"Failed to run <commandType>"`, the spawn trace is exactly the earlier
filtered batches followed by `b`'s filtered batch, and no alias of a later
batch is ever started; if every filtered task of every batch succeeds,
`runAll` returns the per-alias result map holding exactly one `TaskResult`
for each executed workspace, in execution order. -/
theorem C2_run_all (config : Config) (wss : List Workspace) (exec : ExecOracle)
    (commandType : String) (filter : Option (List String))
    (bs : List (List String))
    (hbs : getParallelBatches (graphOf wss) = .ok bs) :
    (∀ pre b post,
      bs = pre ++ b :: post →
      (∀ b' ∈ pre, ∀ a ∈ applyFilter filter b',
        ∃ r, runTask config (graphOf wss) exec a commandType = .ok r ∧ r.success = true) →
      (∃ a ∈ applyFilter filter b,
        taskOkB config (graphOf wss) exec commandType a = false) →
      runAllT config (graphOf wss) exec commandType filter =
        (.error ("Failed to run " ++ commandType),
         (pre.map (applyFilter filter)).join ++ applyFilter filter b) ∧
      (∀ b' ∈ post, ∀ a ∈ applyFilter filter b',
        a ∉ (pre.map (applyFilter filter)).join ++ applyFilter filter b)) ∧
    ((∀ b ∈ bs, ∀ a ∈ applyFilter filter b,
        ∃ r, runTask config (graphOf wss) exec a commandType = .ok r ∧ r.success = true) →
      runAllT config (graphOf wss) exec commandType filter =
        (.ok (((bs.map (applyFilter filter)).join).map
            (fun a => (a, taskRes config (graphOf wss) exec commandType a))),
         (bs.map (applyFilter filter)).join)) := by
  obtain ⟨hkeys, hjnd⟩ := batches_mem_keys wss bs hbs
  constructor
  · intro pre b post heq hpre hfail
    have hruns : ∀ a ∈ applyFilter filter b,
        ∃ r, runTask config (graphOf wss) exec a commandType = .ok r := by
      intro a ha
      apply runTask_isOk
      apply hkeys
      rw [heq, join_append]
      exact List.mem_append.mpr (Or.inr (List.mem_append.mpr
        (Or.inl (mem_applyFilter filter b a ha))))
    constructor
    · have hres := runBatchesT_fail config (graphOf wss) exec commandType filter
        pre b post [] hpre hruns hfail
      show (match getParallelBatches (graphOf wss) with
        | .error e => ((.error e : Except String (List (String × TaskResult))), ([] : List String))
        | .ok bs => runBatchesT config (graphOf wss) exec commandType filter bs []) = _
      rw [hbs, heq]
      exact hres
    · intro b' hb' a ha hmem
      rw [heq, join_append] at hjnd
      have hjc : ((b :: post).join : List String) = b ++ post.join := rfl
      rw [hjc] at hjnd
      have hapost : a ∈ post.join :=
        List.mem_join.mpr ⟨b', hb', mem_applyFilter filter b' a ha⟩
      rcases List.mem_append.mp hmem with hm | hm
      · have hapre : a ∈ pre.join := by
          rw [List.mem_join] at hm ⊢
          obtain ⟨fb, hfb, hafb⟩ := hm
          rw [List.mem_map] at hfb
          obtain ⟨b0, hb0, hfb0⟩ := hfb
          exact ⟨b0, hb0, mem_applyFilter filter b0 a (hfb0 ▸ hafb)⟩
        have hdisj := List.disjoint_of_nodup_append hjnd
        exact hdisj hapre (List.mem_append.mpr (Or.inr hapost))
      · have hab : a ∈ b := mem_applyFilter filter b a hm
        have hnd2 := hjnd.of_append_right
        have hdisj2 := List.disjoint_of_nodup_append hnd2
        exact hdisj2 hab hapost
  · intro hok
    have hres := runBatchesT_ok config (graphOf wss) exec commandType filter bs [] hok
    rw [List.nil_append] at hres
    show (match getParallelBatches (graphOf wss) with
      | .error e => ((.error e : Except String (List (String × TaskResult))), ([] : List String))
      | .ok bs => runBatchesT config (graphOf wss) exec commandType filter bs []) = _
    rw [hbs]
    exact hres

/-- Witness for C2 on the `wa ← wb` chain with an oracle failing `wb`'s
command: the run throws `"Failed to run build"` after the first batch and
the failing one, with nothing after `wb` started. -/
theorem C2_witness :
    runAllT cfgW (graphOf [wsWa, wsWb]) execFailWb "build" none =
      (.error ("Failed to run " ++ "build"),
       ([["wa"]].map (applyFilter none)).join ++ applyFilter none ["wb"]) ∧
    (∀ b' ∈ ([] : List (List String)), ∀ a ∈ applyFilter none b',
      a ∉ ([["wa"]].map (applyFilter none)).join ++ applyFilter none ["wb"]) :=
  (C2_run_all cfgW [wsWa, wsWb] execFailWb "build" none [["wa"], ["wb"]] rfl).1
    [["wa"]] ["wb"] [] rfl
    (by
      intro b' hb' a ha
      rw [List.mem_singleton] at hb'
      subst hb'
      have ha' : a ∈ ["wa"] := ha
      rw [List.mem_singleton] at ha'
      subst ha'
      exact ⟨⟨"wa", true, 1, none⟩, rfl, rfl⟩)
    ⟨"wb", by
      show "wb" ∈ ["wb"]
      simp, by rfl⟩

/-- **C9.** With a filter provided and a run in which every selected task
succeeds, the executed workspaces are exactly the union over batches of the
batch's intersection with the filter; in particular every executed
workspace is in the filter, so a dependency outside the filter is skipped
entirely and never implicitly added (no dependency closure). -/
theorem C9_filter_no_closure (config : Config) (wss : List Workspace) (exec : ExecOracle)
    (commandType : String) (f : List String) (bs : List (List String))
    (hbs : getParallelBatches (graphOf wss) = .ok bs)
    (hok : ∀ b ∈ bs, ∀ a ∈ applyFilter (some f) b,
        ∃ r, runTask config (graphOf wss) exec a commandType = .ok r ∧ r.success = true) :
    (∀ a, a ∈ (runAllT config (graphOf wss) exec commandType (some f)).2 ↔
        ∃ b ∈ bs, a ∈ b ∧ a ∈ f) ∧
    (∀ a ∈ (runAllT config (graphOf wss) exec commandType (some f)).2, a ∈ f) := by
  have htr : (runAllT config (graphOf wss) exec commandType (some f)).2 =
      (bs.map (applyFilter (some f))).join := by
    show (match getParallelBatches (graphOf wss) with
      | .error e => ((.error e : Except String (List (String × TaskResult))), ([] : List String))
      | .ok bs => runBatchesT config (graphOf wss) exec commandType (some f) bs []).2 = _
    rw [hbs]
    show (runBatchesT config (graphOf wss) exec commandType (some f) bs []).2 = _
    rw [runBatchesT_ok config (graphOf wss) exec commandType (some f) bs [] hok]
  have hchar : ∀ a, a ∈ (runAllT config (graphOf wss) exec commandType (some f)).2 ↔
      ∃ b ∈ bs, a ∈ b ∧ a ∈ f := by
    intro a
    rw [htr, List.mem_join]
    constructor
    · rintro ⟨fb, hfb, hafb⟩
      rw [List.mem_map] at hfb
      obtain ⟨b0, hb0, hfb0⟩ := hfb
      have := (mem_applyFilter_some f b0 a).mp (hfb0 ▸ hafb)
      exact ⟨b0, hb0, this⟩
    · rintro ⟨b0, hb0, hab, haf⟩
      exact ⟨applyFilter (some f) b0, List.mem_map_of_mem _ hb0,
        (mem_applyFilter_some f b0 a).mpr ⟨hab, haf⟩⟩
  exact ⟨hchar, fun a ha => ((hchar a).mp ha).choose_spec.2.2⟩

/-- Witness for C9 on the `wa ← wb` chain filtered to `{wa}` with an
all-success oracle: only `wa` runs; its dependent `wb` is skipped. -/
theorem C9_witness :
    (∀ a, a ∈ (runAllT cfgW (graphOf [wsWa, wsWb]) execOk "build" (some ["wa"])).2 ↔
        ∃ b ∈ [["wa"], ["wb"]], a ∈ b ∧ a ∈ ["wa"]) ∧
    (∀ a ∈ (runAllT cfgW (graphOf [wsWa, wsWb]) execOk "build" (some ["wa"])).2,
        a ∈ ["wa"]) :=
  C9_filter_no_closure cfgW [wsWa, wsWb] execOk "build" ["wa"] [["wa"], ["wb"]] rfl
    (by
      intro b hb a ha
      rcases List.mem_cons.mp hb with hb | hb
      · subst hb
        have ha' : a ∈ ["wa"] := mem_applyFilter (some ["wa"]) _ a ha
        rw [List.mem_singleton] at ha'
        subst ha'
        exact ⟨⟨"wa", true, 1, none⟩, rfl, rfl⟩
      · rw [List.mem_singleton] at hb
        subst hb
        have : applyFilter (some ["wa"]) ["wb"] = [] := rfl
        rw [this] at ha
        cases ha)

/-- **C10.** Command lookup tests string truthiness, not key presence: an
empty-string per-workspace override falls through to the shared default;
and when the resolved command is absent or empty at both levels, `runTask`
returns a success `TaskResult` with duration 0 instead of failing. -/
theorem C10_empty_command (cfg : Config) (ws : Workspace) (k : String)
    (g : NodesMap) (exec : ExecOracle) (alias0 : String) (node : GraphNode) :
    (lookupAL ws.command k = some "" →
      getCommand ws k cfg = lookupAL cfg.defaults k) ∧
    (lookupAL g alias0 = some node →
      (getCommand node.workspace k cfg = none ∨ getCommand node.workspace k cfg = some "") →
      runTask cfg g exec alias0 k = .ok ⟨alias0, true, 0, none⟩) := by
  constructor
  · intro h
    unfold getCommand jsOr
    rw [h]
    rfl
  · intro hlk hcmd
    unfold runTask
    simp only [hlk]
    rcases hcmd with h | h
    · rw [h]
    · rw [h]
      rfl

/-- Witness for C10: a workspace whose `build` override is the empty string
falls through to the default `make d`; and with no default either, its task
trivially succeeds with duration 0. -/
theorem C10_witness :
    getCommand ⟨"e", none, [], [("build", "")]⟩ "build"
        ⟨none, [⟨"e", none, [], [("build", "")]⟩], [("build", "make d")]⟩ =
      lookupAL [("build", "make d")] "build" ∧
    runTask ⟨none, [⟨"e", none, [], [("build", "")]⟩], []⟩
        (graphOf [⟨"e", none, [], [("build", "")]⟩]) execOk "e" "build" =
      .ok ⟨"e", true, 0, none⟩ :=
  ⟨(C10_empty_command ⟨none, [⟨"e", none, [], [("build", "")]⟩], [("build", "make d")]⟩
      ⟨"e", none, [], [("build", "")]⟩ "build" [] execOk "e"
      ⟨⟨"e", none, [], [("build", "")]⟩, [], []⟩).1 rfl,
   (C10_empty_command ⟨none, [⟨"e", none, [], [("build", "")]⟩], []⟩
      ⟨"e", none, [], [("build", "")]⟩ "build" (graphOf [⟨"e", none, [], [("build", "")]⟩])
      execOk "e" ⟨⟨"e", none, [], [("build", "")]⟩, [], []⟩).2 rfl (Or.inl rfl)⟩

theorem find?_first {α : Type} (p : α → Bool) :
    ∀ (l : List α) (x : α), l.find? p = some x ↔
      ∃ pre post, l = pre ++ x :: post ∧ p x = true ∧ ∀ w ∈ pre, p w = false := by
  intro l
  induction l with
  | nil => intro x; simp
  | cons r rest ih =>
    intro x
    cases hp : p r with
    | true =>
      rw [List.find?_cons_of_pos _ hp]
      constructor
      · intro h
        cases h
        exact ⟨[], rest, rfl, hp, by simp⟩
      · rintro ⟨pre, post, heq, hpx, hpre⟩
        cases pre with
        | nil =>
          rw [List.nil_append] at heq
          cases heq
          rfl
        | cons q pre' =>
          rw [List.cons_append] at heq
          have hq := List.cons.inj heq
          rw [hq.1] at hp
          rw [hpre q (by simp)] at hp
          simp at hp
    | false =>
      rw [List.find?_cons_of_neg _ (by simp [hp])]
      rw [ih x]
      constructor
      · rintro ⟨pre, post, heq, hpx, hpre⟩
        refine ⟨r :: pre, post, by rw [heq, List.cons_append], hpx, ?_⟩
        intro w hw
        rcases List.mem_cons.mp hw with hw | hw
        · exact hw ▸ hp
        · exact hpre w hw
      · rintro ⟨pre, post, heq, hpx, hpre⟩
        cases pre with
        | nil =>
          rw [List.nil_append] at heq
          have := List.cons.inj heq
          rw [← this.1] at hpx
          rw [hpx] at hp
          cases hp
        | cons q pre' =>
          rw [List.cons_append] at heq
          have hq := List.cons.inj heq
          exact ⟨pre', post, hq.2, hpx, fun w hw => hpre w (List.mem_cons_of_mem _ hw)⟩

/-- **C3.** Amended: the generated resolver hook identifies the calling
workspace by the FIRST declared workspace root whose path is a string
prefix of the caller's file path, in declaration order — not by the
longest-prefix match the claim describes.  This theorem characterizes the
hook exactly: it answers `a` iff some root with name `a` matches and every
earlier root does not.  When a shorter root is declared before a deeper one
that also matches, the shorter one wins (see the counterexample against the
longest-prefix reading). -/
theorem C3_resolver_first_match (roots : List (String × String)) (fp a : String) :
    findWorkspace roots fp = some a ↔
      ∃ pre ws post, roots = pre ++ ws :: post ∧ strStartsWith fp ws.2 = true ∧
        ws.1 = a ∧ ∀ w ∈ pre, strStartsWith fp w.2 = false := by
  have hiff : findWorkspace roots fp = some a ↔
      ∃ w0, roots.find? (fun ws => strStartsWith fp ws.2) = some w0 ∧ w0.1 = a := by
    unfold findWorkspace
    cases hf : roots.find? (fun ws => strStartsWith fp ws.2) with
    | none => simp
    | some w0 => simp
  rw [hiff]
  constructor
  · rintro ⟨w0, hw0, hw0a⟩
    obtain ⟨pre, post, heq, hp, hpre⟩ := (find?_first _ roots w0).mp hw0
    exact ⟨pre, w0, post, heq, hp, hw0a, hpre⟩
  · rintro ⟨pre, ws, post, heq, hsw, hwa, hpre⟩
    exact ⟨ws, (find?_first _ roots ws).mpr ⟨pre, post, heq, hsw, hpre⟩, hwa⟩

/-- Counterexample to C3 as literally stated: workspace `A` at root `/a` is
declared before workspace `B` at root `/a/b`; for a caller inside `/a/b`
the longest-prefix rule would pick `B`, but the generated hook picks the
first match `A`. -/
theorem C3_counterexample :
    findWorkspace
        (workspaceRoots [⟨"/a", some "A", [], []⟩, ⟨"/a/b", some "B", [], []⟩])
        "/a/b/f.js" = some "A" ∧
    findWorkspaceLongest
        (workspaceRoots [⟨"/a", some "A", [], []⟩, ⟨"/a/b", some "B", [], []⟩])
        "/a/b/f.js" = some "B" := by
  constructor
  · rfl
  · rfl

theorem vwLoop_nodup (pathOK : String → Bool) (allWss : List Workspace) :
    ∀ (rest : List Workspace) (aliases paths : List String),
    vwLoop pathOK allWss rest aliases paths = .ok () →
    aliases.Nodup → paths.Nodup →
    (aliases ++ rest.filterMap (fun ws => truthyStr ws.alias?)).Nodup ∧
    (paths ++ rest.map (fun ws => ws.path)).Nodup := by
  intro rest
  induction rest with
  | nil =>
    intro aliases paths _ hand hpnd
    simpa using ⟨hand, hpnd⟩
  | cons ws rest ih =>
    intro aliases paths h hand hpnd
    rw [vwLoop] at h
    split at h
    · exact Except.noConfusion h
    rename_i aliases' heq
    split at h
    · exact Except.noConfusion h
    rename_i hpdup
    split at h
    · exact Except.noConfusion h
    rename_i hpok
    split at h
    · exact Except.noConfusion h
    rename_i u hdeps
    unfold vwAliasCheck at heq
    cases hta : truthyStr ws.alias? with
    | some a =>
      simp only [hta] at heq
      by_cases hmem : a ∈ aliases
      · rw [if_pos hmem] at heq
        exact Except.noConfusion heq
      · rw [if_neg hmem] at heq
        have haeq : aliases ++ [a] = aliases' := by
          injection heq
        have hand2 : (aliases ++ [a]).Nodup := by
          refine List.Nodup.append hand (by simp) ?_
          intro x hx hx'
          simp at hx'
          exact hmem (hx' ▸ hx)
        have hpnd2 : (paths ++ [ws.path]).Nodup := by
          refine List.Nodup.append hpnd (by simp) ?_
          intro x hx hx'
          simp at hx'
          exact hpdup (hx' ▸ hx)
        rw [haeq] at hand2
        obtain ⟨H1, H2⟩ := ih aliases' (paths ++ [ws.path]) h hand2 hpnd2
        rw [← haeq] at H1
        constructor
        · rw [List.filterMap_cons, hta]
          rw [List.append_assoc] at H1
          simpa using H1
        · rw [List.map_cons]
          rw [List.append_assoc] at H2
          simpa using H2
    | none =>
      simp only [hta] at heq
      have haeq : aliases = aliases' := by
        injection heq
      have hpnd2 : (paths ++ [ws.path]).Nodup := by
        refine List.Nodup.append hpnd (by simp) ?_
        intro x hx hx'
        simp at hx'
        exact hpdup (hx' ▸ hx)
      obtain ⟨H1, H2⟩ := ih aliases' (paths ++ [ws.path]) h (haeq ▸ hand) hpnd2
      rw [← haeq] at H1
      constructor
      · rw [List.filterMap_cons, hta]
        exact H1
      · rw [List.map_cons]
        rw [List.append_assoc] at H2
        simpa using H2

/-- **C7.** Amended: what validation actually guarantees is only that the
truthy aliases are pairwise distinct and the paths are pairwise distinct.
The claim's third case — an alias of one workspace colliding with the
path-fallback identity of an alias-less workspace — is NOT detected
(neither by `validateWorkspaces` nor by graph construction, which silently
overwrites the node; see the counterexample). -/
theorem C7_duplicate_identity (pathOK : String → Bool) (config : Config)
    (h : validateWorkspaces pathOK config = .ok ()) :
    (config.workspace.filterMap (fun ws => truthyStr ws.alias?)).Nodup ∧
    (config.workspace.map (fun ws => ws.path)).Nodup := by
  have := vwLoop_nodup pathOK config.workspace config.workspace [] [] h
    (by simp) (by simp)
  simpa using this

/-- Witness for C7 on the valid two-workspace chain: validation passes and
both distinctness guarantees follow. -/
theorem C7_witness :
    validateWorkspaces (fun _ => true) cfgW = .ok () ∧
    ((cfgW.workspace.filterMap (fun ws => truthyStr ws.alias?)).Nodup ∧
     (cfgW.workspace.map (fun ws => ws.path)).Nodup) :=
  ⟨rfl, C7_duplicate_identity (fun _ => true) cfgW rfl⟩

/-- Counterexample to C7 as literally stated: `{path: p1, alias: x}` and
the alias-less `{path: x}` share the identity `x`, yet validation succeeds
and graph construction does not fail either — it silently overwrites,
leaving a single node. -/
theorem C7_counterexample :
    validateWorkspaces (fun _ => true)
      ⟨none, [⟨"p1", some "x", [], []⟩, ⟨"x", none, [], []⟩], []⟩ = .ok () ∧
    identOf ⟨"p1", some "x", [], []⟩ = identOf ⟨"x", none, [], []⟩ ∧
    (⟨"p1", some "x", [], []⟩ : Workspace) ≠ ⟨"x", none, [], []⟩ ∧
    (graphOf [⟨"p1", some "x", [], []⟩, ⟨"x", none, [], []⟩]).length = 1 := by
  refine ⟨rfl, rfl, ?_, rfl⟩
  intro h
  simp at h

theorem apHas_push (ap : List (String × VersionMapT)) (p v i : String) :
    ∀ q u w, apHas (pushPkgVersion ap p v i) q u w ↔
      (apHas ap q u w ∨ (q = p ∧ u = v ∧ w = i)) := by
  intro q u w
  unfold pushPkgVersion apHas
  by_cases hq : q = p
  · subst hq
    rw [lookupAL_setAL_self]
    constructor
    · rintro ⟨vm', l', hvm', hl', hw⟩
      injection hvm' with hvm'
      subst hvm'
      by_cases hu : u = v
      · subst hu
        rw [lookupAL_setAL_self] at hl'
        injection hl' with hl'
        subst hl'
        rcases List.mem_append.mp hw with hw | hw
        · left
          cases hap : lookupAL ap q with
          | none =>
            simp only [hap, Option.getD_none] at hw
            simp [lookupAL] at hw
          | some vm0 =>
            simp only [hap, Option.getD_some] at hw
            cases hvm0 : lookupAL vm0 u with
            | none =>
              simp only [hvm0, Option.getD_none] at hw
              simp at hw
            | some l0 =>
              simp only [hvm0, Option.getD_some] at hw
              exact ⟨vm0, l0, rfl, hvm0, hw⟩
        · right
          simp at hw
          exact ⟨rfl, rfl, hw⟩
      · rw [lookupAL_setAL_ne _ _ _ _ hu] at hl'
        left
        cases hap : lookupAL ap q with
        | none =>
          rw [hap] at hl'
          simp [lookupAL] at hl'
        | some vm0 =>
          rw [hap] at hl'
          exact ⟨vm0, l', rfl, hl', hw⟩
    · rintro (⟨vm0, l0, hvm0, hl0, hw⟩ | ⟨_, hu, hw⟩)
      · by_cases hu : u = v
        · subst hu
          refine ⟨setAL ((lookupAL ap q).getD []) u
              (((lookupAL ((lookupAL ap q).getD []) u).getD []) ++ [i]),
            ((lookupAL ((lookupAL ap q).getD []) u).getD []) ++ [i], rfl,
            lookupAL_setAL_self _ _ _, ?_⟩
          rw [hvm0]
          simp only [Option.getD_some]
          rw [hl0]
          simp only [Option.getD_some]
          exact List.mem_append.mpr (Or.inl hw)
        · refine ⟨setAL ((lookupAL ap q).getD []) v
              (((lookupAL ((lookupAL ap q).getD []) v).getD []) ++ [i]), l0, rfl, ?_, hw⟩
          rw [lookupAL_setAL_ne _ _ _ _ hu, hvm0]
          simp only [Option.getD_some]
          exact hl0
      · subst hu
        subst hw
        refine ⟨_, _, rfl, by rw [lookupAL_setAL_self], ?_⟩
        exact List.mem_append.mpr (Or.inr (by simp))
  · rw [lookupAL_setAL_ne _ _ _ _ hq]
    constructor
    · intro h
      exact Or.inl h
    · rintro (h | ⟨hqp, _, _⟩)
      · exact h
      · exact absurd hqp hq

theorem pushPkgVersion_keys (ap : List (String × VersionMapT)) (p v i : String) :
    (keysAL ap).Nodup → (keysAL (pushPkgVersion ap p v i)).Nodup := by
  intro h
  unfold pushPkgVersion
  exact nodup_keys_setAL _ _ _ h

theorem pushPkgVersion_wellformed (ap : List (String × VersionMapT)) (p v i : String)
    (h : ∀ q vm, lookupAL ap q = some vm →
      (keysAL vm).Nodup ∧ ∀ u l, lookupAL vm u = some l → l ≠ []) :
    ∀ q vm, lookupAL (pushPkgVersion ap p v i) q = some vm →
      (keysAL vm).Nodup ∧ ∀ u l, lookupAL vm u = some l → l ≠ [] := by
  intro q vm hvm
  unfold pushPkgVersion at hvm
  by_cases hq : q = p
  · subst hq
    rw [lookupAL_setAL_self] at hvm
    injection hvm with hvm
    subst hvm
    cases hap : lookupAL ap q with
    | none =>
      simp only [hap, Option.getD_none]
      constructor
      · show (keysAL (setAL ([] : VersionMapT) v _)).Nodup
        exact nodup_keys_setAL _ _ _ (by simp [keysAL])
      · intro u l hl
        by_cases hu : u = v
        · subst hu
          rw [lookupAL_setAL_self] at hl
          injection hl with hl
          subst hl
          simp [lookupAL]
        · rw [lookupAL_setAL_ne _ _ _ _ hu] at hl
          simp [lookupAL] at hl
    | some vm0 =>
      obtain ⟨hvmnd, hne⟩ := h q vm0 hap
      simp only [hap, Option.getD_some]
      constructor
      · exact nodup_keys_setAL _ _ _ hvmnd
      · intro u l hl
        by_cases hu : u = v
        · subst hu
          rw [lookupAL_setAL_self] at hl
          injection hl with hl
          subst hl
          simp
        · rw [lookupAL_setAL_ne _ _ _ _ hu] at hl
          exact hne u l hl
  · rw [lookupAL_setAL_ne _ _ _ _ hq] at hvm
    exact h q vm hvm

theorem resolvesTo_setResolution (rm : ResolutionMapT) (i p : String) (rp : ResolvedPkg)
    (wr : WsResolution) (hwr : lookupAL rm i = some wr) :
    ∀ w q u, resolvesTo (setResolution rm i p rp) w q u ↔
      ((w = i ∧ q = p ∧ u = rp.version) ∨
       (w = i ∧ q ≠ p ∧ resolvesTo rm i q u) ∨
       (w ≠ i ∧ resolvesTo rm w q u)) := by
  intro w q u
  unfold resolvesTo
  have hself : lookupAL (setResolution rm i p rp) i = some (setAL wr p rp) := by
    unfold setResolution
    rw [hwr]
    simp only [Option.getD_some]
    exact lookupAL_setAL_self _ _ _
  have hnei : ∀ w', w' ≠ i → lookupAL (setResolution rm i p rp) w' = lookupAL rm w' := by
    intro w' hw'
    unfold setResolution
    exact lookupAL_setAL_ne _ _ _ _ hw'
  by_cases hw : w = i
  · subst hw
    constructor
    · rintro ⟨wr', rp', hwr', hrp', hv⟩
      rw [hself] at hwr'
      injection hwr' with hwr'
      subst hwr'
      by_cases hq : q = p
      · subst hq
        rw [lookupAL_setAL_self] at hrp'
        injection hrp' with hrp'
        subst hrp'
        exact Or.inl ⟨rfl, rfl, hv.symm⟩
      · rw [lookupAL_setAL_ne _ _ _ _ hq] at hrp'
        exact Or.inr (Or.inl ⟨rfl, hq, wr, rp', hwr, hrp', hv⟩)
    · rintro (⟨_, hq, hu⟩ | ⟨_, hq, wr', rp', hwr', hrp', hv⟩ | ⟨hni, _⟩)
      · subst hq
        exact ⟨setAL wr q rp, rp, hself, lookupAL_setAL_self _ _ _, hu.symm⟩
      · rw [hwr] at hwr'
        injection hwr' with hwr'
        subst hwr'
        exact ⟨setAL wr p rp, rp', hself,
          by rw [lookupAL_setAL_ne _ _ _ _ hq]; exact hrp', hv⟩
      · exact absurd rfl hni
  · constructor
    · rintro ⟨wr', rp', hwr', hrp', hv⟩
      rw [hnei w hw] at hwr'
      exact Or.inr (Or.inr ⟨hw, wr', rp', hwr', hrp', hv⟩)
    · rintro (⟨hwi, _⟩ | ⟨hwi, _⟩ | ⟨_, wr', rp', hwr', hrp', hv⟩)
      · exact absurd hwi hw
      · exact absurd hwi hw
      · exact ⟨wr', rp', by rw [hnei w hw]; exact hwr', hrp', hv⟩

theorem analyzeDeps_cons (resolveIV : String → String → String → Option ResolvedPkg)
    (ws : Workspace) (pv : String × String) (deps : List (String × String))
    (st : ResolutionMapT × List (String × VersionMapT)) :
    analyzeDeps resolveIV ws (pv :: deps) st =
      analyzeDeps resolveIV ws deps
        (if strStartsWith pv.2 "workspace:" then st
         else match resolveIV ws.path pv.1 pv.2 with
           | none => st
           | some rp => (setResolution st.1 (identOf ws) pv.1 rp,
                pushPkgVersion st.2 pv.1 rp.version (identOf ws))) := by
  unfold analyzeDeps
  rw [List.foldl_cons]

theorem analyzeDeps_spec (resolveIV : String → String → String → Option ResolvedPkg)
    (ws : Workspace) :
    ∀ (deps : List (String × String)) (st : ResolutionMapT × List (String × VersionMapT))
      (wr : WsResolution),
    lookupAL st.1 (identOf ws) = some wr →
    (∀ pv ∈ deps, lookupAL wr pv.1 = none) →
    (deps.map (fun pv => pv.1)).Nodup →
    (keysAL st.2).Nodup →
    (∀ p vm, lookupAL st.2 p = some vm →
      (keysAL vm).Nodup ∧ ∀ v l, lookupAL vm v = some l → l ≠ []) →
    (∀ p v w, apHas st.2 p v w ↔ resolvesTo st.1 w p v) →
    keysAL (analyzeDeps resolveIV ws deps st).1 = keysAL st.1 ∧
    (keysAL (analyzeDeps resolveIV ws deps st).2).Nodup ∧
    (∀ p vm, lookupAL (analyzeDeps resolveIV ws deps st).2 p = some vm →
      (keysAL vm).Nodup ∧ ∀ v l, lookupAL vm v = some l → l ≠ []) ∧
    (∀ p v w, apHas (analyzeDeps resolveIV ws deps st).2 p v w ↔
      resolvesTo (analyzeDeps resolveIV ws deps st).1 w p v) := by
  intro deps
  induction deps with
  | nil =>
    intro st wr _ _ _ h4 h5 h6
    exact ⟨rfl, h4, h5, h6⟩
  | cons pv rest ih =>
    intro st wr hwr hrest hnd h4 h5 h6
    rw [List.map_cons] at hnd
    have hnd' := List.nodup_cons.mp hnd
    by_cases hwsp : strStartsWith pv.2 "workspace:" = true
    · rw [analyzeDeps_cons, if_pos hwsp]
      exact ih st wr hwr (fun pv' hpv' => hrest pv' (List.mem_cons_of_mem _ hpv'))
        hnd'.2 h4 h5 h6
    · rw [analyzeDeps_cons, if_neg hwsp]
      cases hres : resolveIV ws.path pv.1 pv.2 with
      | none =>
        exact ih st wr hwr (fun pv' hpv' => hrest pv' (List.mem_cons_of_mem _ hpv'))
          hnd'.2 h4 h5 h6
      | some rp =>
        have hdephead : lookupAL wr pv.1 = none := hrest pv (by simp)
        have hwr2 : lookupAL (setResolution st.1 (identOf ws) pv.1 rp) (identOf ws) =
            some (setAL wr pv.1 rp) := by
          unfold setResolution
          rw [hwr]
          simp only [Option.getD_some]
          exact lookupAL_setAL_self _ _ _
        have hrest2 : ∀ pv' ∈ rest, lookupAL (setAL wr pv.1 rp) pv'.1 = none := by
          intro pv' hpv'
          have hne : pv'.1 ≠ pv.1 := by
            intro hc
            exact hnd'.1 (hc ▸ List.mem_map.mpr ⟨pv', hpv', rfl⟩)
          rw [lookupAL_setAL_ne _ _ _ _ hne]
          exact hrest pv' (List.mem_cons_of_mem _ hpv')
        have h4' : (keysAL (pushPkgVersion st.2 pv.1 rp.version (identOf ws))).Nodup :=
          pushPkgVersion_keys _ _ _ _ h4
        have h5' := pushPkgVersion_wellformed st.2 pv.1 rp.version (identOf ws) h5
        have h6' : ∀ q u w,
            apHas (pushPkgVersion st.2 pv.1 rp.version (identOf ws)) q u w ↔
            resolvesTo (setResolution st.1 (identOf ws) pv.1 rp) w q u := by
          intro q u w
          rw [apHas_push]
          rw [resolvesTo_setResolution st.1 (identOf ws) pv.1 rp wr hwr]
          constructor
          · rintro (h | ⟨hq, hu, hww⟩)
            · rw [h6 q u w] at h
              by_cases hwi : w = identOf ws
              · subst hwi
                refine Or.inr (Or.inl ⟨rfl, ?_, h⟩)
                intro hq
                subst hq
                obtain ⟨wr', rp', hwr', hrp', _⟩ := h
                rw [hwr] at hwr'
                injection hwr' with hwr'
                subst hwr'
                rw [hdephead] at hrp'
                cases hrp'
              · exact Or.inr (Or.inr ⟨hwi, h⟩)
            · exact Or.inl ⟨hww, hq, hu⟩
          · rintro (⟨hww, hq, hu⟩ | ⟨hww, hq, h⟩ | ⟨hww, h⟩)
            · exact Or.inr ⟨hq, hu, hww⟩
            · subst hww
              exact Or.inl ((h6 q u _).mpr h)
            · exact Or.inl ((h6 q u w).mpr h)
        have hkeys : keysAL (setResolution st.1 (identOf ws) pv.1 rp) = keysAL st.1 := by
          unfold setResolution
          exact keysAL_setAL_mem _ _ _
            ((lookupAL_mem_keys _ _).mp (by rw [hwr]; rfl))
        obtain ⟨k1, k2, k3, k4⟩ := ih
          (setResolution st.1 (identOf ws) pv.1 rp,
           pushPkgVersion st.2 pv.1 rp.version (identOf ws))
          (setAL wr pv.1 rp) hwr2 hrest2 hnd'.2 h4' h5' h6'
        exact ⟨by rw [k1]; exact hkeys, k2, k3, k4⟩

theorem analyzeFold_spec (manifest : String → Option (List (String × String)))
    (resolveIV : String → String → String → Option ResolvedPkg)
    (hman : ∀ pws deps, manifest pws = some deps → (deps.map (fun pv => pv.1)).Nodup) :
    ∀ (wss : List Workspace) (st : ResolutionMapT × List (String × VersionMapT))
      (done : List String),
    (∀ k ∈ keysAL st.1, k ∈ done) →
    (∀ ws ∈ wss, identOf ws ∉ done) →
    (wss.map identOf).Nodup →
    (keysAL st.2).Nodup →
    (∀ p vm, lookupAL st.2 p = some vm →
      (keysAL vm).Nodup ∧ ∀ v l, lookupAL vm v = some l → l ≠ []) →
    (∀ p v w, apHas st.2 p v w ↔ resolvesTo st.1 w p v) →
    (keysAL (wss.foldl (fun st ws =>
        match manifest ws.path with
        | none => st
        | some deps => analyzeDeps resolveIV ws deps (setAL st.1 (identOf ws) [], st.2))
        st).2).Nodup ∧
    (∀ p vm, lookupAL (wss.foldl (fun st ws =>
        match manifest ws.path with
        | none => st
        | some deps => analyzeDeps resolveIV ws deps (setAL st.1 (identOf ws) [], st.2))
        st).2 p = some vm →
      (keysAL vm).Nodup ∧ ∀ v l, lookupAL vm v = some l → l ≠ []) ∧
    (∀ p v w, apHas (wss.foldl (fun st ws =>
        match manifest ws.path with
        | none => st
        | some deps => analyzeDeps resolveIV ws deps (setAL st.1 (identOf ws) [], st.2))
        st).2 p v w ↔
      resolvesTo (wss.foldl (fun st ws =>
        match manifest ws.path with
        | none => st
        | some deps => analyzeDeps resolveIV ws deps (setAL st.1 (identOf ws) [], st.2))
        st).1 w p v) := by
  intro wss
  induction wss with
  | nil =>
    intro st done _ _ _ h4 h5 h6
    exact ⟨h4, h5, h6⟩
  | cons ws wss ih =>
    intro st done hsub hdone hnd h4 h5 h6
    rw [List.map_cons] at hnd
    have hnd' := List.nodup_cons.mp hnd
    rw [List.foldl_cons]
    cases hm : manifest ws.path with
    | none =>
      exact ih st (done ++ [identOf ws])
        (fun k hk => List.mem_append.mpr (Or.inl (hsub k hk)))
        (by
          intro w' hw' hc
          rcases List.mem_append.mp hc with hc | hc
          · exact hdone w' (List.mem_cons_of_mem _ hw') hc
          · simp at hc
            exact hnd'.1 (hc ▸ List.mem_map.mpr ⟨w', hw', rfl⟩))
        hnd'.2 h4 h5 h6
    | some deps =>
      have hinotk : identOf ws ∉ keysAL st.1 := by
        intro hc
        exact hdone ws (by simp) (hsub _ hc)
      have hwr0 : lookupAL (setAL st.1 (identOf ws) []) (identOf ws) =
          some ([] : WsResolution) := lookupAL_setAL_self _ _ _
      have h6' : ∀ p v w, apHas st.2 p v w ↔
          resolvesTo (setAL st.1 (identOf ws) []) w p v := by
        intro p v w
        rw [h6 p v w]
        unfold resolvesTo
        by_cases hwi : w = identOf ws
        · subst hwi
          constructor
          · rintro ⟨wr', rp', hwr', _, _⟩
            exact absurd ((lookupAL_mem_keys _ _).mp (by rw [hwr']; rfl)) hinotk
          · rintro ⟨wr', rp', hwr', hrp', _⟩
            rw [hwr0] at hwr'
            injection hwr' with hwr'
            subst hwr'
            simp [lookupAL] at hrp'
        · rw [lookupAL_setAL_ne _ _ _ _ hwi]
      obtain ⟨d1, d2, d3, d4⟩ := analyzeDeps_spec resolveIV ws deps
        (setAL st.1 (identOf ws) [], st.2) [] hwr0
        (fun pv _ => rfl) (hman ws.path deps hm) h4 h5 h6'
      apply ih _ (done ++ [identOf ws])
      · intro k hk
        rw [d1] at hk
        rcases (mem_keysAL_setAL st.1 (identOf ws) k ([] : WsResolution)).mp hk with hk | hk
        · exact List.mem_append.mpr (Or.inl (hsub k hk))
        · exact List.mem_append.mpr (Or.inr (by simp [hk]))
      · intro w' hw' hc
        rcases List.mem_append.mp hc with hc | hc
        · exact hdone w' (List.mem_cons_of_mem _ hw') hc
        · simp at hc
          exact hnd'.1 (hc ▸ List.mem_map.mpr ⟨w', hw', rfl⟩)
      · exact hnd'.2
      · exact d2
      · exact d3
      · exact d4

theorem one_lt_length_of_two_keys {α : Type} (vm : List (String × α)) (v1 v2 : String)
    (h1 : v1 ∈ keysAL vm) (h2 : v2 ∈ keysAL vm) (hne : v1 ≠ v2) : 1 < vm.length := by
  match vm with
  | [] => simp [keysAL] at h1
  | [x] =>
    simp [keysAL] at h1 h2
    exact absurd (h1.trans h2.symm) hne
  | x :: y :: rest =>
    simp only [List.length_cons]
    omega

theorem two_keys_of_one_lt_length {α : Type} (vm : List (String × α))
    (hnd : (keysAL vm).Nodup) (hlen : 1 < vm.length) :
    ∃ v1 v2, v1 ∈ keysAL vm ∧ v2 ∈ keysAL vm ∧ v1 ≠ v2 := by
  match vm with
  | [] => simp at hlen
  | [x] => simp at hlen
  | x :: y :: rest =>
    refine ⟨x.1, y.1, by simp [keysAL], by simp [keysAL], ?_⟩
    have hx : x.1 ∉ keysAL (y :: rest) := by
      have hk : keysAL (x :: y :: rest) = x.1 :: keysAL (y :: rest) := rfl
      rw [hk] at hnd
      exact (List.nodup_cons.mp hnd).1
    intro hc
    apply hx
    rw [hc]
    simp [keysAL]

theorem conflicts_spec (rm : ResolutionMapT) (ap : List (String × VersionMapT))
    (hapnd : (keysAL ap).Nodup)
    (hwf : ∀ p vm, lookupAL ap p = some vm →
      (keysAL vm).Nodup ∧ ∀ v l, lookupAL vm v = some l → l ≠ [])
    (hb : ∀ p v w, apHas ap p v w ↔ resolvesTo rm w p v) :
    ∀ p : String,
      ((∃ c ∈ (ap.filter (fun q => decide (1 < q.2.length))).map
          (fun q => (⟨q.1, q.2⟩ : ConflictInfo)), c.packageName = p) ↔
        (∃ w1 v1 w2 v2, resolvesTo rm w1 p v1 ∧ resolvesTo rm w2 p v2 ∧ v1 ≠ v2)) ∧
      (∀ c ∈ (ap.filter (fun q => decide (1 < q.2.length))).map
          (fun q => (⟨q.1, q.2⟩ : ConflictInfo)), c.packageName = p →
        ∀ v w, (∃ l, lookupAL c.versions v = some l ∧ w ∈ l) ↔ resolvesTo rm w p v) := by
  intro p
  constructor
  · constructor
    · rintro ⟨c, hc, hcp⟩
      rw [List.mem_map] at hc
      obtain ⟨q, hq, hqc⟩ := hc
      rw [List.mem_filter] at hq
      obtain ⟨hqap, hqlen⟩ := hq
      rw [decide_eq_true_eq] at hqlen
      have hq1 : q.1 = p := by rw [← hqc] at hcp; exact hcp
      have hlook : lookupAL ap p = some q.2 := by
        rw [← hq1]
        exact lookupAL_eq_some_of_mem_nodup ap q.1 q.2 hapnd (by rw [Prod.mk.eta] at *; exact hqap)
      obtain ⟨hvmnd, hne⟩ := hwf p q.2 hlook
      obtain ⟨v1, v2, hv1, hv2, hv12⟩ := two_keys_of_one_lt_length q.2 hvmnd hqlen
      obtain ⟨l1, hl1⟩ := Option.isSome_iff_exists.mp ((lookupAL_mem_keys _ _).mpr hv1)
      obtain ⟨l2, hl2⟩ := Option.isSome_iff_exists.mp ((lookupAL_mem_keys _ _).mpr hv2)
      obtain ⟨w1, hw1⟩ := List.exists_mem_of_ne_nil l1 (hne v1 l1 hl1)
      obtain ⟨w2, hw2⟩ := List.exists_mem_of_ne_nil l2 (hne v2 l2 hl2)
      exact ⟨w1, v1, w2, v2, (hb p v1 w1).mp ⟨q.2, l1, hlook, hl1, hw1⟩,
        (hb p v2 w2).mp ⟨q.2, l2, hlook, hl2, hw2⟩, hv12⟩
    · rintro ⟨w1, v1, w2, v2, h1, h2, hne⟩
      obtain ⟨vm1, l1, hap1, hl1, hw1⟩ := (hb p v1 w1).mpr h1
      obtain ⟨vm2, l2, hap2, hl2, hw2⟩ := (hb p v2 w2).mpr h2
      rw [hap1] at hap2
      injection hap2 with hap2
      subst hap2
      have hk1 : v1 ∈ keysAL vm1 := (lookupAL_mem_keys _ _).mp (by rw [hl1]; rfl)
      have hk2 : v2 ∈ keysAL vm1 := (lookupAL_mem_keys _ _).mp (by rw [hl2]; rfl)
      have hlen := one_lt_length_of_two_keys vm1 v1 v2 hk1 hk2 hne
      refine ⟨⟨p, vm1⟩, List.mem_map.mpr ⟨(p, vm1), ?_, rfl⟩, rfl⟩
      rw [List.mem_filter]
      exact ⟨mem_of_lookupAL_eq_some ap p vm1 hap1, by rw [decide_eq_true_eq]; exact hlen⟩
  · intro c hc hcp v w
    rw [List.mem_map] at hc
    obtain ⟨q, hq, hqc⟩ := hc
    rw [List.mem_filter] at hq
    have hq1 : q.1 = p := by rw [← hqc] at hcp; exact hcp
    have hlook : lookupAL ap p = some q.2 := by
      rw [← hq1]
      exact lookupAL_eq_some_of_mem_nodup ap q.1 q.2 hapnd (by rw [Prod.mk.eta] at *; exact hq.1)
    have hcv : c.versions = q.2 := by rw [← hqc]
    rw [hcv]
    rw [← hb p v w]
    unfold apHas
    constructor
    · rintro ⟨l, hl, hw⟩
      exact ⟨q.2, l, hlook, hl, hw⟩
    · rintro ⟨vm', l, hap', hl, hw⟩
      rw [hlook] at hap'
      injection hap' with hap'
      subst hap'
      exact ⟨l, hl, hw⟩

/-- **C4.** After `analyze` completes (manifest keys per workspace are
duplicate-free, workspace identities distinct): a conflict record for a
package `p` exists iff two workspaces resolved `p` to two distinct version
strings, and every conflict record's version-to-workspaces map is exactly
the inverse of the per-workspace resolution map restricted to `p`:
workspace `w` is listed under version `v` iff the resolution map gives
`w`'s entry for `p` that version. -/
theorem C4_analyze_conflicts
    (manifest : String → Option (List (String × String)))
    (resolveIV : String → String → String → Option ResolvedPkg)
    (wss : List Workspace)
    (hnd : (wss.map identOf).Nodup)
    (hman : ∀ pws deps, manifest pws = some deps → (deps.map (fun pv => pv.1)).Nodup) :
    ∀ p : String,
      ((∃ c ∈ (analyzeCore manifest resolveIV wss).2, c.packageName = p) ↔
        (∃ w1 v1 w2 v2, resolvesTo (analyzeCore manifest resolveIV wss).1 w1 p v1 ∧
          resolvesTo (analyzeCore manifest resolveIV wss).1 w2 p v2 ∧ v1 ≠ v2)) ∧
      (∀ c ∈ (analyzeCore manifest resolveIV wss).2, c.packageName = p →
        ∀ v w, (∃ l, lookupAL c.versions v = some l ∧ w ∈ l) ↔
          resolvesTo (analyzeCore manifest resolveIV wss).1 w p v) := by
  obtain ⟨a1, a2, a3⟩ := analyzeFold_spec manifest resolveIV hman wss
    (([] : ResolutionMapT), ([] : List (String × VersionMapT))) []
    (by simp [keysAL])
    (by simp)
    hnd
    (by simp [keysAL])
    (by intro p vm h; simp [lookupAL] at h)
    (by
      intro p v w
      constructor
      · rintro ⟨vm, l, h, _, _⟩
        simp [lookupAL] at h
      · rintro ⟨wr, rp, h, _, _⟩
        simp [lookupAL] at h)
  exact conflicts_spec _ _ a1 a2 a3

/-- Witness for C4: the spec's own scenario — `w1` resolves `express` to
`5.0.0`, `w2` to `4.18.3` — produces exactly one conflict record for
`express` whose version map inverts the resolution map. -/
theorem C4_witness :
    (analyzeCore manifest4 resolveIV4 wss4).2 =
      [⟨"express", [("5.0.0", ["w1"]), ("4.18.3", ["w2"])]⟩] ∧
    (((∃ c ∈ (analyzeCore manifest4 resolveIV4 wss4).2, c.packageName = "express") ↔
        (∃ w1 v1 w2 v2, resolvesTo (analyzeCore manifest4 resolveIV4 wss4).1 w1 "express" v1 ∧
          resolvesTo (analyzeCore manifest4 resolveIV4 wss4).1 w2 "express" v2 ∧ v1 ≠ v2)) ∧
      (∀ c ∈ (analyzeCore manifest4 resolveIV4 wss4).2, c.packageName = "express" →
        ∀ v w, (∃ l, lookupAL c.versions v = some l ∧ w ∈ l) ↔
          resolvesTo (analyzeCore manifest4 resolveIV4 wss4).1 w "express" v)) :=
  ⟨rfl,
   C4_analyze_conflicts manifest4 resolveIV4 wss4 (by decide)
     (by
       intro pws deps h
       unfold manifest4 at h
       split at h
       · injection h with h
         subst h
         decide
       · split at h
         · injection h with h
           subst h
           decide
         · cases h)
     "express"⟩

end Spinx
